import Mathlib

/-!
# big_integer (src/bigint-NULL31337/big_integer.cpp)

A shallow embedding of the arbitrary-precision integer of the repository.
A `uint32_t` limb is a natural number below `B = 2^32`; every machine
operation that can wrap carries its reduction `% B` (or `% 2^64` for the
`uint64_t` temporaries).  `std::vector<uint32_t> number` is a list, least
significant limb first, exactly as in the source.
-/

namespace big_integer

/-- The limb base, `UINT32_MAX + 1`. -/
def B : Nat := 4294967296

/-- The constant `UINT32_MAX` of `<cstdint>`. -/
def UINT32_MAX : Nat := 4294967295

/-- The range of a `uint64_t` temporary. -/
def B64 : Nat := 18446744073709551616

end big_integer

/-- The class `big_integer`: the limb vector `number` and the flag `sign`. -/
structure big_integer where
  number : List Nat
  sign : Bool
deriving DecidableEq, Repr

/-- How a call ends when it does not return a value. -/
inductive Fault where
  /-- A thrown `std::invalid_argument` with its message. -/
  | invalid_argument (what : String)
  /-- Undefined behaviour: a machine division whose divisor is zero. -/
  | division_by_zero_ub
  /-- A thrown `std::length_error`: `number.resize(ls - rs)` with `ls < rs`, where the
  `size_t` difference wraps. -/
  | length_error
  /-- The loop `while (left < 0)` of `operator/=` did not finish within the fuel
  given to the model. -/
  | out_of_fuel
deriving DecidableEq, Repr

/-- The outcome of a call that can throw or be undefined. -/
inductive Outcome (α : Type) where
  | ok (a : α)
  | fail (e : Fault)
deriving DecidableEq, Repr

namespace Outcome

/-- Sequencing: the first failure ends the computation. -/
def bind {α β : Type} (x : Outcome α) (f : α → Outcome β) : Outcome β :=
  match x with
  | ok a => f a
  | fail e => fail e

end Outcome

namespace big_integer

/-- The default constructor `big_integer()`: `number(1, 0), sign(false)`. -/
def zero : big_integer := ⟨[0], false⟩

/-- The loop `while (number.size() > 1 && ((number.back() == UINT32_MAX && sign) ||
(!sign && number.back() == 0))) number.pop_back();` of `fit`, on the limbs above
the lowest one: `fit_pop sign tl` is what is left of `tl` (the lowest limb is never
popped, because of `number.size() > 1`). -/
def fit_pop (sign : Bool) : List Nat → List Nat
  | [] => []
  | x :: xs =>
    match fit_pop sign xs with
    | [] => if (x = UINT32_MAX ∧ sign = true) ∨ (sign = false ∧ x = 0) then [] else [x]
    | y :: ys => x :: y :: ys

/-- The member `fit()`. -/
def fit (a : big_integer) : big_integer :=
  match a.number with
  | [] => a
  | x :: xs =>
    if xs = [] ∧ x = 0 then ⟨[x], false⟩
    else
      let number := x :: fit_pop a.sign xs
      if a.sign = true ∧ number.getLastD 0 = 0 then ⟨number ++ [UINT32_MAX], a.sign⟩
      else ⟨number, a.sign⟩

/-- The static `add32c(first, second, carry)`: the new `first` and the returned carry. -/
def add32c (first second carry : Nat) : Nat × Nat :=
  let first1 := (first + (second + carry) % B) % B
  (first1, if first1 < (second + carry) % B ∨ (second = UINT32_MAX ∧ carry ≠ 0) then 1 else 0)

/-- The static `reserve(other, size)`. -/
def reserve (other : big_integer) (size : Nat) : big_integer :=
  if other.number.length < size then
    ⟨other.number ++ List.replicate (size - other.number.length)
        (if other.sign then UINT32_MAX else 0), other.sign⟩
  else other

/-- The loop of `operator+=`: `carry = add32c(number[i], right.number[i], carry)` for
`i` from `0` to `number.size() - 1`. -/
def add_loop : List Nat → List Nat → Nat → List Nat
  | x :: xs, y :: ys, carry => (add32c x y carry).1 :: add_loop xs ys (add32c x y carry).2
  | _, _, _ => []

/-- The limbs of `operator+=` after its loop: both operands are extended by `reserve`
and added limb by limb. -/
def add_limbs (a rhs : big_integer) : List Nat :=
  let this := reserve a (max a.number.length rhs.number.length + 1)
  let right := reserve rhs (max this.number.length (rhs.number.length + 1))
  add_loop this.number right.number 0

/-- The assignment form `operator+=` (and `operator+`, which calls it on a copy): after
the loop, `sign = number.back() >> 31; fit();`. -/
def add (a rhs : big_integer) : big_integer :=
  let number := add_limbs a rhs
  fit ⟨number, decide (number.getLastD 0 >>> 31 ≠ 0)⟩

/-- The loop of `negate_no_copy`: complement each limb and add the carry, which starts
as `true` and stays `true` as long as the complemented limb is `UINT32_MAX`. -/
def negate_loop : List Nat → Bool → List Nat
  | [], _ => []
  | x :: xs, carry =>
    let x1 := x ^^^ UINT32_MAX
    if carry then ((x1 + 1) % B) :: negate_loop xs (decide (x1 = UINT32_MAX))
    else x1 :: negate_loop xs false

/-- The member `negate_no_copy()`. -/
def negate_no_copy (a : big_integer) : big_integer :=
  fit ⟨negate_loop a.number true, xor a.sign true⟩

/-- The unary `operator-`: `negate_no_copy` on a copy. -/
def neg (a : big_integer) : big_integer := negate_no_copy a

/-- The member `negate()`: `*this = -(*this)`. -/
def negate (a : big_integer) : big_integer := neg a

/-- The member `abs()`. -/
def abs (a : big_integer) : big_integer := if a.sign then neg a else a

/-- The assignment form `operator-=` (and `operator-`): `*this += -rhs`. -/
def sub (a rhs : big_integer) : big_integer := add a (neg rhs)

/-- The constructor `big_integer(uint32_t a, uint32_t b, bool sign_)`. -/
def of_limbs (a b : Nat) (sign_ : Bool) : big_integer := fit ⟨[a, b], sign_⟩

/-- The constructor `big_integer(unsigned long long a)`; the two casts to `uint32_t`
keep the low and the high half. -/
def of_unsigned_long_long (a : Nat) : big_integer :=
  of_limbs (a % B) ((a >>> 32) % B) false

/-- The constructor `big_integer(long long a)`; `a >> 32` is the arithmetic shift. -/
def of_long_long (a : Int) : big_integer :=
  of_limbs (a % (B : Int)).toNat ((a / (B : Int)) % (B : Int)).toNat (decide (a < 0))

/-- The constructor `big_integer(uint32_t a)`, which widens to `unsigned long long`. -/
def of_uint32 (a : Nat) : big_integer := of_unsigned_long_long a

/-- The constructor `big_integer(int a)`, which widens to `long long`. -/
def of_int (a : Int) : big_integer := of_long_long a

/-- The loop of `mul_long_short`: `tmp = number[i] * second + carry` in 64 bits, the low
half is pushed and the high half is the next carry; the last carry is pushed at the
end. -/
def mul_long_short_loop (second : Nat) : List Nat → Nat → List Nat
  | [], carry => [carry]
  | x :: xs, carry =>
    let tmp := (x * second + carry) % B64
    (tmp % B) :: mul_long_short_loop second xs ((tmp >>> 32) % B)

/-- The member `mul_long_short(second)`: the result is a fresh `big_integer` (sign
`false`) that is not passed through `fit`. -/
def mul_long_short (a : big_integer) (second : Nat) : big_integer :=
  ⟨mul_long_short_loop second a.number 0, false⟩

/-- The loop of `operator<<=` for a nonzero `offset`: `tmp = (number[i] << offset) +
carry`, the low half stays in place and the high half is the next carry; the result is
the new limbs and the last carry. -/
def shl_loop (offset : Nat) : List Nat → Nat → List Nat × Nat
  | [], carry => ([], carry)
  | x :: xs, carry =>
    let tmp := ((x <<< offset) + carry) % B64
    let r := shl_loop offset xs ((tmp >>> 32) % B)
    ((tmp % B) :: r.1, r.2)

/-- The assignment form `operator<<=` (and `operator<<`) for a shift amount `rhs ≥ 0`. -/
def shl (a : big_integer) (rhs : Nat) : big_integer :=
  let offset := rhs % 32
  let number :=
    if offset ≠ 0 then
      let r := shl_loop offset a.number 0
      r.1 ++ [((((if a.sign then UINT32_MAX else 0) <<< offset) % B) + r.2) % B]
    else a.number
  fit ⟨List.replicate (rhs / 32) 0 ++ number, a.sign⟩

/-- The loop of `operator>>=` for a nonzero remainder `rhs` of the shift amount, from the
most significant limb down: `tmp = (number[i - 1] << (32 - rhs)) + carry`, `carry = tmp
<< 32` in 64 bits, and the limb becomes `tmp >> 32`.  The argument lists the limbs most
significant first, and so does the result. -/
def shr_loop (rhs : Nat) : List Nat → Nat → List Nat
  | [], _ => []
  | x :: xs, carry =>
    let tmp := ((x <<< (32 - rhs)) + carry) % B64
    ((tmp >>> 32) % B) :: shr_loop rhs xs ((tmp <<< 32) % B64)

/-- The assignment form `operator>>=` (and `operator>>`) for a shift amount `rhs ≥ 0`. -/
def shr (a : big_integer) (rhs : Nat) : big_integer :=
  let number := a.number.drop (min a.number.length (rhs / 32))
  if number.length = 0 then ⟨[0], a.sign⟩
  else
    let number := if a.sign then number ++ [UINT32_MAX] else number
    let r := rhs % 32
    let number := if r ≠ 0 then (shr_loop r number.reverse 0).reverse else number
    let number := if a.sign then number.dropLast else number
    fit ⟨number, a.sign⟩

/-- The loop of `myMultiply` over the limbs of `right` from the most significant one
(the list argument is `right.number` reversed): `*this <<= 32; *this +=
left.mul_long_short(right.number[i - 1])`. -/
def myMultiply_loop (left : big_integer) : List Nat → big_integer → big_integer
  | [], this => this
  | r :: rs, this => myMultiply_loop left rs (add (shl this 32) (mul_long_short left r))

/-- The member `myMultiply(left, right)`, which starts from `*this = 0`. -/
def myMultiply (left right : big_integer) : big_integer :=
  myMultiply_loop left right.number.reverse (of_int 0)

/-- The assignment form `operator*=` (and `operator*`). -/
def mul (a rhs : big_integer) : big_integer :=
  let ans_sign := xor a.sign rhs.sign
  let this := myMultiply (if a.sign then abs a else a) (if rhs.sign then abs rhs else rhs)
  let this := if ans_sign then negate this else this
  fit this

/-- The member `myAt(pos)`. -/
def myAt (a : big_integer) (pos : Nat) : Nat :=
  if pos < a.number.length then a.number.getD pos 0
  else if a.sign then UINT32_MAX else 0

/-- The free `operator==`. -/
def eq (a b : big_integer) : Bool :=
  a.sign == b.sign && a.number.length == b.number.length && a.number == b.number

/-- The loop of `operator<` from the most significant limb down (both lists are the
limbs reversed): the first difference decides. -/
def lt_loop : List Nat → List Nat → Bool
  | x :: xs, y :: ys => if x ≠ y then decide (x < y) else lt_loop xs ys
  | _, _ => false

/-- The free `operator<`. -/
def lt (a b : big_integer) : Bool :=
  if a.sign ≠ b.sign then a.sign
  else if a.number.length ≠ b.number.length then
    xor a.sign (decide (a.number.length < b.number.length))
  else lt_loop a.number.reverse b.number.reverse

/-- The free `operator>`: `b < a`. -/
def gt (a b : big_integer) : Bool := lt b a

/-- The loop of `div_long_short` from the most significant limb down (the list is the
limbs reversed, and so is the list of quotient limbs): `tmp = (carry << 32) +
number[i - 1]`, the limb becomes `tmp / right` and the carry `tmp % right`.  A zero
`right` makes `tmp / right` a machine division by zero. -/
def div_long_short_loop (right : Nat) : List Nat → Nat → Outcome (List Nat × Nat)
  | [], carry => .ok ([], carry)
  | x :: xs, carry =>
    if right = 0 then .fail .division_by_zero_ub
    else
      let tmp := ((carry <<< 32) + x) % B64
      (div_long_short_loop right xs ((tmp % right) % B)).bind fun r =>
        .ok (((tmp / right) % B) :: r.1, r.2)

/-- The member `div_long_short(right)`: the new value of `*this` and the returned
remainder. -/
def div_long_short (a : big_integer) (right : Nat) : Outcome (big_integer × Nat) :=
  (div_long_short_loop right a.number.reverse 0).bind fun r =>
    .ok (⟨r.1.reverse, a.sign⟩, r.2)

/-- The correction loop of `operator/=`: `while (left < 0) { number[i - 1]--; left +=
right << ((i - 1) * 32); }`.  `shifted` is `right << ((i - 1) * 32)` and `q` is
`number[i - 1]`.  The source loop has no bound; the model runs at most `fuel`
iterations of it and reports `out_of_fuel` when `left` is still negative then. -/
def div_correct_loop (shifted : big_integer) : Nat → big_integer → Nat →
    Outcome (big_integer × Nat)
  | 0, left, q => if lt left (of_int 0) then .fail .out_of_fuel else .ok (left, q)
  | fuel + 1, left, q =>
    if lt left (of_int 0) then
      div_correct_loop shifted fuel (add left shifted) ((q + UINT32_MAX) % B)
    else .ok (left, q)

/-- The loop `for (size_t i = ls - rs; i > 0; i--)` of the multi-limb branch of
`operator/=`; the first argument is `i` and the state is `left` and `number`.  The
estimate is `min(((left.myAt(i - 1 + rs) << 32) + left.myAt(i - 2 + rs)) /
right.number.back(), UINT32_MAX)`; a zero `right.number.back()` makes it a machine
division by zero. -/
def div_loop (fuel : Nat) (right : big_integer) (rs : Nat) :
    Nat → big_integer → List Nat → Outcome (big_integer × List Nat)
  | 0, left, number => .ok (left, number)
  | i + 1, left, number =>
    if right.number.getLastD 0 = 0 then .fail .division_by_zero_ub
    else
      let est := min
        ((((myAt left (i + rs) <<< 32) % B64 + myAt left (i + 1 + rs - 2)) % B64) /
          right.number.getLastD 0) UINT32_MAX
      let left1 := sub left (shl (mul right (of_uint32 est)) (i * 32))
      (div_correct_loop (shl right (i * 32)) fuel left1 est).bind fun r =>
        div_loop fuel right rs i r.1 (number.set i r.2)

/-- The assignment form `operator/=` (and `operator/`).  `fuel` bounds the iterations
of each run of the correction loop (see `div_correct_loop`); `number.resize(ls - rs)`
throws when the `size_t` difference wraps. -/
def div (fuel : Nat) (a rhs : big_integer) : Outcome big_integer :=
  let ans_sign := xor a.sign rhs.sign
  let left := abs a
  let right := abs rhs
  if lt left right then .ok (of_int 0)
  else
    (if right.number.length = 1 then
      (div_long_short left (right.number.getD 0 0)).bind fun r => .ok r.1
    else
      let f := (B / (right.number.getLastD 0 + 1)) % B
      let left := mul_long_short left f
      let right := fit (mul_long_short right f)
      let ls := left.number.length
      let rs := right.number.length
      if ls < rs then .fail .length_error
      else
        (div_loop fuel right rs (ls - rs) left (List.replicate (ls - rs) 0)).bind fun r =>
          .ok ⟨r.2, false⟩).bind fun this =>
    .ok (fit (if ans_sign then negate_no_copy this else this))

/-- The assignment form `operator%=` (and `operator%`): `*this -= (*this / rhs) * rhs`. -/
def mod (fuel : Nat) (a rhs : big_integer) : Outcome big_integer :=
  (div fuel a rhs).bind fun q => .ok (sub a (mul q rhs))

/-- The static `parse_uint32(str)`. -/
def parse_uint32 : List Char → Nat → Outcome Nat
  | [], res => .ok res
  | c :: cs, res =>
    if '0'.toNat ≤ c.toNat ∧ c.toNat ≤ '9'.toNat then
      parse_uint32 cs (((res * 10) % B + (c.toNat - '0'.toNat)) % B)
    else .fail (.invalid_argument "Expected number")

/-- The loop `for (size_t i = ...; i < str.size(); i += 9)` of the string constructor.
The first argument counts the iterations that are left at most (the caller passes
`str.size()`, which is never reached). -/
def of_string_loop (str : List Char) : Nat → Nat → big_integer → Outcome big_integer
  | 0, _, this => .ok this
  | n + 1, i, this =>
    if i < str.length then
      let mod := if i + 9 < str.length then 1000000000 else 10 ^ (str.length - i)
      let this := mul_long_short this (mod % B)
      (parse_uint32 ((str.drop i).take 9) 0).bind fun c =>
        of_string_loop str n (i + 9) (add this (of_uint32 c))
    else .ok this

/-- The constructor `big_integer(std::string const& str)`; `str[0]` of the empty string
is the terminating `'\0'`. -/
def of_string (str : List Char) : Outcome big_integer :=
  let c0 := str.headD (Char.ofNat 0)
  (of_string_loop str str.length (if c0 = '-' ∨ c0 = '+' then 1 else 0) zero).bind fun this =>
    if c0 = '-' ∧ str.length = 1 then .fail (.invalid_argument "-")
    else
      let this := if c0 = '-' then negate this else this
      if str.length = 0 then .fail (.invalid_argument "")
      else .ok (fit this)

/-- The constructor `big_integer(long a)`, which widens to `long long`. -/
def of_long (a : Int) : big_integer := of_long_long a

/-- The constructor `big_integer(unsigned long a)`, which widens to `unsigned long
long`. -/
def of_unsigned_long (a : Nat) : big_integer := of_unsigned_long_long a

/-- The unary `operator~`: every limb is complemented and the sign flag is flipped; the
result is returned without a call of `fit`. -/
def bnot (a : big_integer) : big_integer :=
  ⟨a.number.map fun i => i ^^^ UINT32_MAX, !a.sign⟩

/-- The helper `myAnd`. -/
def myAnd (a b : Nat) : Nat := a &&& b

/-- The helper `myOr`. -/
def myOr (a b : Nat) : Nat := a ||| b

/-- The helper `myXor`. -/
def myXor (a b : Nat) : Nat := a ^^^ b

/-- The loop of `bitOp`: `number[i] = f(number[i], right.number[i])`. -/
def bitOp_loop (f : Nat → Nat → Nat) : List Nat → List Nat → List Nat
  | x :: xs, y :: ys => f x y :: bitOp_loop f xs ys
  | _, _ => []

/-- The member `bitOp(rhs, f)`: both operands are extended by `reserve`, the limbs are
combined, `fit()` runs with the sign of `*this`, and only then `sign = f(sign,
rhs.sign)` is assigned (the two flags converted to `uint32_t`, the result back to
`bool`). -/
def bitOp (a rhs : big_integer) (f : Nat → Nat → Nat) : big_integer :=
  let this := reserve a (max a.number.length rhs.number.length)
  let right := reserve rhs (max this.number.length rhs.number.length)
  let fitted := fit ⟨bitOp_loop f this.number right.number, this.sign⟩
  ⟨fitted.number, decide (f (if fitted.sign then 1 else 0) (if rhs.sign then 1 else 0) ≠ 0)⟩

/-- The assignment form `operator&=` (and `operator&`). -/
def bit_and (a rhs : big_integer) : big_integer := bitOp a rhs myAnd

/-- The assignment form `operator|=` (and `operator|`). -/
def bit_or (a rhs : big_integer) : big_integer := bitOp a rhs myOr

/-- The assignment form `operator^=` (and `operator^`). -/
def bit_xor (a rhs : big_integer) : big_integer := bitOp a rhs myXor

/-- The character of a decimal digit. -/
def digit_char (d : Nat) : Char := Char.ofNat (48 + d)

/-- The decimal formatting of an unsigned by the standard library, as used by
`std::to_string(ans[i - 1])` and by `str << ans.back()`: the decimal digits, most
significant first, without leading zeros, and `"0"` for zero. -/
def std_to_string (n : Nat) : List Char :=
  if n = 0 then ['0'] else (Nat.digits 10 n).reverse.map digit_char

/-- The loop `while (tmp.number.size() > 1 || tmp.number[0] != 0)` of `to_string`:
`ans.push_back(tmp.div_long_short(1000000000)); tmp.fit();`.  The source loop has no
bound; the model runs at most `fuel` iterations of it and reports `out_of_fuel` when
`tmp` is still not zero then. -/
def to_string_loop : Nat → big_integer → List Nat → Outcome (List Nat)
  | 0, tmp, ans =>
    if tmp.number.length > 1 ∨ tmp.number.headD 0 ≠ 0 then .fail .out_of_fuel else .ok ans
  | fuel + 1, tmp, ans =>
    if tmp.number.length > 1 ∨ tmp.number.headD 0 ≠ 0 then
      (div_long_short tmp 1000000000).bind fun r =>
        to_string_loop fuel (fit r.1) (ans ++ [r.2])
    else .ok ans

/-- The inner loop of `to_string`: `9 - num.size()` characters `'0'`, then `num`. -/
def pad9 (num : List Char) : List Char := List.replicate (9 - num.length) '0' ++ num

/-- The loop `for (size_t i = ans.size() - 1; i > 0; i--)` of `to_string` over `ans[i -
1]`; the argument lists these chunks from `ans[ans.size() - 2]` down to `ans[0]`. -/
def to_string_chunks : List Nat → List Char
  | [] => []
  | x :: xs => pad9 (std_to_string x) ++ to_string_chunks xs

/-- The free function `to_string(a)`; `fuel` bounds the iterations of its `while` loop
(see `to_string_loop`). -/
def to_string (fuel : Nat) (a : big_integer) : Outcome (List Char) :=
  let str := if a.sign then ['-'] else []
  let tmp := if a.sign then negate a else a
  if tmp.number.length = 1 ∧ tmp.number.headD 0 = 0 then .ok (str ++ ['0'])
  else
    (to_string_loop fuel tmp []).bind fun ans =>
      .ok (str ++ std_to_string (ans.getLastD 0) ++ to_string_chunks ans.dropLast.reverse)

/-- The prefix `operator++`: `*this += 1`, where `1` goes through `big_integer(int)`. -/
def inc (a : big_integer) : big_integer := add a (of_int 1)

/-- The prefix `operator--`: `*this -= 1`, where `1` goes through `big_integer(int)`. -/
def dec (a : big_integer) : big_integer := sub a (of_int 1)

/-! ## The represented value and the canonical form -/

/-- The unsigned value of a limb list, least significant limb first:
`sum_i limbs[i] * 2^(32 i)`. -/
def limbs_value : List Nat → Nat
  | [] => 0
  | x :: xs => x + B * limbs_value xs

/-- The integer a `big_integer` stands for: `sum_i limbs[i] * 2^(32 i) - (sign ? 2^(32 *
len) : 0)`. -/
def value (a : big_integer) : Int :=
  (limbs_value a.number : Int) - (if a.sign then ((B ^ a.number.length : Nat) : Int) else 0)

/-- Every limb of the list is a `uint32_t`. -/
def limbs_ok (l : List Nat) : Prop := ∀ x ∈ l, x < B

instance (l : List Nat) : Decidable (limbs_ok l) := by
  unfold limbs_ok; exact inferInstance

/-- A state the class can hold: the limb vector is not empty (every constructor and
every member keeps at least one limb) and each limb is a `uint32_t`. -/
def wf (a : big_integer) : Prop := a.number ≠ [] ∧ limbs_ok a.number

instance (a : big_integer) : Decidable (wf a) := by
  unfold wf; exact inferInstance

/-- Canonical: a state of the class that `fit` leaves unchanged. -/
def canonical (a : big_integer) : Prop := wf a ∧ fit a = a

instance (a : big_integer) : Decidable (canonical a) := by
  unfold canonical; exact inferInstance

/-- The limb that extends a number of the given sign: `sign ? UINT32_MAX : 0`. -/
def pad (sign : Bool) : Nat := if sign then UINT32_MAX else 0

/-! ## Decimal strings, as the specification reads them -/

/-- A character `'0'`..`'9'`. -/
def is_digit (c : Char) : Prop := '0'.toNat ≤ c.toNat ∧ c.toNat ≤ '9'.toNat

instance (c : Char) : Decidable (is_digit c) := by
  unfold is_digit; exact inferInstance

/-- The value of a decimal digit character. -/
def digit_value (c : Char) : Nat := c.toNat - '0'.toNat

/-- The number that a string of decimal digits denotes, after the digits already read
(`acc`). -/
def decimal_acc : Nat → List Char → Nat
  | acc, [] => acc
  | acc, c :: cs => decimal_acc (acc * 10 + digit_value c) cs

/-- The number that a string of decimal digits denotes. -/
def decimal_value (ds : List Char) : Nat := decimal_acc 0 ds

/-- The position after an optional leading sign: `1` when the first character is `'-'` or
`'+'`, else `0`. -/
def sign_length (str : List Char) : Nat :=
  if str.headD (Char.ofNat 0) = '-' ∨ str.headD (Char.ofNat 0) = '+' then 1 else 0

/-- The decimal rendering of an integer: `'-'` for a negative one, then the decimal digits
of the absolute value without leading zeros (`"0"` for zero). -/
def render (v : Int) : List Char :=
  if v < 0 then '-' :: std_to_string v.natAbs else std_to_string v.natAbs

/-- A string of digits with its leading zeros removed, `"0"` when nothing is left. -/
def strip_zeros (ds : List Char) : List Char :=
  match ds.dropWhile (fun c => c = '0') with
  | [] => ['0']
  | c :: cs => c :: cs

/-- The string `-?[0-9]+` with leading zeros removed and `"-0"` normalized to `"0"`:
`neg` tells whether the string starts with `'-'` and `ds` is its digits. -/
def normalize (neg : Bool) (ds : List Char) : List Char :=
  if neg = true ∧ strip_zeros ds ≠ ['0'] then '-' :: strip_zeros ds else strip_zeros ds
end big_integer

/-!
# circular_buffer (src/circular-buffer-NULL31337/circular_buffer.h)

A shallow embedding of the ring buffer of the repository.  The raw storage `data_` is a
list of `capacity_` slots; a slot is `none` while no object lives in it (after `operator
new`, and after a destructor call), so that reading a slot that was never constructed shows
as `none` in the logical sequence.  `size_t` values are natural numbers; a subtraction that
can pass below zero is reduced modulo `2^64`, while sums of indices and `capacity_ * 2` are
not reduced (they are bounded by a small multiple of the number of allocated elements).
A failed `assert` ends the call without a result (`none`).
-/

/-- The class `circular_buffer<T>`: `data_`, `head`, `size_` and `capacity_`. -/
structure circular_buffer (T : Type) where
  data_ : List (Option T)
  head : Nat
  size_ : Nat
  capacity_ : Nat
deriving DecidableEq, Repr

namespace circular_buffer

/-- The number of values of a `size_t`. -/
def SIZE_RANGE : Nat := 18446744073709551616

/-- The conversion of an integer to `size_t`. -/
def to_size_t (x : Int) : Nat := (x % (SIZE_RANGE : Int)).toNat

/-- The nested class `basic_iterator`: `pos` and `is_end`.  The pointer `p` to the buffer
is left out: the buffer is passed to the operations that read it, and iterators are
compared within one buffer. -/
structure basic_iterator where
  pos : Nat
  is_end : Bool
deriving DecidableEq, Repr

/-- The default constructor `circular_buffer()`: `data_(nullptr), head(0), size_(0),
capacity_(0)`. -/
def create {T : Type} : circular_buffer T := ⟨[], 0, 0, 0⟩

/-- The member `size()`. -/
def size {T : Type} (b : circular_buffer T) : Nat := b.size_

/-- The member `empty()`. -/
def empty {T : Type} (b : circular_buffer T) : Bool := decide (b.size_ = 0)

/-- The member `capacity()`. -/
def capacity {T : Type} (b : circular_buffer T) : Nat := b.capacity_

/-- The private `get_i(i)`. -/
def get_i {T : Type} (b : circular_buffer T) (i : Nat) : Nat :=
  if b.capacity_ = 0 then 0 else (b.head + i) % b.capacity_

/-- The member `operator[](index)`: the slot `data_[get_i(index)]`. -/
def subscript {T : Type} (b : circular_buffer T) (index : Nat) : Option T :=
  b.data_.getD (get_i b index) none

/-- The loop `for (; size_ < size; size_++) new (new_data + size_) T(data[(head_ + size_) %
capacity]);` of the private constructor; the first argument counts the iterations that
are left. -/
def copy_loop {T : Type} (data : List (Option T)) (capacity head_ : Nat) :
    Nat → Nat → List (Option T) → List (Option T)
  | 0, _, new_data => new_data
  | n + 1, size_, new_data =>
    copy_loop data capacity head_ n (size_ + 1)
      (new_data.set size_ (data.getD ((head_ + size_) % capacity) none))

/-- The private constructor `circular_buffer(data, size, capacity, new_capacity, head_)`
(no copy constructor of `T` throws). -/
def copy_from {T : Type} (data : List (Option T)) (size capacity new_capacity head_ : Nat) :
    circular_buffer T :=
  let new_data : List (Option T) := List.replicate new_capacity none
  if capacity ≠ 0 then
    ⟨copy_loop data capacity head_ size 0 new_data, 0, size, new_capacity⟩
  else ⟨new_data, 0, 0, new_capacity⟩

/-- The copy constructor `circular_buffer(v)`. -/
def copy {T : Type} (v : circular_buffer T) : circular_buffer T :=
  copy_from v.data_ v.size_ v.capacity_ v.capacity_ v.head

/-- The private `get_new_capacity()`. -/
def get_new_capacity {T : Type} (b : circular_buffer T) : Nat :=
  if b.capacity_ = 0 then 1 else b.capacity_ * 2

/-- The member `realloc(new_capacity)`: the buffer becomes the copy made by the private
constructor. -/
def realloc {T : Type} (b : circular_buffer T) (new_capacity : Nat) : circular_buffer T :=
  copy_from b.data_ b.size_ b.capacity_ new_capacity b.head

/-- The member `reserve(desired_capacity)`. -/
def reserve {T : Type} (b : circular_buffer T) (desired_capacity : Nat) : circular_buffer T :=
  if desired_capacity > b.capacity_ then realloc b desired_capacity else b

/-- The member `push_back(val)`. -/
def push_back {T : Type} (b : circular_buffer T) (val : T) : circular_buffer T :=
  if b.size_ = b.capacity_ then
    let r := realloc b (get_new_capacity b)
    { r with data_ := r.data_.set r.size_ (some val), size_ := r.size_ + 1 }
  else
    { b with data_ := b.data_.set (get_i b b.size_) (some val), size_ := b.size_ + 1 }

/-- The member `pop_back()`. -/
def pop_back {T : Type} (b : circular_buffer T) : Option (circular_buffer T) :=
  if b.size_ = 0 then none
  else
    let b1 := { b with size_ := b.size_ - 1 }
    some { b1 with data_ := b1.data_.set (get_i b1 b1.size_) none }

/-- The member `back()`. -/
def back {T : Type} (b : circular_buffer T) : Option (Option T) :=
  if b.size_ = 0 then none else some (b.data_.getD (get_i b (b.size_ - 1)) none)

/-- The member `push_front(val)`. -/
def push_front {T : Type} (b : circular_buffer T) (val : T) : Option (circular_buffer T) :=
  if b.size_ = 0 then none
  else if b.size_ = b.capacity_ then
    let r := realloc b (get_new_capacity b)
    some { r with data_ := r.data_.set (r.capacity_ - 1) (some val), head := r.capacity_ - 1,
                  size_ := r.size_ + 1 }
  else
    let head := get_i b (b.size_ - 1 + b.capacity_)
    some { b with data_ := b.data_.set head (some val), head := head, size_ := b.size_ + 1 }

/-- The member `pop_front()`. -/
def pop_front {T : Type} (b : circular_buffer T) : Option (circular_buffer T) :=
  if b.size_ = 0 then none
  else
    some { b with data_ := b.data_.set b.head none, head := (b.head + 1) % b.capacity_,
                  size_ := b.size_ - 1 }

/-- The member `begin()`. -/
def begin_ {T : Type} (b : circular_buffer T) : basic_iterator := ⟨0, empty b⟩

/-- The member `end()`. -/
def end_ {T : Type} (b : circular_buffer T) : basic_iterator :=
  ⟨if b.size_ = 0 then b.size_ else b.size_ - 1, true⟩

/-- The member `front()`: `*(begin())`, the slot `data_[(head + pos) % capacity_]`. -/
def front {T : Type} (b : circular_buffer T) : Option (Option T) :=
  if b.size_ = 0 then none
  else some (b.data_.getD ((b.head + (begin_ b).pos) % b.capacity_) none)

/-- The difference `l - r` of two iterators, a `ptrdiff_t`: `l.pos - r.pos + l.is_end -
r.is_end`, computed in `size_t` and read as a signed number. -/
def it_diff (l r : basic_iterator) : Int :=
  let u := to_size_t ((l.pos : Int) - (r.pos : Int) + (if l.is_end then 1 else 0) -
    (if r.is_end then 1 else 0))
  if u < 9223372036854775808 then (u : Int) else (u : Int) - (SIZE_RANGE : Int)

/-- The iterator `l - r` for an `int r`. -/
def it_sub (l : basic_iterator) (r : Int) : basic_iterator :=
  if l.is_end = true ∧ r > 0 then ⟨to_size_t ((l.pos : Int) - (r - 1)), false⟩
  else ⟨to_size_t ((l.pos : Int) - r), l.is_end⟩

/-- The iterator `l + shift` (`operator+=` on a copy), for an iterator of the buffer `b`. -/
def it_add {T : Type} (b : circular_buffer T) (l : basic_iterator) (shift : Nat) :
    basic_iterator :=
  let pos := (l.pos + shift) % SIZE_RANGE
  if pos = b.size_ then ⟨to_size_t ((pos : Int) - 1), true⟩ else ⟨pos, l.is_end⟩

/-- The `operator==` of two iterators of one buffer. -/
def it_eq (lhs rhs : basic_iterator) : Bool :=
  lhs.is_end == rhs.is_end && lhs.pos == rhs.pos

/-- The call `std::swap(data_[get_i(i)], data_[get_i(j)])`. -/
def swap_at {T : Type} (b : circular_buffer T) (i j : Nat) : circular_buffer T :=
  let x := b.data_.getD (get_i b i) none
  let y := b.data_.getD (get_i b j) none
  { b with data_ := ((b.data_.set (get_i b i) y).set (get_i b j) x) }

/-- The loop `for (size_t i = save_pos; i != size_ - 1; i++) std::swap(data_[get_i(i)],
data_[get_i(size_ - 1)]);` of `insert`; the first argument counts the iterations that are
left. -/
def insert_back_loop {T : Type} : Nat → Nat → circular_buffer T → circular_buffer T
  | 0, _, b => b
  | n + 1, i, b => insert_back_loop n ((i + 1) % SIZE_RANGE) (swap_at b i (b.size_ - 1))

/-- The loop `for (size_t i = 0; i != save_pos; i++) std::swap(data_[get_i(i)],
data_[get_i(save_pos)]);` of `insert`; the first argument counts the iterations that are
left. -/
def insert_front_loop {T : Type} (save_pos : Nat) :
    Nat → Nat → circular_buffer T → circular_buffer T
  | 0, _, b => b
  | n + 1, i, b => insert_front_loop save_pos n (i + 1) (swap_at b i save_pos)

/-- The member `insert(pos, val)`: the new buffer and the returned iterator. -/
def insert {T : Type} (b : circular_buffer T) (pos : basic_iterator) (val : T) :
    Option (circular_buffer T × basic_iterator) :=
  let save_pos := pos.pos
  if pos.is_end then
    let save_pos := if ¬ b.size_ = 0 then (save_pos + 1) % SIZE_RANGE else save_pos
    some (push_back b val, ⟨save_pos, false⟩)
  else if (save_pos * 2) % SIZE_RANGE ≥ b.size_ then
    let b1 := push_back b val
    some (insert_back_loop (to_size_t ((b1.size_ : Int) - 1 - (save_pos : Int))) save_pos b1,
      ⟨save_pos, false⟩)
  else
    (push_front b val).map fun b1 =>
      (insert_front_loop save_pos save_pos 0 b1, ⟨save_pos, false⟩)

/-- The loop `for (size_t i = 0; i < first.pos; i++) std::swap(data_[get_i(i)],
data_[get_i(cnt + i)]);` of `erase`; the first argument counts the iterations that are
left. -/
def erase_front_loop {T : Type} (cnt : Int) : Nat → Nat → circular_buffer T → circular_buffer T
  | 0, _, b => b
  | n + 1, i, b => erase_front_loop cnt n (i + 1) (swap_at b i (to_size_t (cnt + (i : Int))))

/-- The loop `for (size_t i = first.pos + cnt; i < size_; i++) std::swap(data_[get_i(i)],
data_[get_i(i - cnt)]);` of `erase`; the first argument counts the iterations that are
left. -/
def erase_back_loop {T : Type} (cnt : Int) : Nat → Nat → circular_buffer T → circular_buffer T
  | 0, _, b => b
  | n + 1, i, b => erase_back_loop cnt n (i + 1) (swap_at b i (to_size_t ((i : Int) - cnt)))

/-- The loop `for (size_t i = 0; i < cnt; i++) pop_front();`. -/
def pop_front_loop {T : Type} : Nat → circular_buffer T → Option (circular_buffer T)
  | 0, b => some b
  | n + 1, b => (pop_front b).bind (pop_front_loop n)

/-- The loop `for (size_t i = 0; i < cnt; i++) pop_back();`. -/
def pop_back_loop {T : Type} : Nat → circular_buffer T → Option (circular_buffer T)
  | 0, b => some b
  | n + 1, b => (pop_back b).bind (pop_back_loop n)

/-- The member `erase(first, last)`: the new buffer and the returned iterator. -/
def erase {T : Type} (b : circular_buffer T) (first last : basic_iterator) :
    Option (circular_buffer T × basic_iterator) :=
  let cnt := it_diff last first
  let ans := first.pos
  let shifted :=
    if first.pos < to_size_t ((b.size_ : Int) - (last.pos : Int)) then
      pop_front_loop (to_size_t cnt) (erase_front_loop cnt first.pos 0 b)
    else
      let start := to_size_t ((first.pos : Int) + cnt)
      pop_back_loop (to_size_t cnt) (erase_back_loop cnt (b.size_ - start) start b)
  shifted.map fun b1 =>
    if b1.size_ = 0 then (b1, ⟨0, true⟩)
    else (b1, ⟨to_size_t ((ans : Int) - (if ans = b1.size_ then 1 else 0)),
      decide (ans ≥ b1.size_)⟩)

/-- The member `erase(pos)`: `erase(pos, pos + 1)`. -/
def erase_one {T : Type} (b : circular_buffer T) (pos : basic_iterator) :
    Option (circular_buffer T × basic_iterator) :=
  erase b pos (it_add b pos 1)

/-! ## The logical sequence -/

/-- The logical sequence of the buffer: the slots `data_[get_i(i)]` for `i < size_`, in
order. -/
def to_list {T : Type} (b : circular_buffer T) : List (Option T) :=
  (List.range b.size_).map fun i => b.data_.getD (get_i b i) none

/-- The class invariant: `capacity_` slots are allocated, `size_ <= capacity_`, and `head`
is an index of the storage unless there is none. -/
def wf {T : Type} (b : circular_buffer T) : Prop :=
  b.data_.length = b.capacity_ ∧ b.size_ ≤ b.capacity_ ∧ (b.capacity_ ≠ 0 → b.head < b.capacity_)

instance {T : Type} (b : circular_buffer T) : Decidable (wf b) := by
  unfold wf; exact inferInstance

/-- The buffer holds the sequence `s`: its logical sequence is `s`, every slot of it being a
live object. -/
def holds {T : Type} (b : circular_buffer T) (s : List T) : Prop :=
  wf b ∧ to_list b = s.map some

instance {T : Type} [DecidableEq T] (b : circular_buffer T) (s : List T) :
    Decidable (holds b s) := by
  unfold holds; exact inferInstance

/-- The helper `mass_push_back(c, elems)` of the tests. -/
def mass_push_back {T : Type} (c : circular_buffer T) (elems : List T) : circular_buffer T :=
  elems.foldl push_back c

end circular_buffer

/-!
# substr (src/substr-NULL31337/solution.cpp)

A shallow embedding of the substring search of the repository.  A `char` is a natural
number (the byte; the conversion `(char)c` of a byte read by `fgetc` and the `char`s of
the pattern are compared by their bytes).  The C string `string_to_find` is the list of
its characters before the terminating `'\0'`, which is the character read at index
`strlen`.  The table `max_prefix` is the list of the entries written so far; `malloc`
and `fopen` succeed and the file is read without error.
-/

namespace substr

/-- How a call ends: with a value, with a read or a write outside the memory that is
allocated and initialized, or with a loop still running when the fuel given to the model
is used up. -/
inductive Res (α : Type) where
  | ok (a : α)
  | out_of_bounds
  | out_of_fuel
deriving DecidableEq, Repr

/-- Sequencing: the first failure ends the computation. -/
def Res.bind {α β : Type} (x : Res α) (f : α → Res β) : Res β :=
  match x with
  | .ok a => f a
  | .out_of_bounds => .out_of_bounds
  | .out_of_fuel => .out_of_fuel

/-- The read `a[i]` of a C string: a character, the terminator at index `strlen(a)`, and
nothing beyond. -/
def char_at (a : List Nat) (i : Nat) : Res Nat :=
  if i < a.length then .ok (a.getD i 0)
  else if i = a.length then .ok 0
  else .out_of_bounds

/-- The read `tab[i]` of the table: an entry written so far. -/
def tab_at (tab : List Nat) (i : Nat) : Res Nat :=
  if i < tab.length then .ok (tab.getD i 0) else .out_of_bounds

/-- The loop `while (tmp != 0 && a[tmp] != b) tmp = tab[tmp - 1];` of `recalc_pref_func`.
The source loop has no bound; the model runs at most `fuel` iterations of it and reports
`out_of_fuel` when the loop condition still holds then. -/
def recalc_loop (a tab : List Nat) (b : Nat) : Nat → Nat → Res Nat
  | 0, tmp =>
    if tmp ≠ 0 then (char_at a tmp).bind fun x => if x ≠ b then .out_of_fuel else .ok tmp
    else .ok tmp
  | fuel + 1, tmp =>
    if tmp ≠ 0 then
      (char_at a tmp).bind fun x =>
        if x ≠ b then (tab_at tab (tmp - 1)).bind fun t => recalc_loop a tab b fuel t
        else .ok tmp
    else .ok tmp

/-- The function `recalc_pref_func(a, tab, b, prev)`; `prev` is the value `*prev`, and
`fuel` bounds the iterations of the loop. -/
def recalc_pref_func (fuel : Nat) (a tab : List Nat) (b : Nat) (prev : Nat) : Res Nat :=
  (recalc_loop a tab b fuel prev).bind fun tmp =>
    (char_at a tmp).bind fun x => .ok (tmp + if x = b then 1 else 0)

/-- The loop `for (size_t i = 1; i < n; i++) max_prefix[i] = recalc_pref_func(
string_to_find, max_prefix, string_to_find[i], &max_prefix[i - 1]);` of `main`.  The first
counter is `n - i`, the number of iterations that are left; `max_prefix` holds the entries
`0 .. i - 1`, and the store to `max_prefix[i]` appends the entry. -/
def build_loop (fuel : Nat) (string_to_find : List Nat) :
    Nat → Nat → List Nat → Res (List Nat)
  | 0, _, max_prefix => .ok max_prefix
  | k + 1, i, max_prefix =>
    (char_at string_to_find i).bind fun b =>
      (tab_at max_prefix (i - 1)).bind fun prev =>
        (recalc_pref_func fuel string_to_find max_prefix b prev).bind fun r =>
          build_loop fuel string_to_find k (i + 1) ( max_prefix ++ [r])

/-- The table `max_prefix` as `main` fills it: `max_prefix[0] = 0` and the loop.  For the
empty pattern `malloc(0)` has no entry `0` to write. -/
def build_table (fuel : Nat) (string_to_find : List Nat) : Res (List Nat) :=
  if string_to_find.length = 0 then .out_of_bounds
  else build_loop fuel string_to_find (string_to_find.length - 1) 1 [0]

/-- The loop `while ((c = fgetc(file)) != EOF)` of `main` over the bytes of the file that
are left, from the state `tmp`: `true` when it prints `"Yes"`, `false` when it ends at the
end of the file and `main` prints `"No"`. -/
def scan (fuel : Nat) (string_to_find max_prefix : List Nat) : List Nat → Nat → Res Bool
  | [], _ => .ok false
  | c :: cs, tmp =>
    (recalc_pref_func fuel string_to_find max_prefix c tmp).bind fun tmp1 =>
      if tmp1 = string_to_find.length then .ok true
      else scan fuel string_to_find max_prefix cs tmp1

/-- The function `main` on the pattern `argv[2]` and the contents of the file `argv[1]`:
`true` for the output `"Yes"`, `false` for `"No"`. -/
def main (fuel : Nat) (string_to_find file : List Nat) : Res Bool :=
  (build_table fuel string_to_find).bind fun max_prefix =>
    scan fuel string_to_find max_prefix file 0

/-! ## Borders, as the specification reads them -/

/-- The number `k` is the length of the longest proper prefix of `s` that is also a suffix
of `s`. -/
def longest_border (s : List Nat) (k : Nat) : Prop :=
  k < s.length ∧ s.take k <:+ s ∧ ∀ j, j < s.length → s.take j <:+ s → j ≤ k

/-- The number `k` is the length of the longest prefix of `p` that is a suffix of `w`. -/
def max_state (p w : List Nat) (k : Nat) : Prop :=
  k ≤ p.length ∧ p.take k <:+ w ∧ ∀ j, j ≤ p.length → p.take j <:+ w → j ≤ k

/-- Every entry `i` of the table is the length of the longest border of `p[0..i]`. -/
def table_ok (p tab : List Nat) : Prop :=
  ∀ i, i < tab.length → longest_border (p.take (i + 1)) (tab.getD i 0)

end substr

namespace big_integer


/-! ## Limb lists -/


theorem B_eq : B = 4294967296 := rfl
theorem B64_eq : B64 = 18446744073709551616 := rfl
theorem UINT32_MAX_eq : UINT32_MAX = 4294967295 := rfl
theorem B_pos : 0 < B := by decide
theorem B64_eq_sq : B64 = B * B := by decide
theorem max_succ : UINT32_MAX + 1 = B := rfl
theorem B_pow_pos (n : Nat) : 0 < B ^ n := pow_pos B_pos n

theorem limbs_ok_nil : limbs_ok [] := by intro x hx; cases hx

theorem limbs_ok_cons {x : Nat} {xs : List Nat} :
    limbs_ok (x :: xs) ↔ x < B ∧ limbs_ok xs := by
  unfold limbs_ok; simp

theorem limbs_ok_append {l m : List Nat} :
    limbs_ok (l ++ m) ↔ limbs_ok l ∧ limbs_ok m := by
  unfold limbs_ok; simp [or_imp, forall_and]

theorem limbs_ok_replicate {k x : Nat} (hx : x < B) : limbs_ok (List.replicate k x) := by
  intro y hy
  rw [List.mem_replicate] at hy
  rw [hy.2]; exact hx

theorem limbs_ok_reverse {l : List Nat} : limbs_ok l.reverse ↔ limbs_ok l := by
  unfold limbs_ok; simp

theorem limbs_value_nil : limbs_value [] = 0 := rfl

theorem limbs_value_cons (x : Nat) (xs : List Nat) :
    limbs_value (x :: xs) = x + B * limbs_value xs := rfl

theorem limbs_value_append (l m : List Nat) :
    limbs_value (l ++ m) = limbs_value l + B ^ l.length * limbs_value m := by
  induction l with
  | nil => simp [limbs_value]
  | cons x xs ih =>
    simp only [List.cons_append, limbs_value_cons, ih, List.length_cons, pow_succ]
    ring

theorem limbs_value_lt {l : List Nat} (h : limbs_ok l) : limbs_value l < B ^ l.length := by
  induction l with
  | nil => simp [limbs_value]
  | cons x xs ih =>
    rw [limbs_ok_cons] at h
    have h1 := ih h.2
    have h2 := h.1
    simp only [limbs_value_cons, List.length_cons, pow_succ]
    calc x + B * limbs_value xs < B + B * limbs_value xs := by omega
      _ = B * (limbs_value xs + 1) := by ring
      _ ≤ B * B ^ xs.length := Nat.mul_le_mul_left _ h1
      _ = B ^ xs.length * B := by ring

theorem limbs_value_replicate_zero (k : Nat) : limbs_value (List.replicate k 0) = 0 := by
  induction k with
  | zero => rfl
  | succ k ih => simp [List.replicate_succ, limbs_value_cons, ih]

theorem limbs_value_replicate_max (k : Nat) :
    limbs_value (List.replicate k UINT32_MAX) + 1 = B ^ k := by
  induction k with
  | zero => rfl
  | succ k ih =>
    simp only [List.replicate_succ, limbs_value_cons, pow_succ]
    have : UINT32_MAX + 1 = B := rfl
    calc UINT32_MAX + B * limbs_value (List.replicate k UINT32_MAX) + 1
        = B * (limbs_value (List.replicate k UINT32_MAX) + 1) := by
          rw [Nat.mul_add, ← this]; ring
      _ = B ^ k * B := by rw [ih]; ring

theorem limbs_value_inj {l m : List Nat} (hl : limbs_ok l) (hm : limbs_ok m)
    (hlen : l.length = m.length) (h : limbs_value l = limbs_value m) : l = m := by
  induction l generalizing m with
  | nil =>
    cases m with
    | nil => rfl
    | cons y ys => simp at hlen
  | cons x xs ih =>
    cases m with
    | nil => simp at hlen
    | cons y ys =>
      rw [limbs_ok_cons] at hl hm
      simp only [limbs_value_cons] at h
      simp only [List.length_cons, Nat.add_right_cancel_iff] at hlen
      have hB := B_pos
      have hx : x = y := by
        have h1 : (x + B * limbs_value xs) % B = (y + B * limbs_value ys) % B := by rw [h]
        rw [Nat.add_mul_mod_self_left, Nat.add_mul_mod_self_left,
          Nat.mod_eq_of_lt hl.1, Nat.mod_eq_of_lt hm.1] at h1
        exact h1
      subst hx
      have h2 : limbs_value xs = limbs_value ys := by
        have : B * limbs_value xs = B * limbs_value ys := by omega
        exact Nat.eq_of_mul_eq_mul_left hB this
      rw [ih hl.2 hm.2 hlen h2]

/-- A limb list whose last limb is not zero is at least `B ^ (length - 1)`. -/
theorem limbs_value_ge_of_last {l : List Nat} {x : Nat} (hx : x ≠ 0) :
    B ^ l.length ≤ limbs_value (l ++ [x]) := by
  rw [limbs_value_append]
  simp only [limbs_value_cons, limbs_value_nil, Nat.mul_zero, Nat.add_zero]
  calc B ^ l.length = B ^ l.length * 1 := by ring
    _ ≤ B ^ l.length * x := Nat.mul_le_mul_left _ (by omega)
    _ ≤ limbs_value l + B ^ l.length * x := by omega

/-! ## `fit` -/


theorem pad_lt (s : Bool) : pad s < B := by
  cases s <;> decide

theorem fit_pop_nil (s : Bool) : fit_pop s [] = [] := rfl

theorem fit_pop_cons (s : Bool) (x : Nat) (xs : List Nat) :
    fit_pop s (x :: xs) =
      if fit_pop s xs = [] then (if x = pad s then [] else [x]) else x :: fit_pop s xs := by
  rw [fit_pop]
  cases h : fit_pop s xs with
  | nil =>
    cases s <;> simp [pad, UINT32_MAX]
  | cons y ys => simp

theorem fit_pop_snoc_pad (s : Bool) (l : List Nat) :
    fit_pop s (l ++ [pad s]) = fit_pop s l := by
  induction l with
  | nil => simp [fit_pop_cons, fit_pop_nil]
  | cons x xs ih => simp only [List.cons_append, fit_pop_cons, ih]

theorem fit_pop_snoc_ne (s : Bool) (l : List Nat) {y : Nat} (hy : y ≠ pad s) :
    fit_pop s (l ++ [y]) = l ++ [y] := by
  induction l with
  | nil => simp [fit_pop_cons, fit_pop_nil, hy]
  | cons x xs ih => simp [fit_pop_cons, ih]

theorem fit_pop_snoc (s : Bool) (l : List Nat) (y : Nat) :
    fit_pop s (l ++ [y]) = if y = pad s then fit_pop s l else l ++ [y] := by
  by_cases h : y = pad s
  · rw [if_pos h, h, fit_pop_snoc_pad]
  · rw [if_neg h, fit_pop_snoc_ne s l h]

/-- What the loop of `fit` leaves: the input is the output followed by popped sign
limbs, and the output does not end in a sign limb. -/
theorem fit_pop_spec (s : Bool) (xs : List Nat) :
    ∃ k, xs = fit_pop s xs ++ List.replicate k (pad s) ∧
      (fit_pop s xs).getLast? ≠ some (pad s) := by
  induction xs using List.reverseRecOn with
  | nil => exact ⟨0, by simp [fit_pop_nil], by simp [fit_pop_nil]⟩
  | append_singleton l y ih =>
    rw [fit_pop_snoc]
    by_cases h : y = pad s
    · obtain ⟨k, hk, hl⟩ := ih
      refine ⟨k + 1, ?_, ?_⟩
      · rw [if_pos h, h]
        conv_lhs => rw [hk]
        rw [List.append_assoc, ← List.replicate_succ']
      · rw [if_pos h]; exact hl
    · refine ⟨0, by simp [h], ?_⟩
      rw [if_neg h]
      simp [h]

theorem fit_pop_fixed (s : Bool) {l : List Nat} (h : l.getLast? ≠ some (pad s)) :
    fit_pop s l = l := by
  induction l using List.reverseRecOn with
  | nil => rfl
  | append_singleton l y _ =>
    have hy : y ≠ pad s := by
      intro e; apply h; simp [e]
    exact fit_pop_snoc_ne s l hy

theorem fit_pop_idem (s : Bool) (xs : List Nat) : fit_pop s (fit_pop s xs) = fit_pop s xs :=
  fit_pop_fixed s (fit_pop_spec s xs).choose_spec.2

theorem fit_pop_ok (s : Bool) {xs : List Nat} (h : limbs_ok xs) : limbs_ok (fit_pop s xs) := by
  obtain ⟨k, hk, _⟩ := fit_pop_spec s xs
  rw [hk, limbs_ok_append] at h
  exact h.1

theorem fit_pop_length_le (s : Bool) (xs : List Nat) : (fit_pop s xs).length ≤ xs.length := by
  obtain ⟨k, hk, _⟩ := fit_pop_spec s xs
  conv_rhs => rw [hk]
  simp

/-- Appending sign limbs does not change the value. -/
theorem value_append_pad (l : List Nat) (s : Bool) (k : Nat) :
    value ⟨l ++ List.replicate k (pad s), s⟩ = value ⟨l, s⟩ := by
  unfold value
  simp only [limbs_value_append, List.length_append, List.length_replicate]
  cases s with
  | false =>
    simp [pad, limbs_value_replicate_zero]
  | true =>
    simp only [pad, if_true]
    have h := limbs_value_replicate_max k
    have hp : B ^ (l.length + k) = B ^ l.length * B ^ k := pow_add _ _ _
    rw [hp, ← h]
    push_cast
    ring

theorem value_nonneg_iff {a : big_integer} (h : limbs_ok a.number) :
    value a < 0 ↔ a.sign = true := by
  have h1 := limbs_value_lt h
  unfold value
  cases a.sign with
  | false => simp
  | true =>
    simp only [if_true, iff_true]
    have : (limbs_value a.number : Int) < ((B ^ a.number.length : Nat) : Int) := by
      exact_mod_cast h1
    omega


theorem fit_cons (x : Nat) (xs : List Nat) (s : Bool) :
    fit ⟨x :: xs, s⟩ =
      if xs = [] ∧ x = 0 then ⟨[x], false⟩
      else if s = true ∧ (x :: fit_pop s xs).getLastD 0 = 0 then
        ⟨(x :: fit_pop s xs) ++ [UINT32_MAX], s⟩
      else ⟨x :: fit_pop s xs, s⟩ := rfl

theorem fit_nil (s : Bool) : fit ⟨[], s⟩ = ⟨[], s⟩ := rfl

theorem fit_sign_of_ne {x : Nat} {xs : List Nat} {s : Bool} (h : ¬(xs = [] ∧ x = 0)) :
    (fit ⟨x :: xs, s⟩).sign = s := by
  rw [fit_cons, if_neg h]
  split <;> rfl

theorem fit_number_ne_nil {a : big_integer} (h : a.number ≠ []) : (fit a).number ≠ [] := by
  obtain ⟨l, s⟩ := a
  cases l with
  | nil => exact absurd rfl h
  | cons x xs =>
    rw [fit_cons]
    split
    · simp
    · split <;> simp

theorem fit_wf {a : big_integer} (h : wf a) : wf (fit a) := by
  refine ⟨fit_number_ne_nil h.1, ?_⟩
  obtain ⟨l, s⟩ := a
  have hl : limbs_ok l := h.2
  cases l with
  | nil => exact hl
  | cons x xs =>
    rw [limbs_ok_cons] at hl
    have hr := fit_pop_ok s hl.2
    rw [fit_cons]
    split
    · rw [limbs_ok_cons]; exact ⟨hl.1, limbs_ok_nil⟩
    · split
      · show limbs_ok ((x :: fit_pop s xs) ++ [UINT32_MAX])
        rw [limbs_ok_append, limbs_ok_cons, limbs_ok_cons]
        exact ⟨⟨hl.1, hr⟩, by decide, limbs_ok_nil⟩
      · show limbs_ok (x :: fit_pop s xs)
        rw [limbs_ok_cons]; exact ⟨hl.1, hr⟩

/-- The member `fit` keeps the value of every state but the single limb `0` with `sign = true`. -/
theorem fit_value {a : big_integer} (h : a ≠ ⟨[0], true⟩) : value (fit a) = value a := by
  obtain ⟨l, s⟩ := a
  cases l with
  | nil => rfl
  | cons x xs =>
    rw [fit_cons]
    obtain ⟨k, hk, _⟩ := fit_pop_spec s xs
    have hv : value ⟨x :: fit_pop s xs, s⟩ = value ⟨x :: xs, s⟩ := by
      conv_rhs => rw [hk]
      exact (value_append_pad (x :: fit_pop s xs) s k).symm
    split
    · rename_i h0
      obtain ⟨h1, h2⟩ := h0
      subst h1; subst h2
      cases s with
      | false => rfl
      | true => exact absurd rfl h
    · split
      · rename_i h1
        have hs : s = true := h1.1
        subst hs
        have := value_append_pad (x :: fit_pop true xs) true 1
        simp only [List.replicate_one, pad, if_true] at this
        rw [this, hv]
      · exact hv

theorem getLastD_cons_append_singleton (x : Nat) (l : List Nat) (y d : Nat) :
    (x :: (l ++ [y])).getLastD d = y := by
  rw [← List.cons_append, List.getLastD_eq_getLast?, List.getLast?_append]
  simp

/-- Canonicalisation is idempotent. -/
theorem fit_idem (a : big_integer) : fit (fit a) = fit a := by
  obtain ⟨l, s⟩ := a
  cases l with
  | nil => rfl
  | cons x xs =>
    rw [fit_cons]
    by_cases h0 : xs = [] ∧ x = 0
    · rw [if_pos h0, fit_cons]; simp [h0.2]
    · rw [if_neg h0]
      have hidem := fit_pop_idem s xs
      have hlast := (fit_pop_spec s xs).choose_spec.2
      by_cases h1 : s = true ∧ (x :: fit_pop s xs).getLastD 0 = 0
      · rw [if_pos h1]
        obtain ⟨hs, hz⟩ := h1
        subst hs
        have hp : fit_pop true (fit_pop true xs ++ [UINT32_MAX]) = fit_pop true xs := by
          have := fit_pop_snoc_pad true (fit_pop true xs)
          simp only [pad, if_true] at this
          rw [this, hidem]
        rw [List.cons_append, fit_cons, hp]
        have hne : ¬(fit_pop true xs ++ [UINT32_MAX] = [] ∧ x = 0) := by simp
        rw [if_neg hne, if_pos ⟨rfl, hz⟩]
        rfl
      · rw [if_neg h1, fit_cons, hidem]
        by_cases h2 : fit_pop s xs = [] ∧ x = 0
        · rw [if_pos h2]
          obtain ⟨h3, h4⟩ := h2
          rw [h3, h4]
          have hs : s = false := by
            cases s with
            | false => rfl
            | true => exact absurd ⟨rfl, by rw [h3, h4]; rfl⟩ h1
          rw [hs]
        · rw [if_neg h2, if_neg h1]

theorem fit_canonical {a : big_integer} (h : wf a) : canonical (fit a) :=
  ⟨fit_wf h, fit_idem a⟩

theorem canonical_zero : canonical zero := by decide


/-! ## Addition -/

/-- The function `add32c` is a full adder on 32-bit limbs. -/
theorem add32c_spec {x y c : Nat} (hx : x < B) (hy : y < B) (hc : c ≤ 1) :
    (add32c x y c).1 + B * (add32c x y c).2 = x + y + c ∧
      (add32c x y c).1 < B ∧ (add32c x y c).2 ≤ 1 := by
  simp only [add32c, B_eq, UINT32_MAX_eq] at *
  split_ifs <;> omega

theorem add_loop_spec (xs ys : List Nat) (c : Nat) (hlen : xs.length = ys.length)
    (hx : limbs_ok xs) (hy : limbs_ok ys) (hc : c ≤ 1) :
    ∃ c1, c1 ≤ 1 ∧
      limbs_value (add_loop xs ys c) + B ^ xs.length * c1 =
        limbs_value xs + limbs_value ys + c ∧
      limbs_ok (add_loop xs ys c) ∧ (add_loop xs ys c).length = xs.length := by
  induction xs generalizing ys c with
  | nil =>
    cases ys with
    | nil => exact ⟨c, hc, by simp [add_loop, limbs_value], limbs_ok_nil, rfl⟩
    | cons y ys => simp at hlen
  | cons x xs ih =>
    cases ys with
    | nil => simp at hlen
    | cons y ys =>
      rw [limbs_ok_cons] at hx hy
      simp only [List.length_cons, Nat.add_right_cancel_iff] at hlen
      obtain ⟨h1, h2, h3⟩ := add32c_spec hx.1 hy.1 hc
      obtain ⟨c1, hc1, hv, hok, hl⟩ := ih ys (add32c x y c).2 hlen hx.2 hy.2 h3
      refine ⟨c1, hc1, ?_, ?_, ?_⟩
      · simp only [add_loop, limbs_value_cons, List.length_cons, pow_succ]
        have e : B * (limbs_value (add_loop xs ys (add32c x y c).2) + B ^ xs.length * c1) =
            B * (limbs_value xs + limbs_value ys + (add32c x y c).2) := by rw [hv]
        have e2 : B ^ xs.length * B * c1 = B * (B ^ xs.length * c1) := by ring
        rw [e2]
        rw [Nat.mul_add] at e
        rw [Nat.mul_add, Nat.mul_add] at e
        omega
      · simp only [add_loop]
        rw [limbs_ok_cons]; exact ⟨h2, hok⟩
      · simp only [add_loop, List.length_cons, hl]

theorem reserve_value (a : big_integer) (size : Nat) : value (reserve a size) = value a := by
  unfold reserve
  split
  · exact value_append_pad a.number a.sign _
  · rfl

theorem reserve_sign (a : big_integer) (size : Nat) : (reserve a size).sign = a.sign := by
  unfold reserve
  split <;> rfl

theorem reserve_length (a : big_integer) (size : Nat) :
    (reserve a size).number.length = max a.number.length size := by
  unfold reserve
  split
  · simp only [List.length_append, List.length_replicate]; omega
  · omega

theorem reserve_ok {a : big_integer} (h : limbs_ok a.number) (size : Nat) :
    limbs_ok (reserve a size).number := by
  unfold reserve
  split
  · show limbs_ok (a.number ++ List.replicate _ (pad a.sign))
    rw [limbs_ok_append]
    exact ⟨h, limbs_ok_replicate (pad_lt _)⟩
  · exact h

/-- The value of a state lies within the range of its length. -/
theorem value_bounds {a : big_integer} (h : limbs_ok a.number) :
    -((B ^ a.number.length : Nat) : Int) ≤ value a ∧
      value a < ((B ^ a.number.length : Nat) : Int) := by
  have h1 := limbs_value_lt h
  unfold value
  have : (limbs_value a.number : Int) < ((B ^ a.number.length : Nat) : Int) := by
    exact_mod_cast h1
  split <;> omega

/-- The bit `number.back() >> 31` is set exactly when the limbs are in the upper half of their
range. -/
theorem top_bit_iff {r : List Nat} (hne : r ≠ []) (hr : limbs_ok r) :
    (r.getLastD 0 >>> 31 ≠ 0) ↔ B ^ r.length ≤ 2 * limbs_value r := by
  obtain ⟨l, y, rfl⟩ : ∃ l y, r = l ++ [y] := by
    induction r using List.reverseRecOn with
    | nil => exact absurd rfl hne
    | append_singleton l y _ => exact ⟨l, y, rfl⟩
  rw [limbs_ok_append, limbs_ok_cons] at hr
  have hl := limbs_value_lt hr.1
  have hy := hr.2.1
  have hlast : (l ++ [y]).getLastD 0 = y := by
    rw [List.getLastD_eq_getLast?, List.getLast?_append]; simp
  rw [hlast, limbs_value_append, List.length_append, List.length_singleton, pow_succ,
    Nat.shiftRight_eq_div_pow]
  simp only [limbs_value_cons, limbs_value_nil, Nat.mul_zero, Nat.add_zero]
  have hP := B_pow_pos l.length
  rw [B_eq] at hy
  constructor
  · intro h
    have h2 : 2147483648 ≤ y := by
      by_contra hc
      apply h
      exact Nat.div_eq_of_lt (by norm_num; omega)
    have := Nat.mul_le_mul_left (B ^ l.length) h2
    rw [B_eq] at *
    omega
  · intro h hz
    have h2 : y < 2147483648 := by
      have := (Nat.div_eq_zero_iff (by norm_num : 0 < 2 ^ 31)).mp hz
      norm_num at this; exact this
    have h3 : y ≤ 2147483647 := by omega
    have := Nat.mul_le_mul_left (B ^ l.length) h3
    rw [B_eq] at *
    omega


/-- The sign inference of `operator+=`, as arithmetic: with both operands within
`[-P, P)` and the sum of the extended limbs reduced modulo `2^32 * P`, the top bit of the
result tells the sign of the sum. -/
theorem add_arith {P R X Y va vb : Int} {sa sb t : Bool} {c : Nat}
    (hc : c ≤ 1) (hR0 : 0 ≤ R) (hR : R < 4294967296 * P)
    (hv : R + 4294967296 * P * (c : Int) = X + Y)
    (hA : va = X - if sa = true then 4294967296 * P else 0)
    (hB : vb = Y - if sb = true then 4294967296 * P else 0)
    (hba : -P ≤ va ∧ va < P) (hbb : -P ≤ vb ∧ vb < P)
    (ht : t = true ↔ 4294967296 * P ≤ 2 * R) :
    R - (if t = true then 4294967296 * P else 0) = va + vb := by
  have hc' : c = 0 ∨ c = 1 := by omega
  rcases hc' with rfl | rfl <;> cases sa <;> cases sb <;> cases t <;>
    simp only [if_true, if_false, Bool.false_eq_true, Nat.cast_zero, Nat.cast_one,
      Int.mul_zero, Int.mul_one, true_iff, false_iff, not_le] at hv hA hB ht ⊢ <;> omega

theorem add_limbs_eq (a b : big_integer) :
    add_limbs a b = add_loop (reserve a (max a.number.length b.number.length + 1)).number
      (reserve b (max (reserve a (max a.number.length b.number.length + 1)).number.length
        (b.number.length + 1))).number 0 := rfl

/-- The state `operator+=` hands to `fit`: its value is the sum, and it has at least two
limbs. -/
theorem add_raw {a b : big_integer} (ha : limbs_ok a.number) (hb : limbs_ok b.number) :
    value ⟨add_limbs a b, decide ((add_limbs a b).getLastD 0 >>> 31 ≠ 0)⟩ =
      value a + value b ∧
    limbs_ok (add_limbs a b) ∧
    (add_limbs a b).length = max a.number.length b.number.length + 1 := by
  rw [add_limbs_eq]
  generalize hthis : reserve a (max a.number.length b.number.length + 1) = this
  generalize hright : reserve b (max this.number.length (b.number.length + 1)) = right
  generalize hnumber : add_loop this.number right.number 0 = number
  generalize hLdef : max a.number.length b.number.length = L
  have hLa : a.number.length ≤ L := by omega
  have hLb : b.number.length ≤ L := by omega
  have hthis_len : this.number.length = L + 1 := by
    rw [← hthis, reserve_length]; omega
  have hright_len : right.number.length = L + 1 := by
    rw [← hright, reserve_length, hthis_len]; omega
  have hthis_ok : limbs_ok this.number := by rw [← hthis]; exact reserve_ok ha _
  have hright_ok : limbs_ok right.number := by rw [← hright]; exact reserve_ok hb _
  have hthis_val : value this = value a := by rw [← hthis]; exact reserve_value a _
  have hright_val : value right = value b := by rw [← hright]; exact reserve_value b _
  have hthis_sign : this.sign = a.sign := by rw [← hthis]; exact reserve_sign a _
  have hright_sign : right.sign = b.sign := by rw [← hright]; exact reserve_sign b _
  obtain ⟨c1, hc1, hv, hok, hl⟩ :=
    add_loop_spec this.number right.number 0 (by rw [hthis_len, hright_len]) hthis_ok
      hright_ok (by omega)
  rw [hnumber] at hv hok hl
  rw [hthis_len] at hv hl
  refine ⟨?_, hok, hl⟩
  have hne : number ≠ [] := by
    intro e; rw [e] at hl; simp at hl
  have htop := top_bit_iff hne hok
  have hba := value_bounds ha
  have hbb := value_bounds hb
  have hPa : B ^ a.number.length ≤ B ^ L := Nat.pow_le_pow_right B_pos hLa
  have hPb : B ^ b.number.length ≤ B ^ L := Nat.pow_le_pow_right B_pos hLb
  have hPL := B_pow_pos L
  have hPn : B ^ (L + 1) = 4294967296 * B ^ L := by rw [pow_succ, B_eq]; ring
  have hR := limbs_value_lt hok
  rw [hl, hPn] at htop hR
  rw [hPn] at hv
  have hPn' : ((B ^ (L + 1) : Nat) : Int) = 4294967296 * ((B ^ L : Nat) : Int) := by
    rw [hPn]; push_cast; ring
  have hA : value a = (limbs_value this.number : Int) -
      (if a.sign = true then 4294967296 * ((B ^ L : Nat) : Int) else 0) := by
    rw [← hthis_val]; unfold value; rw [hthis_len, hthis_sign, hPn']
  have hB : value b = (limbs_value right.number : Int) -
      (if b.sign = true then 4294967296 * ((B ^ L : Nat) : Int) else 0) := by
    rw [← hright_val]; unfold value; rw [hright_len, hright_sign, hPn']
  have hPa' : ((B ^ a.number.length : Nat) : Int) ≤ ((B ^ L : Nat) : Int) := by
    exact_mod_cast hPa
  have hPb' : ((B ^ b.number.length : Nat) : Int) ≤ ((B ^ L : Nat) : Int) := by
    exact_mod_cast hPb
  have hgoal : value ⟨number, decide (number.getLastD 0 >>> 31 ≠ 0)⟩ =
      (limbs_value number : Int) - (if decide (number.getLastD 0 >>> 31 ≠ 0) = true then
        4294967296 * ((B ^ L : Nat) : Int) else 0) := by
    unfold value
    simp only []
    rw [hl, hPn']
  rw [hgoal]
  have hv2 : limbs_value number + 4294967296 * B ^ L * c1 =
      limbs_value this.number + limbs_value right.number := by omega
  refine add_arith (c := c1) (X := (limbs_value this.number : Int))
    (Y := (limbs_value right.number : Int)) hc1
    (Int.natCast_nonneg _) (by exact_mod_cast hR) (by exact_mod_cast hv2) hA hB
    ⟨by omega, by omega⟩ ⟨by omega, by omega⟩ ?_
  rw [decide_eq_true_iff, htop]
  exact_mod_cast Iff.rfl

theorem add_def (a b : big_integer) :
    add a b = fit ⟨add_limbs a b, decide ((add_limbs a b).getLastD 0 >>> 31 ≠ 0)⟩ := rfl

/-- The operator `operator+=` computes the sum of the values. -/
theorem add_value {a b : big_integer} (ha : wf a) (hb : wf b) :
    value (add a b) = value a + value b := by
  obtain ⟨h1, _, h3⟩ := add_raw ha.2 hb.2
  rw [add_def, fit_value, h1]
  intro e
  have h4 : (add_limbs a b).length = 1 := by
    rw [big_integer.mk.injEq] at e
    rw [e.1]; rfl
  have h5 : 0 < a.number.length := List.length_pos.mpr ha.1
  omega

/-- The operator `operator+=` returns a canonical state. -/
theorem add_canonical {a b : big_integer} (ha : wf a) (hb : wf b) :
    canonical (add a b) := by
  obtain ⟨_, h2, h3⟩ := add_raw ha.2 hb.2
  rw [add_def]
  refine fit_canonical ⟨?_, h2⟩
  intro e
  have h4 : (add_limbs a b).length = 0 := by
    rw [show add_limbs a b = [] from e]; rfl
  omega


/-! ## Uniqueness of the canonical form -/

theorem exists_snoc {l : List Nat} (h : l ≠ []) : ∃ l1 y, l = l1 ++ [y] := by
  induction l using List.reverseRecOn with
  | nil => exact absurd rfl h
  | append_singleton l y _ => exact ⟨l, y, rfl⟩

theorem getLastD_snoc (l : List Nat) (y d : Nat) : (l ++ [y]).getLastD d = y := by
  rw [List.getLastD_eq_getLast?, List.getLast?_append]; simp

/-- The shape of a canonical state that is not negative: one limb, or a last limb that
is not zero. -/
theorem canonical_shape_nonneg {l : List Nat} (h : canonical ⟨l, false⟩) :
    l.length = 1 ∨ ∃ l1 y, l = l1 ++ [y] ∧ y ≠ 0 := by
  obtain ⟨⟨hne, _⟩, hfit⟩ := h
  cases l with
  | nil => exact absurd rfl hne
  | cons x xs =>
    rw [fit_cons] at hfit
    by_cases h0 : xs = [] ∧ x = 0
    · left; rw [h0.1]; rfl
    · rw [if_neg h0, if_neg (by simp)] at hfit
      have hxs : fit_pop false xs = xs := by
        rw [big_integer.mk.injEq] at hfit
        exact List.cons_injective hfit.1
      have hlast := (fit_pop_spec false xs).choose_spec.2
      rw [hxs] at hlast
      cases xs with
      | nil => left; rfl
      | cons z zs =>
        right
        obtain ⟨l1, y, e⟩ := exists_snoc (l := z :: zs) (by simp)
        refine ⟨x :: l1, y, by rw [e]; rfl, ?_⟩
        intro hy
        apply hlast
        rw [e, hy]; simp [pad]

/-- The shape of a canonical negative state: one nonzero limb, or a last limb that is
neither `0` nor `UINT32_MAX`, or the last two limbs `0, UINT32_MAX`. -/
theorem canonical_shape_neg {l : List Nat} (h : canonical ⟨l, true⟩) :
    (∃ x, l = [x] ∧ x ≠ 0) ∨
    (∃ l1 y, l = l1 ++ [y] ∧ l1 ≠ [] ∧ y ≠ 0 ∧ y ≠ UINT32_MAX) ∨
    (∃ l1, l = l1 ++ [0, UINT32_MAX]) := by
  obtain ⟨⟨hne, _⟩, hfit⟩ := h
  cases l with
  | nil => exact absurd rfl hne
  | cons x xs =>
    rw [fit_cons] at hfit
    by_cases h0 : xs = [] ∧ x = 0
    · rw [if_pos h0] at hfit
      rw [big_integer.mk.injEq] at hfit
      exact absurd hfit.2 (by simp)
    · rw [if_neg h0] at hfit
      by_cases h1 : (true = true) ∧ (x :: fit_pop true xs).getLastD 0 = 0
      · rw [if_pos h1] at hfit
        rw [big_integer.mk.injEq] at hfit
        right; right
        obtain ⟨l1, y, e⟩ := exists_snoc (l := x :: fit_pop true xs) (by simp)
        have hy : y = 0 := by
          have := h1.2
          rw [e, getLastD_snoc] at this
          exact this
        refine ⟨l1, ?_⟩
        rw [← hfit.1, e, hy, List.append_assoc]
        rfl
      · rw [if_neg h1] at hfit
        rw [big_integer.mk.injEq] at hfit
        have hxs : fit_pop true xs = xs := List.cons_injective hfit.1
        have hlast := (fit_pop_spec true xs).choose_spec.2
        rw [hxs] at hlast h1
        have hz : (x :: xs).getLastD 0 ≠ 0 := fun e => h1 ⟨rfl, e⟩
        cases xs with
        | nil =>
          left
          exact ⟨x, rfl, by simpa using hz⟩
        | cons z zs =>
          right; left
          obtain ⟨l1, y, e⟩ := exists_snoc (l := z :: zs) (by simp)
          refine ⟨x :: l1, y, by rw [e]; rfl, by simp, ?_, ?_⟩
          · intro hy
            apply hz
            rw [e, hy, ← List.cons_append, getLastD_snoc]
          · intro hy
            apply hlast
            rw [e, hy]; simp [pad]


/-- A canonical state of two or more limbs that is not negative is at least
`B ^ (length - 1)`. -/
theorem canonical_range_nonneg {l : List Nat} {n : Nat} (h : canonical ⟨l, false⟩)
    (hn : l.length = n + 2) : B ^ (n + 1) ≤ limbs_value l := by
  rcases canonical_shape_nonneg h with h1 | ⟨l1, y, e, hy⟩
  · omega
  · subst e
    have hl : l1.length = n + 1 := by simpa using hn
    have := limbs_value_ge_of_last (l := l1) hy
    rwa [hl] at this

/-- The unsigned limbs of a canonical negative state are at least `B ^ (length - 1)`:
the state is at most `B ^ length - B ^ (length - 1)` below zero. -/
theorem canonical_range_neg_lower {l : List Nat} {n : Nat} (h : canonical ⟨l, true⟩)
    (hn : l.length = n + 1) : B ^ n ≤ limbs_value l := by
  rcases canonical_shape_neg h with ⟨x, e, hx⟩ | ⟨l1, y, e, _, hy, _⟩ | ⟨l1, e⟩
  · subst e
    have hn0 : n = 0 := by simpa using hn
    subst hn0
    simp only [limbs_value_cons, limbs_value_nil, pow_zero]
    omega
  · subst e
    have hl : l1.length = n := by simpa using hn
    have := limbs_value_ge_of_last (l := l1) hy
    rwa [hl] at this
  · subst e
    have hl : (l1 ++ [0]).length = n := by simpa using hn
    have := limbs_value_ge_of_last (l := l1 ++ [0]) (x := UINT32_MAX) (by decide)
    rw [hl] at this
    rw [show l1 ++ [0, UINT32_MAX] = (l1 ++ [0]) ++ [UINT32_MAX] by simp]
    exact this

/-- A canonical negative state of two or more limbs is more than `UINT32_MAX * B ^
(length - 2)` below zero. -/
theorem canonical_range_neg_upper {l : List Nat} {n : Nat} (h : canonical ⟨l, true⟩)
    (hn : l.length = n + 2) : limbs_value l + UINT32_MAX * B ^ n < B ^ (n + 2) := by
  have hok := h.1.2
  have hP := B_pow_pos n
  have hP1 : B ^ (n + 1) = 4294967296 * B ^ n := by rw [pow_succ, B_eq]; ring
  have hP2 : B ^ (n + 2) = 4294967296 * (4294967296 * B ^ n) := by
    rw [pow_succ, pow_succ, B_eq]; ring
  rcases canonical_shape_neg h with ⟨x, e, hx⟩ | ⟨l1, y, e, _, hy, hy2⟩ | ⟨l1, e⟩
  · subst e
    simp at hn
  · subst e
    have hl : l1.length = n + 1 := by simpa using hn
    rw [limbs_ok_append, limbs_ok_cons] at hok
    have h1 := limbs_value_lt hok.1
    have h2 : y ≤ 4294967294 := by
      have := hok.2.1
      rw [B_eq] at this; rw [UINT32_MAX_eq] at hy2
      omega
    have h3 := Nat.mul_le_mul_left (B ^ (n + 1)) h2
    rw [limbs_value_append, hl]
    simp only [limbs_value_cons, limbs_value_nil, Nat.mul_zero, Nat.add_zero]
    rw [hl] at h1
    rw [hP1] at h1 h3 ⊢
    rw [hP2, UINT32_MAX_eq]
    omega
  · subst e
    have hl : l1.length = n := by simpa using hn
    rw [limbs_ok_append] at hok
    have h1 := limbs_value_lt hok.1
    rw [limbs_value_append, hl]
    simp only [limbs_value_cons, limbs_value_nil, Nat.mul_zero, Nat.add_zero, Nat.zero_add]
    rw [hl] at h1
    rw [hP2, UINT32_MAX_eq, B_eq]
    rw [B_eq] at h1
    generalize (4294967296 : Nat) ^ n = P at *
    omega

theorem canonical_length_eq {a b : big_integer} (ha : canonical a) (hb : canonical b)
    (hs : a.sign = b.sign) (hv : value a = value b) (hlt : a.number.length < b.number.length) :
    False := by
  obtain ⟨la, sa⟩ := a
  obtain ⟨lb, sb⟩ := b
  simp only at hs hlt
  subst hs
  have hna : 0 < la.length := List.length_pos.mpr ha.1.1
  obtain ⟨n, hn⟩ : ∃ n, la.length = n + 1 := ⟨la.length - 1, by omega⟩
  obtain ⟨k, hk⟩ : ∃ k, lb.length = n + k + 2 := ⟨lb.length - n - 2, by omega⟩
  have hpow : B ^ (n + k + 1) = B ^ k * B ^ (n + 1) := by
    rw [show n + k + 1 = k + (n + 1) by omega, pow_add]
  have hk1 : 1 ≤ B ^ k := B_pow_pos k
  have hmono : B ^ (n + 1) ≤ B ^ (n + k + 1) := by
    rw [hpow]; exact Nat.le_mul_of_pos_left _ hk1
  unfold value at hv
  simp only at hv
  cases sa with
  | false =>
    simp only [Bool.false_eq_true, if_false, Int.sub_zero] at hv
    have hv' : limbs_value la = limbs_value lb := by exact_mod_cast hv
    have h1 : limbs_value la < B ^ la.length := limbs_value_lt ha.1.2
    have h2 := canonical_range_nonneg (n := n + k) hb hk
    rw [hn] at h1
    omega
  | true =>
    simp only [if_true] at hv
    have h1 := canonical_range_neg_lower ha hn
    have h2 := canonical_range_neg_upper (n := n + k) hb hk
    rw [hn, hk] at hv
    have hq : limbs_value la + B ^ (n + k + 2) = limbs_value lb + B ^ (n + 1) := by
      have : (limbs_value la : Int) + ((B ^ (n + k + 2) : Nat) : Int) =
          (limbs_value lb : Int) + ((B ^ (n + 1) : Nat) : Int) := by omega
      exact_mod_cast this
    have hmono2 : B ^ n ≤ B ^ (n + k) := Nat.pow_le_pow_right B_pos (by omega)
    have h3 : B ^ (n + 1) = 4294967296 * B ^ n := by rw [pow_succ, B_eq]; ring
    have h4 := Nat.mul_le_mul_left UINT32_MAX hmono2
    rw [UINT32_MAX_eq] at h2 h4
    omega

/-- The canonical form is unique: canonical states of equal value are equal. -/
theorem canonical_inj {a b : big_integer} (ha : canonical a) (hb : canonical b)
    (hv : value a = value b) : a = b := by
  have hs : a.sign = b.sign := by
    have h1 := value_nonneg_iff ha.1.2
    have h2 := value_nonneg_iff hb.1.2
    rw [hv] at h1
    cases hsa : a.sign <;> cases hsb : b.sign <;> simp_all
  have hlen : a.number.length = b.number.length := by
    rcases Nat.lt_trichotomy a.number.length b.number.length with h | h | h
    · exact (canonical_length_eq ha hb hs hv h).elim
    · exact h
    · exact (canonical_length_eq hb ha hs.symm hv.symm h).elim
  have hnum : a.number = b.number := by
    apply limbs_value_inj ha.1.2 hb.1.2 hlen
    unfold value at hv
    rw [hs, hlen] at hv
    have : (limbs_value a.number : Int) = (limbs_value b.number : Int) := by omega
    exact_mod_cast this
  obtain ⟨la, sa⟩ := a
  obtain ⟨lb, sb⟩ := b
  simp only at hs hnum
  rw [hs, hnum]


/-! ## Negation -/

/-- On a `uint32_t`, `x ^ UINT32_MAX` is the complement `UINT32_MAX - x`. -/
theorem xor_max {x : Nat} (hx : x < B) : x ^^^ UINT32_MAX = UINT32_MAX - x := by
  have hx' : x < 2 ^ 32 := hx
  apply Nat.eq_of_testBit_eq
  intro i
  have h1 : UINT32_MAX = 2 ^ 32 - 1 := rfl
  have h2 : UINT32_MAX - x = 2 ^ 32 - (x + 1) := by rw [h1]; omega
  rw [Nat.testBit_xor, h2, Nat.testBit_two_pow_sub_succ hx', h1, Nat.testBit_two_pow_sub_one]
  by_cases hi : i < 32
  · simp [hi]
  · have : x.testBit i = false := by
      apply Nat.testBit_lt_two_pow
      calc x < 2 ^ 32 := hx'
        _ ≤ 2 ^ i := Nat.pow_le_pow_right (by decide) (by omega)
    simp [hi, this]

theorem negate_loop_length (l : List Nat) (c : Bool) : (negate_loop l c).length = l.length := by
  induction l generalizing c with
  | nil => rfl
  | cons x xs ih =>
    simp only [negate_loop]
    split <;> simp [ih]

theorem negate_loop_ok {l : List Nat} (h : limbs_ok l) (c : Bool) :
    limbs_ok (negate_loop l c) := by
  induction l generalizing c with
  | nil => exact limbs_ok_nil
  | cons x xs ih =>
    rw [limbs_ok_cons] at h
    simp only [negate_loop]
    rw [xor_max h.1]
    have hx := h.1
    split
    · rw [limbs_ok_cons]
      exact ⟨Nat.mod_lt _ B_pos, ih h.2 _⟩
    · rw [limbs_ok_cons]
      refine ⟨?_, ih h.2 _⟩
      rw [B_eq] at *; rw [UINT32_MAX_eq]; omega

/-- Without a carry the loop of `negate_no_copy` complements the limbs. -/
theorem negate_loop_false {l : List Nat} (h : limbs_ok l) :
    limbs_value (negate_loop l false) + limbs_value l + 1 = B ^ l.length := by
  induction l with
  | nil => rfl
  | cons x xs ih =>
    rw [limbs_ok_cons] at h
    have ih' := ih h.2
    simp only [negate_loop, Bool.false_eq_true, if_false, limbs_value_cons, List.length_cons,
      pow_succ]
    rw [xor_max h.1]
    have hx := h.1
    have e : B * (limbs_value (negate_loop xs false) + limbs_value xs + 1) =
        B * B ^ xs.length := by rw [ih']
    rw [Nat.mul_add, Nat.mul_add] at e
    rw [Nat.mul_comm (B ^ xs.length) B]
    rw [B_eq] at *; rw [UINT32_MAX_eq]
    omega

/-- With the carry set the loop of `negate_no_copy` computes the two's complement. -/
theorem negate_loop_true {l : List Nat} (h : limbs_ok l) :
    (limbs_value l = 0 ∧ limbs_value (negate_loop l true) = 0) ∨
    (limbs_value l ≠ 0 ∧ limbs_value (negate_loop l true) + limbs_value l = B ^ l.length) := by
  induction l with
  | nil => left; exact ⟨rfl, rfl⟩
  | cons x xs ih =>
    rw [limbs_ok_cons] at h
    have hx := h.1
    simp only [negate_loop, if_true, limbs_value_cons, List.length_cons, pow_succ]
    rw [xor_max h.1]
    rw [Nat.mul_comm (B ^ xs.length) B]
    by_cases hx0 : x = 0
    · subst hx0
      have e1 : (UINT32_MAX - 0 + 1) % B = 0 := by decide
      have e2 : decide (UINT32_MAX - 0 = UINT32_MAX) = true := by decide
      rw [e1, e2]
      rcases ih h.2 with ⟨h1, h2⟩ | ⟨h1, h2⟩
      · left; rw [h1, h2]; simp
      · right
        refine ⟨?_, ?_⟩
        · have := Nat.mul_pos B_pos (Nat.pos_of_ne_zero h1)
          omega
        · rw [← h2, Nat.mul_add]; omega
    · right
      have e2 : decide (UINT32_MAX - x = UINT32_MAX) = false := by
        rw [decide_eq_false_iff_not, UINT32_MAX_eq]; omega
      rw [e2]
      have hf := negate_loop_false h.2
      have e : B * (limbs_value (negate_loop xs false) + limbs_value xs + 1) =
          B * B ^ xs.length := by rw [hf]
      rw [Nat.mul_add, Nat.mul_add] at e
      refine ⟨by omega, ?_⟩
      rw [B_eq] at *; rw [UINT32_MAX_eq]
      omega

theorem negate_no_copy_def (a : big_integer) :
    negate_no_copy a = fit ⟨negate_loop a.number true, xor a.sign true⟩ := rfl

theorem neg_wf {a : big_integer} (h : wf a) : wf (neg a) := by
  unfold neg
  rw [negate_no_copy_def]
  apply fit_wf
  refine ⟨?_, negate_loop_ok h.2 _⟩
  intro e
  have := negate_loop_length a.number true
  rw [show negate_loop a.number true = [] from e] at this
  exact h.1 (List.length_eq_zero.mp this.symm)

theorem neg_canonical {a : big_integer} (h : wf a) : canonical (neg a) :=
  ⟨neg_wf h, by unfold neg; rw [negate_no_copy_def, fit_idem]⟩

/-- The member `negate_no_copy` negates the value of every state whose limbs are not all zero. -/
theorem neg_value_of_ne {a : big_integer} (h : wf a) (h0 : limbs_value a.number ≠ 0) :
    value (neg a) = -value a := by
  unfold neg
  rw [negate_no_copy_def]
  rcases negate_loop_true h.2 with ⟨h1, _⟩ | ⟨_, h2⟩
  · exact absurd h1 h0
  · have hlt := limbs_value_lt h.2
    rw [fit_value]
    · unfold value
      simp only [negate_loop_length]
      have h2' : (limbs_value (negate_loop a.number true) : Int) + (limbs_value a.number : Int) =
          ((B ^ a.number.length : Nat) : Int) := by exact_mod_cast h2
      cases a.sign <;>
        simp only [Bool.xor_true, Bool.not_true, Bool.not_false, if_true, if_false,
          Bool.false_eq_true] <;> omega
    · intro e
      rw [big_integer.mk.injEq] at e
      rw [e.1] at h2
      simp only [limbs_value_cons, limbs_value_nil] at h2
      omega

/-- A canonical state whose limbs are all zero is zero. -/
theorem canonical_eq_zero {a : big_integer} (h : canonical a) (h0 : limbs_value a.number = 0) :
    a = zero := by
  obtain ⟨l, s⟩ := a
  simp only at h0
  cases s with
  | true =>
    have hpos : 0 < l.length := List.length_pos.mpr h.1.1
    have := canonical_range_neg_lower (n := l.length - 1) h (by omega)
    have := B_pow_pos (l.length - 1)
    omega
  | false =>
    rcases canonical_shape_nonneg h with h1 | ⟨l1, y, e, hy⟩
    · match l, h1 with
      | [x], _ =>
        simp only [limbs_value_cons, limbs_value_nil] at h0
        have : x = 0 := by omega
        rw [this]; rfl
    · subst e
      have := limbs_value_ge_of_last (l := l1) hy
      have := B_pow_pos l1.length
      omega

/-- Unary minus negates the value of a canonical state. -/
theorem neg_value {a : big_integer} (h : canonical a) : value (neg a) = -value a := by
  by_cases h0 : limbs_value a.number = 0
  · rw [canonical_eq_zero h h0]; decide
  · exact neg_value_of_ne h.1 h0


/-! ## Equality -/

/-- The operator `operator==` holds exactly for identical states. -/
theorem eq_iff (a b : big_integer) : eq a b = true ↔ a = b := by
  obtain ⟨la, sa⟩ := a
  obtain ⟨lb, sb⟩ := b
  simp only [eq, Bool.and_eq_true, beq_iff_eq, big_integer.mk.injEq]
  constructor
  · rintro ⟨⟨h1, _⟩, h3⟩; exact ⟨h3, h1⟩
  · rintro ⟨h1, h2⟩; exact ⟨⟨h2, by rw [h1]⟩, h1⟩

theorem of_int_zero : of_int 0 = zero := by decide

theorem value_zero : value zero = 0 := by decide


/-! ## Left shift -/

theorem two_pow_offset {off : Nat} (h1 : off ≠ 0) (h2 : off < 32) :
    2 ≤ 2 ^ off ∧ 2 ^ off ≤ 2147483648 := by
  constructor
  · calc 2 = 2 ^ 1 := rfl
      _ ≤ 2 ^ off := Nat.pow_le_pow_right (by decide) (by omega)
  · calc 2 ^ off ≤ 2 ^ 31 := Nat.pow_le_pow_right (by decide) (by omega)
      _ = 2147483648 := by norm_num

/-- One limb of a 64-bit shift-and-carry step: for `x < B` and `c < T ≤ 2^31`, the value
`x * T + c` fits in 64 bits and splits into a limb and a carry below `T`. -/
theorem limb_split {x T c : Nat} (hx : x < B) (hT : T ≤ 2147483648) (hc : c < T) :
    x * T + c < B64 ∧ (x * T + c) / B < T ∧ (x * T + c) / B < B ∧
      (x * T + c) % B + B * ((x * T + c) / B) = x * T + c := by
  have h1 : x * T + c < B * T := by
    have : (x + 1) * T ≤ B * T := Nat.mul_le_mul_right T hx
    rw [Nat.add_mul, Nat.one_mul] at this
    omega
  have h2 : B * T ≤ B * 2147483648 := Nat.mul_le_mul_left B hT
  have h3 : (x * T + c) / B < T := Nat.div_lt_of_lt_mul h1
  refine ⟨?_, h3, ?_, Nat.mod_add_div _ _⟩
  · rw [B_eq] at h1 h2; rw [B64_eq]; omega
  · rw [B_eq] at h3 ⊢; omega

theorem shl_loop_spec {off : Nat} (h1 : off ≠ 0) (h2 : off < 32) (l : List Nat) (c : Nat)
    (hl : limbs_ok l) (hc : c < 2 ^ off) :
    limbs_value (shl_loop off l c).1 + B ^ l.length * (shl_loop off l c).2 =
        limbs_value l * 2 ^ off + c ∧
      limbs_ok (shl_loop off l c).1 ∧ (shl_loop off l c).1.length = l.length ∧
      (shl_loop off l c).2 < 2 ^ off := by
  induction l generalizing c with
  | nil => exact ⟨by simp [shl_loop, limbs_value], limbs_ok_nil, rfl, hc⟩
  | cons x xs ih =>
    rw [limbs_ok_cons] at hl
    obtain ⟨hT1, hT2⟩ := two_pow_offset h1 h2
    obtain ⟨s1, s2, s3, s4⟩ := limb_split hl.1 hT2 hc
    have htmp : ((x <<< off) + c) % B64 = x * 2 ^ off + c := by
      rw [Nat.shiftLeft_eq, Nat.mod_eq_of_lt s1]
    have hhigh : ((x * 2 ^ off + c) >>> 32) % B = (x * 2 ^ off + c) / B := by
      rw [Nat.shiftRight_eq_div_pow, show (2 : Nat) ^ 32 = B from rfl, Nat.mod_eq_of_lt s3]
    simp only [shl_loop, htmp, hhigh]
    obtain ⟨i1, i2, i3, i4⟩ := ih ((x * 2 ^ off + c) / B) hl.2 s2
    refine ⟨?_, ?_, by simp [i3], i4⟩
    · simp only [limbs_value_cons, List.length_cons, pow_succ]
      have e : B * (limbs_value (shl_loop off xs ((x * 2 ^ off + c) / B)).1 +
          B ^ xs.length * (shl_loop off xs ((x * 2 ^ off + c) / B)).2) =
          B * (limbs_value xs * 2 ^ off + (x * 2 ^ off + c) / B) := by rw [i1]
      rw [Nat.mul_add, Nat.mul_add] at e
      have e2 : B ^ xs.length * B * (shl_loop off xs ((x * 2 ^ off + c) / B)).2 =
          B * (B ^ xs.length * (shl_loop off xs ((x * 2 ^ off + c) / B)).2) := by ring
      have e3 : (x + B * limbs_value xs) * 2 ^ off =
          x * 2 ^ off + B * (limbs_value xs * 2 ^ off) := by ring
      rw [e2, e3]
      omega
    · rw [limbs_ok_cons]
      exact ⟨Nat.mod_lt _ B_pos, i2⟩

/-- Limbs inserted at the least significant end multiply the value by a power of `B`. -/
theorem value_replicate_zero_append (k : Nat) (m : List Nat) (s : Bool) :
    value ⟨List.replicate k 0 ++ m, s⟩ = ((B ^ k : Nat) : Int) * value ⟨m, s⟩ := by
  unfold value
  simp only [limbs_value_append, limbs_value_replicate_zero, List.length_append,
    List.length_replicate, Nat.zero_add]
  rw [pow_add]
  cases s <;> simp only [if_true, if_false, Bool.false_eq_true] <;> push_cast <;> ring

/-- The limbs of `operator<<=` before the whole-limb insertion, for a nonzero offset. -/
theorem shl_offset_value {off : Nat} (h1 : off ≠ 0) (h2 : off < 32) (a : big_integer)
    (ha : limbs_ok a.number) :
    value ⟨(shl_loop off a.number 0).1 ++
        [((((if a.sign then UINT32_MAX else 0) <<< off) % B) + (shl_loop off a.number 0).2) % B],
      a.sign⟩ = value a * ((2 ^ off : Nat) : Int) ∧
    limbs_ok ((shl_loop off a.number 0).1 ++
        [((((if a.sign then UINT32_MAX else 0) <<< off) % B) +
          (shl_loop off a.number 0).2) % B]) := by
  obtain ⟨hT1, hT2⟩ := two_pow_offset h1 h2
  obtain ⟨i1, i2, i3, i4⟩ := shl_loop_spec h1 h2 a.number 0 ha (by omega)
  refine ⟨?_, ?_⟩
  · unfold value
    simp only [limbs_value_append, limbs_value_cons, limbs_value_nil, List.length_append,
      List.length_singleton, i3, Nat.mul_zero, Nat.add_zero]
    have hP : B ^ (a.number.length + 1) = B ^ a.number.length * B := pow_succ _ _
    cases hs : a.sign with
    | false =>
      simp only [Bool.false_eq_true, if_false, Nat.zero_shiftLeft, Nat.zero_mod, Nat.zero_add,
        Int.sub_zero]
      have hc : (shl_loop off a.number 0).2 < B := by rw [B_eq]; omega
      rw [Nat.mod_eq_of_lt hc, i1]
      push_cast; ring
    | true =>
      simp only [if_true]
      have hmax : (UINT32_MAX <<< off) % B = B - 2 ^ off := by
        rw [Nat.shiftLeft_eq]
        have e : UINT32_MAX * 2 ^ off = (B - 2 ^ off) + B * (2 ^ off - 1) := by
          have : B * (2 ^ off - 1) + B = B * 2 ^ off := by
            rw [← Nat.mul_succ]; congr 1; omega
          have e2 : UINT32_MAX * 2 ^ off + 2 ^ off = B * 2 ^ off := by
            rw [show B = UINT32_MAX + 1 from rfl, Nat.add_mul, Nat.one_mul]
          rw [B_eq] at *
          omega
        rw [e, Nat.add_mul_mod_self_left]
        apply Nat.mod_eq_of_lt
        rw [B_eq]; omega
      have htop : (B - 2 ^ off + (shl_loop off a.number 0).2) % B =
          B - 2 ^ off + (shl_loop off a.number 0).2 := by
        apply Nat.mod_eq_of_lt
        rw [B_eq]; omega
      rw [hmax, htop, hP]
      have hle : 2 ^ off ≤ B := by rw [B_eq]; omega
      have i1' : (limbs_value (shl_loop off a.number 0).1 : Int) +
          ((B ^ a.number.length : Nat) : Int) * ((shl_loop off a.number 0).2 : Int) =
          (limbs_value a.number : Int) * ((2 ^ off : Nat) : Int) := by
        have := i1
        rw [Nat.add_zero] at this
        exact_mod_cast this
      push_cast [Nat.cast_sub hle]
      push_cast at i1'
      linear_combination i1'
  · rw [limbs_ok_append, limbs_ok_cons]
    exact ⟨i2, Nat.mod_lt _ B_pos, limbs_ok_nil⟩


/-- The limbs `operator<<=` hands to `fit`. -/
theorem shl_def (a : big_integer) (rhs : Nat) :
    shl a rhs = fit ⟨List.replicate (rhs / 32) 0 ++
      (if rhs % 32 ≠ 0 then
        (shl_loop (rhs % 32) a.number 0).1 ++
          [((((if a.sign then UINT32_MAX else 0) <<< (rhs % 32)) % B) +
            (shl_loop (rhs % 32) a.number 0).2) % B]
      else a.number), a.sign⟩ := rfl

/-- The state `operator<<=` hands to `fit`: its value, its limbs and its length. -/
theorem shl_raw (a : big_integer) (rhs : Nat) (ha : wf a) :
    ∃ m, shl a rhs = fit ⟨List.replicate (rhs / 32) 0 ++ m, a.sign⟩ ∧
      value ⟨List.replicate (rhs / 32) 0 ++ m, a.sign⟩ = value a * ((2 ^ rhs : Nat) : Int) ∧
      limbs_ok m ∧ m ≠ [] ∧ (rhs % 32 = 0 → m = a.number) ∧
      (rhs % 32 ≠ 0 → 2 ≤ m.length) := by
  have hB : ∀ k, ((B ^ k : Nat) : Int) * ((2 ^ (rhs % 32) : Nat) : Int) =
      ((2 ^ (32 * k + rhs % 32) : Nat) : Int) := by
    intro k
    rw [show B = 2 ^ 32 from rfl, ← pow_mul, pow_add]
    push_cast; ring
  have hrhs : 32 * (rhs / 32) + rhs % 32 = rhs := Nat.div_add_mod rhs 32
  by_cases hoff : rhs % 32 ≠ 0
  · obtain ⟨h1, h2⟩ := shl_offset_value hoff (Nat.mod_lt _ (by decide)) a ha.2
    obtain ⟨_, _, i3, _⟩ := shl_loop_spec hoff (Nat.mod_lt _ (by decide)) a.number 0 ha.2
      (by positivity)
    refine ⟨_, ?_, ?_, h2, by simp, fun h => absurd h hoff, ?_⟩
    · rw [shl_def, if_pos hoff]
    · rw [value_replicate_zero_append, h1, ← hrhs, ← hB]
      rw [hrhs]; ring
    · intro _
      have : 0 < a.number.length := List.length_pos.mpr ha.1
      simp only [List.length_append, List.length_singleton, i3]
      omega
  · refine ⟨a.number, ?_, ?_, ha.2, ha.1, fun _ => rfl, fun h => absurd h hoff⟩
    · rw [shl_def, if_neg hoff]
    · rw [value_replicate_zero_append]
      have h0 : rhs % 32 = 0 := by omega
      have := hB (rhs / 32)
      rw [h0] at this hrhs
      simp only [pow_zero, Nat.cast_one, Int.mul_one, Nat.add_zero] at this
      rw [Nat.add_zero] at hrhs
      rw [hrhs] at this
      rw [this]
      cases a
      ring

theorem shl_wf (a : big_integer) (rhs : Nat) (ha : wf a) : wf (shl a rhs) := by
  obtain ⟨m, h1, _, h3, h4, _⟩ := shl_raw a rhs ha
  rw [h1]
  apply fit_wf
  refine ⟨by simp [h4], ?_⟩
  show limbs_ok (List.replicate (rhs / 32) 0 ++ m)
  rw [limbs_ok_append]
  exact ⟨limbs_ok_replicate B_pos, h3⟩

theorem shl_canonical (a : big_integer) (rhs : Nat) (ha : wf a) : canonical (shl a rhs) := by
  refine ⟨shl_wf a rhs ha, ?_⟩
  obtain ⟨m, h1, _⟩ := shl_raw a rhs ha
  rw [h1, fit_idem]

/-- The operator `operator<<=` multiplies the value by `2 ^ rhs`. -/
theorem shl_value (a : big_integer) (rhs : Nat) (ha : wf a) (h0 : a ≠ ⟨[0], true⟩) :
    value (shl a rhs) = value a * ((2 ^ rhs : Nat) : Int) := by
  obtain ⟨m, h1, h2, _, h4, h5, h6⟩ := shl_raw a rhs ha
  rw [h1, fit_value, h2]
  intro e
  rw [big_integer.mk.injEq] at e
  obtain ⟨e1, e2⟩ := e
  have hlen : (List.replicate (rhs / 32) 0 ++ m).length = 1 := by rw [e1]; rfl
  simp only [List.length_append, List.length_replicate] at hlen
  have hm : 0 < m.length := List.length_pos.mpr h4
  have hk : rhs / 32 = 0 := by omega
  by_cases hoff : rhs % 32 = 0
  · have hm' := h5 hoff
    rw [hk, hm'] at e1
    simp only [List.replicate_zero, List.nil_append] at e1
    apply h0
    cases a
    simp only at e1 e2
    rw [e1, e2]
  · have := h6 hoff
    omega


/-! ## Multiplication -/

/-- One limb of `mul_long_short`: for limbs `x`, `s`, `c` the 64-bit value `x * s + c`
does not wrap and splits into a limb and a carry limb. -/
theorem mul_split {x s c : Nat} (hx : x < B) (hs : s < B) (hc : c < B) :
    x * s + c < B64 ∧ (x * s + c) / B < B ∧
      (x * s + c) % B + B * ((x * s + c) / B) = x * s + c := by
  have h1 : x * s ≤ (B - 1) * (B - 1) := Nat.mul_le_mul (by omega) (by omega)
  have h2 : x * s + c < B * B := by
    have : (B - 1) * (B - 1) + B ≤ B * B := by decide
    omega
  refine ⟨?_, Nat.div_lt_of_lt_mul h2, Nat.mod_add_div _ _⟩
  rw [B64_eq_sq]; exact h2

theorem mul_long_short_loop_spec (s : Nat) (hs : s < B) (l : List Nat) (c : Nat)
    (hl : limbs_ok l) (hc : c < B) :
    limbs_value (mul_long_short_loop s l c) = limbs_value l * s + c ∧
      limbs_ok (mul_long_short_loop s l c) ∧
      (mul_long_short_loop s l c).length = l.length + 1 := by
  induction l generalizing c with
  | nil =>
    refine ⟨by simp [mul_long_short_loop, limbs_value], ?_, rfl⟩
    simp only [mul_long_short_loop]
    rw [limbs_ok_cons]; exact ⟨hc, limbs_ok_nil⟩
  | cons x xs ih =>
    rw [limbs_ok_cons] at hl
    obtain ⟨s1, s2, s3⟩ := mul_split hl.1 hs hc
    have htmp : (x * s + c) % B64 = x * s + c := Nat.mod_eq_of_lt s1
    have hhigh : ((x * s + c) >>> 32) % B = (x * s + c) / B := by
      rw [Nat.shiftRight_eq_div_pow, show (2 : Nat) ^ 32 = B from rfl, Nat.mod_eq_of_lt s2]
    simp only [mul_long_short_loop, htmp, hhigh]
    obtain ⟨i1, i2, i3⟩ := ih ((x * s + c) / B) hl.2 s2
    refine ⟨?_, ?_, by simp [i3]⟩
    · simp only [limbs_value_cons, i1]
      have e : (x + B * limbs_value xs) * s = x * s + B * (limbs_value xs * s) := by ring
      rw [e, Nat.mul_add]
      omega
    · rw [limbs_ok_cons]
      exact ⟨Nat.mod_lt _ B_pos, i2⟩

theorem mul_long_short_wf {a : big_integer} (ha : limbs_ok a.number) {s : Nat} (hs : s < B) :
    wf (mul_long_short a s) := by
  obtain ⟨_, h2, h3⟩ := mul_long_short_loop_spec s hs a.number 0 ha B_pos
  refine ⟨?_, h2⟩
  intro e
  have : (mul_long_short_loop s a.number 0).length = 0 := by
    rw [show mul_long_short_loop s a.number 0 = [] from e]; rfl
  omega

/-- The member `mul_long_short` multiplies the unsigned limbs by `second`; the result is not
negative. -/
theorem mul_long_short_value {a : big_integer} (ha : limbs_ok a.number) {s : Nat}
    (hs : s < B) : value (mul_long_short a s) = (limbs_value a.number : Int) * (s : Int) := by
  obtain ⟨h1, _, _⟩ := mul_long_short_loop_spec s hs a.number 0 ha B_pos
  unfold value mul_long_short
  simp only [Bool.false_eq_true, if_false, Int.sub_zero, h1, Nat.add_zero]
  push_cast; ring

theorem mul_long_short_length {a : big_integer} (ha : limbs_ok a.number) {s : Nat}
    (hs : s < B) : (mul_long_short a s).number.length = a.number.length + 1 :=
  (mul_long_short_loop_spec s hs a.number 0 ha B_pos).2.2

theorem canonical_ne {a : big_integer} (h : canonical a) : a ≠ ⟨[0], true⟩ := by
  intro e
  rw [e] at h
  exact absurd h (by decide)

theorem myMultiply_loop_spec (left : big_integer) (hl : limbs_ok left.number)
    (ds : List Nat) (hd : limbs_ok ds) (acc : big_integer) (hacc : canonical acc) :
    canonical (myMultiply_loop left ds acc) ∧
      value (myMultiply_loop left ds acc) =
        value acc * ((B ^ ds.length : Nat) : Int) +
          (limbs_value left.number : Int) * (limbs_value ds.reverse : Int) := by
  induction ds generalizing acc with
  | nil =>
    refine ⟨hacc, ?_⟩
    simp [myMultiply_loop, limbs_value]
  | cons r rs ih =>
    rw [limbs_ok_cons] at hd
    have hshl := shl_wf acc 32 hacc.1
    have hml := mul_long_short_wf hl hd.1
    have hc : canonical (add (shl acc 32) (mul_long_short left r)) := add_canonical hshl hml
    obtain ⟨i1, i2⟩ := ih hd.2 _ hc
    refine ⟨i1, ?_⟩
    simp only [myMultiply_loop]
    rw [i2, add_value hshl hml, shl_value acc 32 hacc.1 (canonical_ne hacc),
      mul_long_short_value hl hd.1]
    simp only [List.reverse_cons, limbs_value_append, List.length_reverse, List.length_cons,
      limbs_value_cons, limbs_value_nil, Nat.mul_zero, Nat.add_zero]
    rw [show (2 : Nat) ^ 32 = B from rfl, pow_succ B]
    push_cast
    ring

theorem canonical_of_int_zero : canonical (of_int 0) := by decide

/-- The member `myMultiply` multiplies the unsigned limbs of its operands. -/
theorem myMultiply_spec (left right : big_integer) (hl : limbs_ok left.number)
    (hr : limbs_ok right.number) :
    canonical (myMultiply left right) ∧
      value (myMultiply left right) =
        (limbs_value left.number : Int) * (limbs_value right.number : Int) := by
  unfold myMultiply
  obtain ⟨h1, h2⟩ := myMultiply_loop_spec left hl right.number.reverse
    (limbs_ok_reverse.mpr hr) (of_int 0) canonical_of_int_zero
  refine ⟨h1, ?_⟩
  rw [h2, List.reverse_reverse, of_int_zero, value_zero]
  ring


theorem value_of_sign_false {a : big_integer} (h : a.sign = false) :
    value a = (limbs_value a.number : Int) := by
  unfold value; rw [h]; simp

theorem sign_false_of_nonneg {a : big_integer} (ha : limbs_ok a.number) (h : 0 ≤ value a) :
    a.sign = false := by
  have := value_nonneg_iff ha
  cases hs : a.sign with
  | false => rfl
  | true => have := this.mpr hs; omega

theorem value_neg_of_sign {a : big_integer} (ha : limbs_ok a.number) (h : a.sign = true) :
    value a < 0 := (value_nonneg_iff ha).mpr h

theorem value_nonneg_of_sign {a : big_integer} (h : a.sign = false) : 0 ≤ value a := by
  rw [value_of_sign_false h]; exact Int.natCast_nonneg _

/-- The result of `abs` on a canonical state: canonical, not negative, and its limbs are the absolute
value. -/
theorem abs_spec {a : big_integer} (ha : canonical a) :
    canonical (abs a) ∧ (abs a).sign = false ∧
      (limbs_value (abs a).number : Int) = |value a| ∧ value (abs a) = |value a| := by
  unfold abs
  cases hs : a.sign with
  | true =>
    simp only [if_true]
    have hneg := value_neg_of_sign ha.1.2 hs
    have hv := neg_value ha
    have hc := neg_canonical ha.1
    have hsn : (neg a).sign = false := sign_false_of_nonneg hc.1.2 (by omega)
    have habs : |value a| = -value a := abs_of_neg hneg
    refine ⟨hc, hsn, ?_, by rw [hv, habs]⟩
    rw [← value_of_sign_false hsn, hv, habs]
  | false =>
    simp only [Bool.false_eq_true, if_false]
    have hnn := value_nonneg_of_sign hs
    refine ⟨ha, hs, ?_, (abs_of_nonneg hnn).symm⟩
    rw [← value_of_sign_false hs, abs_of_nonneg hnn]

theorem ite_abs (a : big_integer) : (if a.sign then abs a else a) = abs a := by
  unfold abs
  cases a.sign <;> simp

theorem mul_def (a rhs : big_integer) :
    mul a rhs = fit (if xor a.sign rhs.sign then negate (myMultiply (abs a) (abs rhs))
      else myMultiply (abs a) (abs rhs)) := by
  unfold mul
  simp only [ite_abs]

/-- The result of `operator*=` on canonical operands: a canonical state whose value is the product. -/
theorem mul_spec {a b : big_integer} (ha : canonical a) (hb : canonical b) :
    canonical (mul a b) ∧ value (mul a b) = value a * value b := by
  obtain ⟨ca, sa, la, _⟩ := abs_spec ha
  obtain ⟨cb, sb, lb, _⟩ := abs_spec hb
  obtain ⟨cp, vp⟩ := myMultiply_spec (abs a) (abs b) ca.1.2 cb.1.2
  rw [la, lb] at vp
  rw [mul_def]
  have hsa := value_nonneg_iff ha.1.2
  have hsb := value_nonneg_iff hb.1.2
  cases hxa : a.sign <;> cases hxb : b.sign <;>
    simp only [hxa, hxb, Bool.xor_false, Bool.xor_true, Bool.not_true, Bool.not_false,
      Bool.false_eq_true, if_true, if_false, iff_true, iff_false, not_lt] at hsa hsb ⊢
  · rw [cp.2]
    refine ⟨cp, ?_⟩
    rw [vp, abs_of_nonneg hsa, abs_of_nonneg hsb]
  · have hn := neg_canonical cp.1
    unfold negate
    rw [hn.2]
    refine ⟨hn, ?_⟩
    rw [neg_value cp, vp, abs_of_nonneg hsa, abs_of_neg hsb]
    ring
  · have hn := neg_canonical cp.1
    unfold negate
    rw [hn.2]
    refine ⟨hn, ?_⟩
    rw [neg_value cp, vp, abs_of_neg hsa, abs_of_nonneg hsb]
    ring
  · rw [cp.2]
    refine ⟨cp, ?_⟩
    rw [vp, abs_of_neg hsa, abs_of_neg hsb]
    ring

theorem mul_canonical {a b : big_integer} (ha : canonical a) (hb : canonical b) :
    canonical (mul a b) := (mul_spec ha hb).1

theorem mul_value {a b : big_integer} (ha : canonical a) (hb : canonical b) :
    value (mul a b) = value a * value b := (mul_spec ha hb).2


/-! ## Comparison -/

/-- The loop of `operator<` on limbs of equal length compares the unsigned values. -/
theorem lt_loop_spec (xs ys : List Nat) (hlen : xs.length = ys.length) (hx : limbs_ok xs)
    (hy : limbs_ok ys) :
    lt_loop xs ys = decide (limbs_value xs.reverse < limbs_value ys.reverse) := by
  induction xs generalizing ys with
  | nil =>
    cases ys with
    | nil => simp [lt_loop]
    | cons y ys => simp at hlen
  | cons x xs ih =>
    cases ys with
    | nil => simp at hlen
    | cons y ys =>
      rw [limbs_ok_cons] at hx hy
      simp only [List.length_cons, Nat.add_right_cancel_iff] at hlen
      have h1 := limbs_value_lt (limbs_ok_reverse.mpr hx.2)
      have h2 := limbs_value_lt (limbs_ok_reverse.mpr hy.2)
      rw [List.length_reverse] at h1 h2
      rw [← hlen] at h2
      simp only [lt_loop, List.reverse_cons, limbs_value_append, List.length_reverse,
        limbs_value_cons, limbs_value_nil, Nat.mul_zero, Nat.add_zero, ← hlen]
      by_cases hxy : x = y
      · subst hxy
        simp only [ne_eq, not_true_eq_false, if_false]
        rw [ih ys hlen hx.2 hy.2]
        simp
      · simp only [ne_eq, hxy, not_false_eq_true, if_true]
        rcases Nat.lt_or_gt_of_ne hxy with h | h
        · have : B ^ xs.length * (x + 1) ≤ B ^ xs.length * y := Nat.mul_le_mul_left _ h
          rw [Nat.mul_add, Nat.mul_one] at this
          simp only [h, decide_True, true_eq_decide_iff]
          omega
        · have : B ^ xs.length * (y + 1) ≤ B ^ xs.length * x := Nat.mul_le_mul_left _ h
          rw [Nat.mul_add, Nat.mul_one] at this
          have hn : ¬ x < y := by omega
          simp only [hn, decide_False, false_eq_decide_iff]
          omega

/-- Against zero, `operator<` reads the sign flag. -/
theorem lt_zero {a : big_integer} (ha : wf a) : lt a (of_int 0) = a.sign := by
  rw [of_int_zero]
  obtain ⟨l, s⟩ := a
  cases s with
  | true => rfl
  | false =>
    have hpos : 0 < l.length := List.length_pos.mpr ha.1
    unfold lt zero
    simp only [ne_eq, not_true_eq_false, if_false, List.length_singleton, Bool.false_xor]
    by_cases hl : l.length = 1
    · rw [if_neg (by simpa using hl)]
      rw [lt_loop_spec _ _ (by simp [hl]) (limbs_ok_reverse.mpr ha.2) (by decide)]
      simp [limbs_value]
    · rw [if_pos hl]
      simp only [decide_eq_false_iff_not]
      omega

/-- On canonical states that are not negative `operator<` is the order of the values. -/
theorem lt_nonneg {a b : big_integer} (ha : canonical a) (hb : canonical b)
    (hsa : a.sign = false) (hsb : b.sign = false) :
    lt a b = true ↔ value a < value b := by
  rw [value_of_sign_false hsa, value_of_sign_false hsb]
  obtain ⟨la, sa⟩ := a
  obtain ⟨lb, sb⟩ := b
  simp only at hsa hsb
  subst hsa; subst hsb
  have h1 : limbs_value la < B ^ la.length := limbs_value_lt ha.1.2
  have h2 : limbs_value lb < B ^ lb.length := limbs_value_lt hb.1.2
  have hpa : 0 < la.length := List.length_pos.mpr ha.1.1
  have hpb : 0 < lb.length := List.length_pos.mpr hb.1.1
  unfold lt
  simp only [ne_eq, not_true_eq_false, if_false, Bool.false_xor, Nat.cast_lt]
  by_cases hl : la.length = lb.length
  · rw [if_neg (by simpa using hl)]
    rw [lt_loop_spec _ _ (by simp [hl]) (limbs_ok_reverse.mpr ha.1.2)
      (limbs_ok_reverse.mpr hb.1.2)]
    simp
  · rw [if_pos hl]
    simp only [decide_eq_true_eq]
    rcases Nat.lt_or_gt_of_ne hl with h | h
    · have h3 := canonical_range_nonneg (n := lb.length - 2) hb (by omega)
      have h4 : B ^ la.length ≤ B ^ (lb.length - 2 + 1) :=
        Nat.pow_le_pow_right B_pos (by omega)
      constructor
      · intro _; omega
      · intro _; exact h
    · have h3 := canonical_range_nonneg (n := la.length - 2) ha (by omega)
      have h4 : B ^ lb.length ≤ B ^ (la.length - 2 + 1) :=
        Nat.pow_le_pow_right B_pos (by omega)
      constructor
      · intro h5; omega
      · intro h5; omega


/-! ## Division by one limb -/

/-- One step of `div_long_short`: with `c < d ≤ UINT32_MAX` the 64-bit value `c * 2^32 + x`
does not wrap, and both its quotient and its remainder by `d` are limbs. -/
theorem div_split {c d x : Nat} (hd : d < B) (hc : c < d) (hx : x < B) :
    c * B + x < B64 ∧ (c * B + x) / d < B ∧ (c * B + x) % d < d ∧ (c * B + x) % d < B := by
  have hd0 : 0 < d := by omega
  have h1 : c * B + x < d * B := by
    have : (c + 1) * B ≤ d * B := Nat.mul_le_mul_right B hc
    rw [Nat.add_mul, Nat.one_mul] at this
    omega
  have h2 : d * B ≤ B * B := Nat.mul_le_mul_right B (by omega)
  have h3 : (c * B + x) % d < d := Nat.mod_lt _ hd0
  refine ⟨?_, ?_, h3, by omega⟩
  · rw [B64_eq_sq]; omega
  · exact Nat.div_lt_of_lt_mul h1

theorem div_long_short_loop_spec {d : Nat} (hd0 : d ≠ 0) (hd : d < B) (xs : List Nat)
    (c : Nat) (hx : limbs_ok xs) (hc : c < d) :
    ∃ q r, div_long_short_loop d xs c = .ok (q, r) ∧ limbs_ok q ∧ q.length = xs.length ∧
      r < d ∧ limbs_value q.reverse * d + r = c * B ^ xs.length + limbs_value xs.reverse := by
  induction xs generalizing c with
  | nil =>
    exact ⟨[], c, rfl, limbs_ok_nil, rfl, hc, by simp [limbs_value]⟩
  | cons x xs ih =>
    rw [limbs_ok_cons] at hx
    obtain ⟨s1, s2, s3, s4⟩ := div_split hd hc hx.1
    have htmp : ((c <<< 32) + x) % B64 = c * B + x := by
      rw [Nat.shiftLeft_eq, show (2 : Nat) ^ 32 = B from rfl, Nat.mod_eq_of_lt s1]
    obtain ⟨q, r, i1, i2, i3, i4, i5⟩ := ih ((c * B + x) % d) hx.2 s3
    refine ⟨((c * B + x) / d) :: q, r, ?_, ?_, by simp [i3], i4, ?_⟩
    · simp only [div_long_short_loop, if_neg hd0, htmp, Nat.mod_eq_of_lt s4,
        Nat.mod_eq_of_lt s2, i1, Outcome.bind]
    · rw [limbs_ok_cons]; exact ⟨s2, i2⟩
    · simp only [List.reverse_cons, limbs_value_append, List.length_reverse, limbs_value_cons,
        limbs_value_nil, Nat.mul_zero, Nat.add_zero, List.length_cons, i3, pow_succ]
      have hdm := Nat.div_add_mod (c * B + x) d
      have e1 : (limbs_value q.reverse + B ^ xs.length * ((c * B + x) / d)) * d + r =
          (limbs_value q.reverse * d + r) + B ^ xs.length * (d * ((c * B + x) / d)) := by ring
      have e2 : B ^ xs.length * (d * ((c * B + x) / d)) + B ^ xs.length * ((c * B + x) % d) =
          B ^ xs.length * (c * B + x) := by rw [← Nat.mul_add, hdm]
      have e3 : c * (B ^ xs.length * B) + (limbs_value xs.reverse + B ^ xs.length * x) =
          B ^ xs.length * (c * B + x) + limbs_value xs.reverse := by ring
      rw [e1, i5, e3]
      have e4 : (c * B + x) % d * B ^ xs.length = B ^ xs.length * ((c * B + x) % d) := by ring
      rw [e4]
      omega

/-- The member `div_long_short` with a nonzero limb: the quotient limbs and the returned remainder. -/
theorem div_long_short_spec {a : big_integer} (ha : wf a) {d : Nat} (hd0 : d ≠ 0)
    (hd : d < B) :
    ∃ q r, div_long_short a d = .ok (⟨q, a.sign⟩, r) ∧ limbs_ok q ∧
      q.length = a.number.length ∧ r < d ∧ limbs_value q * d + r = limbs_value a.number := by
  obtain ⟨q, r, i1, i2, i3, i4, i5⟩ :=
    div_long_short_loop_spec hd0 hd a.number.reverse 0 (limbs_ok_reverse.mpr ha.2) (by omega)
  refine ⟨q.reverse, r, ?_, limbs_ok_reverse.mpr i2, by simp [i3], i4, ?_⟩
  · simp only [div_long_short, i1, Outcome.bind]
  · rw [i5, List.reverse_reverse]; simp

/-- A zero divisor limb makes `div_long_short` a machine division by zero as soon as
there is a limb to divide. -/
theorem div_long_short_zero {a : big_integer} (ha : a.number ≠ []) :
    div_long_short a 0 = .fail .division_by_zero_ub := by
  obtain ⟨l1, y, e⟩ := exists_snoc ha
  simp only [div_long_short, e, List.reverse_append, List.reverse_singleton,
    List.singleton_append, div_long_short_loop, if_true, Outcome.bind]


/-! ## Long division -/

theorem getD_eq_div_mod (l : List Nat) (k : Nat) (hl : limbs_ok l) :
    (if k < l.length then l.getD k 0 else 0) = limbs_value l / B ^ k % B := by
  induction l generalizing k with
  | nil => simp [limbs_value]
  | cons x xs ih =>
    rw [limbs_ok_cons] at hl
    cases k with
    | zero =>
      simp only [List.length_cons, Nat.zero_lt_succ, if_true, List.getD_cons_zero, pow_zero,
        Nat.div_one, limbs_value_cons, Nat.add_mul_mod_self_left]
      exact (Nat.mod_eq_of_lt hl.1).symm
    | succ k =>
      have h := ih k hl.2
      simp only [List.length_cons, Nat.add_lt_add_iff_right, List.getD_cons_succ] at h ⊢
      rw [h, limbs_value_cons, pow_succ, Nat.mul_comm (B ^ k) B, ← Nat.div_div_eq_div_mul]
      congr 2
      rw [Nat.add_comm, Nat.mul_add_div B_pos, Nat.div_eq_of_lt hl.1, Nat.add_zero]

/-- The member `myAt` of a state that is not negative reads the limb of that position, zero past
the end. -/
theorem myAt_nonneg {a : big_integer} (ha : limbs_ok a.number) (hs : a.sign = false)
    (k : Nat) : myAt a k = limbs_value a.number / B ^ k % B := by
  rw [← getD_eq_div_mod a.number k ha]
  unfold myAt
  rw [hs]
  simp

theorem of_uint32_spec {e : Nat} (he : e < B) :
    canonical (of_uint32 e) ∧ value (of_uint32 e) = (e : Int) := by
  have h0 : (e >>> 32) % B = 0 := by
    rw [Nat.shiftRight_eq_div_pow, show (2 : Nat) ^ 32 = B from rfl, Nat.div_eq_of_lt he]
    rfl
  have hdef : of_uint32 e = fit ⟨[e, 0], false⟩ := by
    unfold of_uint32 of_unsigned_long_long of_limbs
    rw [Nat.mod_eq_of_lt he, h0]
  have hwf : wf ⟨[e, 0], false⟩ := by
    refine ⟨by simp, ?_⟩
    show limbs_ok [e, 0]
    rw [limbs_ok_cons, limbs_ok_cons]
    exact ⟨he, B_pos, limbs_ok_nil⟩
  rw [hdef]
  refine ⟨fit_canonical hwf, ?_⟩
  rw [fit_value (by simp)]
  simp [value, limbs_value]

/-- The decrement `number[i - 1]--` of a nonzero limb. -/
theorem dec_limb {q : Nat} (h1 : 1 ≤ q) (h2 : q < B) : (q + UINT32_MAX) % B = q - 1 := by
  rw [B_eq] at h2
  rw [B_eq, UINT32_MAX_eq]
  omega

/-- The correction loop of `operator/=`: when `t` additions of `shifted` are what makes
`left` non-negative, the loop performs exactly `t` of them, given that much fuel. -/
theorem div_correct_loop_spec (shifted : big_integer) (hs : wf shifted)
    (hpos : 0 < value shifted) (t : Nat) :
    ∀ (fuel : Nat) (left : big_integer) (q : Nat), wf left → t ≤ fuel → t ≤ q → q < B →
      0 ≤ value left + (t : Int) * value shifted →
      (1 ≤ t → value left + ((t : Int) - 1) * value shifted < 0) →
      ∃ left1, div_correct_loop shifted fuel left q = .ok (left1, q - t) ∧ wf left1 ∧
        value left1 = value left + (t : Int) * value shifted := by
  induction t with
  | zero =>
    intro fuel left q hl _ _ _ h0 _
    have hsign : left.sign = false := sign_false_of_nonneg hl.2 (by simpa using h0)
    refine ⟨left, ?_, hl, by simp⟩
    cases fuel <;> simp [div_correct_loop, lt_zero hl, hsign]
  | succ t ih =>
    intro fuel left q hl hf hq hqB h0 h1
    have h1' := h1 (by omega)
    have hneg : value left < 0 := by
      have : (0 : Int) ≤ (t : Int) * value shifted :=
        Int.mul_nonneg (Int.natCast_nonneg _) (Int.le_of_lt hpos)
      push_cast at h1'
      have e : ((t : Int) + 1 - 1) * value shifted = (t : Int) * value shifted := by ring
      rw [e] at h1'
      omega
    have hsign : left.sign = true := (value_nonneg_iff hl.2).mp hneg
    obtain ⟨f, rfl⟩ : ∃ f, fuel = f + 1 := ⟨fuel - 1, by omega⟩
    have hq1 : (q + UINT32_MAX) % B = q - 1 := by
      exact dec_limb (by omega) hqB
    have hadd := add_value hl hs
    have hwf := (add_canonical hl hs).1
    obtain ⟨left1, e1, e2, e3⟩ := ih f (add left shifted) (q - 1) hwf (by omega) (by omega)
      (by omega)
      (by rw [hadd]; push_cast at h0; linarith)
      (by intro _; rw [hadd]; push_cast at h1'; linarith)
    refine ⟨left1, ?_, e2, ?_⟩
    · simp only [div_correct_loop, lt_zero hl, hsign, if_true, hq1]
      rw [e1, show q - 1 - t = q - (t + 1) by omega]
    · rw [e3, hadd]; push_cast; ring


/-- The quotient limb is at most the estimate from the two top limbs of the remainder
and the top limb of the divisor (Knuth, Theorem A), and it is a limb. -/
theorem quotient_le_estimate {L R top k i : Nat} (htop : 0 < top) (hR1 : top * B ^ k ≤ R)
    (hR2 : R < B ^ (k + 1)) (hL : L < R * B ^ (i + 1)) :
    L / (R * B ^ i) ≤ L / B ^ (i + k) / top ∧ L / (R * B ^ i) < B ∧
      L / B ^ (i + k) < B * B := by
  have hBi := B_pow_pos i
  have hBk := B_pow_pos k
  refine ⟨?_, ?_, ?_⟩
  · rw [Nat.div_div_eq_div_mul]
    apply Nat.div_le_div_left
    · calc B ^ (i + k) * top = top * B ^ k * B ^ i := by rw [pow_add]; ring
        _ ≤ R * B ^ i := Nat.mul_le_mul_right _ hR1
    · exact Nat.mul_pos (B_pow_pos _) htop
  · apply Nat.div_lt_of_lt_mul
    calc L < R * B ^ (i + 1) := hL
      _ = R * B ^ i * B := by rw [pow_succ]; ring
  · apply Nat.div_lt_of_lt_mul
    calc L < R * B ^ (i + 1) := hL
      _ ≤ B ^ (k + 1) * B ^ (i + 1) := Nat.mul_le_mul_right _ (Nat.le_of_lt hR2)
      _ = B ^ (i + k) * (B * B) := by rw [pow_add, pow_succ, pow_succ]; ring

/-- The two limbs `myAt(i - 1 + rs)` and `myAt(i - 2 + rs)` as one 64-bit number. -/
theorem two_limbs {L k : Nat} (h : L / B ^ k < B * B) :
    L / B ^ (k + 1) % B * B + L / B ^ k % B = L / B ^ k := by
  have e : L / B ^ (k + 1) = L / B ^ k / B := by
    rw [pow_succ, Nat.div_div_eq_div_mul]
  rw [e]
  have := Nat.mod_mul (a := B) (b := B) (x := L / B ^ k)
  rw [Nat.mod_eq_of_lt h] at this
  rw [Nat.mul_comm] ; omega

/-- The top limb of a state and the value of its limbs. -/
theorem top_limb_bounds {l : List Nat} (hne : l ≠ []) (hl : limbs_ok l) :
    l.getLastD 0 * B ^ (l.length - 1) ≤ limbs_value l ∧
      limbs_value l < (l.getLastD 0 + 1) * B ^ (l.length - 1) ∧ l.getLastD 0 < B := by
  obtain ⟨l1, y, rfl⟩ := exists_snoc hne
  rw [limbs_ok_append, limbs_ok_cons] at hl
  have h1 := limbs_value_lt hl.1
  rw [getLastD_snoc, limbs_value_append]
  simp only [limbs_value_cons, limbs_value_nil, Nat.mul_zero, Nat.add_zero, List.length_append,
    List.length_singleton, Nat.add_sub_cancel]
  refine ⟨?_, ?_, hl.2.1⟩
  · rw [Nat.mul_comm]; omega
  · rw [Nat.add_mul, Nat.one_mul, Nat.mul_comm y]; omega

/-- The top limb of a canonical state that is positive is not zero. -/
theorem top_limb_ne_zero {a : big_integer} (ha : canonical a) (hs : a.sign = false)
    (h0 : limbs_value a.number ≠ 0) : a.number.getLastD 0 ≠ 0 := by
  obtain ⟨l, s⟩ := a
  simp only at hs h0 ⊢
  subst hs
  rcases canonical_shape_nonneg ha with h1 | ⟨l1, y, e, hy⟩
  · match l, h1 with
    | [x], _ =>
      simp only [limbs_value_cons, limbs_value_nil, Nat.mul_zero, Nat.add_zero] at h0
      simpa using h0
  · rw [e, getLastD_snoc]; exact hy

theorem set_append_length (l m : List Nat) (y q : Nat) :
    (l ++ y :: m).set l.length q = l ++ q :: m := by
  induction l with
  | nil => rfl
  | cons x xs ih => simp [List.set, ih]

theorem two_pow_mul_32 (i : Nat) : 2 ^ (i * 32) = B ^ i := by
  rw [show B = 2 ^ 32 from rfl, ← pow_mul, Nat.mul_comm]


theorem div_loop_succ (fuel : Nat) (right : big_integer) (rs i : Nat) (left : big_integer)
    (number : List Nat) :
    div_loop fuel right rs (i + 1) left number =
      if right.number.getLastD 0 = 0 then .fail .division_by_zero_ub
      else
        (div_correct_loop (shl right (i * 32)) fuel
          (sub left (shl (mul right (of_uint32 (min
            ((((myAt left (i + rs) <<< 32) % B64 + myAt left (i + 1 + rs - 2)) % B64) /
              right.number.getLastD 0) UINT32_MAX))) (i * 32)))
          (min ((((myAt left (i + rs) <<< 32) % B64 + myAt left (i + 1 + rs - 2)) % B64) /
              right.number.getLastD 0) UINT32_MAX)).bind fun r =>
          div_loop fuel right rs i r.1 (number.set i r.2) := rfl

/-- The 64-bit numerator of the estimate: the two top limbs of the remainder. -/
theorem estimate_numerator {left : big_integer} (hl : limbs_ok left.number)
    (hs : left.sign = false) {i k : Nat}
    (h : limbs_value left.number / B ^ (i + k) < B * B) :
    ((myAt left (i + (k + 1)) <<< 32) % B64 + myAt left (i + 1 + (k + 1) - 2)) % B64 =
      limbs_value left.number / B ^ (i + k) := by
  have e1 : i + 1 + (k + 1) - 2 = i + k := by omega
  have e2 : i + (k + 1) = i + k + 1 := by omega
  rw [e1, e2, myAt_nonneg hl hs, myAt_nonneg hl hs, Nat.shiftLeft_eq,
    show (2 : Nat) ^ 32 = B from rfl]
  have h1 : limbs_value left.number / B ^ (i + k + 1) % B < B := Nat.mod_lt _ B_pos
  have h2 : limbs_value left.number / B ^ (i + k) % B < B := Nat.mod_lt _ B_pos
  have h3 : limbs_value left.number / B ^ (i + k + 1) % B * B ≤ (B - 1) * B :=
    Nat.mul_le_mul_right B (by omega)
  have h4 : (B - 1) * B + B = B64 := by decide
  have h5 := B_pos
  have h6 : limbs_value left.number / B ^ (i + k + 1) % B * B < B64 := by omega
  rw [Nat.mod_eq_of_lt h6]
  have h7 : limbs_value left.number / B ^ (i + k + 1) % B * B +
      limbs_value left.number / B ^ (i + k) % B < B64 := by omega
  rw [Nat.mod_eq_of_lt h7]
  exact two_limbs h



/-- The normalization factor makes the top limb of the divisor at least `2^31`:
`top * floor(2^32 / (top + 1)) ≥ 2^31` for every nonzero limb `top`. -/
theorem factor_normalizes {v : Nat} (h0 : v ≠ 0) (h1 : v < B) :
    B ≤ 2 * (v * (B / (v + 1))) := by
  have hd1 : B / (v + 1) * (v + 1) ≤ B := Nat.div_mul_le_self _ _
  have hd2 : B < (B / (v + 1) + 1) * (v + 1) :=
    (Nat.div_lt_iff_lt_mul (by omega)).mp (Nat.lt_succ_self _)
  have hdpos : 0 < B / (v + 1) := Nat.div_pos (by omega) (by omega)
  generalize B / (v + 1) = d at *
  rcases Nat.lt_or_ge d 2 with hd | hd
  · have hd' : d = 1 := by omega
    subst hd'
    rw [B_eq] at *
    omega
  · rcases Nat.lt_or_ge v 2 with hv | hv
    · have hv' : v = 1 := by omega
      subst hv'
      rw [B_eq] at *
      omega
    · have h3 : d + v ≤ v * d := by
        have : 1 ≤ (v - 1) * (d - 1) := Nat.mul_pos (by omega) (by omega)
        obtain ⟨v', rfl⟩ : ∃ v', v = v' + 1 := ⟨v - 1, by omega⟩
        obtain ⟨d', rfl⟩ : ∃ d', d = d' + 1 := ⟨d - 1, by omega⟩
        simp only [Nat.add_sub_cancel] at this
        nlinarith
      have h4 : (d + 1) * (v + 1) = v * d + d + v + 1 := by ring
      omega

/-- With a normalized divisor the estimate exceeds the quotient limb by at most two
(Knuth, Theorem B). -/
theorem estimate_le_quotient_add_two {L V D top est q : Nat} (hnorm : B ≤ 2 * top)
    (hV1 : V < (top + 1) * D) (hq : L < (q + 1) * V)
    (hest1 : est * top ≤ L / D) (hest2 : est < B) : est ≤ q + 2 := by
  by_contra hc
  have h1 : q + 3 ≤ est := by omega
  have h2 : (q + 3) * top ≤ L / D := le_trans (Nat.mul_le_mul_right top h1) hest1
  have h3 : L / D * D ≤ L := Nat.div_mul_le_self _ _
  have h4 : (q + 3) * top * D ≤ L := le_trans (Nat.mul_le_mul_right D h2) h3
  have h5 : (q + 1) * V ≤ (q + 1) * ((top + 1) * D) := Nat.mul_le_mul_left _ (Nat.le_of_lt hV1)
  have h6 : (q + 3) * top * D < (q + 1) * (top + 1) * D := by
    calc (q + 3) * top * D ≤ L := h4
      _ < (q + 1) * V := hq
      _ ≤ (q + 1) * ((top + 1) * D) := h5
      _ = (q + 1) * (top + 1) * D := by ring
  have h7 : (q + 3) * top < (q + 1) * (top + 1) := Nat.lt_of_mul_lt_mul_right h6
  have h8 : 2 * top < q + 1 := by
    have e1 : (q + 3) * top = q * top + 3 * top := by ring
    have e2 : (q + 1) * (top + 1) = q * top + q + top + 1 := by ring
    omega
  omega

/-- One quotient limb of the multi-limb branch: the estimate, the subtraction and the
correction loop leave the true quotient limb and the remainder. -/
theorem div_step_spec (fuel : Nat) (hfuel : 2 ≤ fuel) (right : big_integer)
    (hr : canonical right) (hrs : right.sign = false) (hR0 : limbs_value right.number ≠ 0)
    (hnorm : B ≤ 2 * right.number.getLastD 0)
    (i : Nat) (left : big_integer) (hl : wf left) (h0 : 0 ≤ value left)
    (h1 : value left < value right * ((B ^ (i + 1) : Nat) : Int)) :
    ∃ est left1 q, est = min
        ((((myAt left (i + right.number.length) <<< 32) % B64 +
          myAt left (i + 1 + right.number.length - 2)) % B64) / right.number.getLastD 0)
        UINT32_MAX ∧
      div_correct_loop (shl right (i * 32)) fuel
        (sub left (shl (mul right (of_uint32 est)) (i * 32))) est = .ok (left1, q) ∧
      q < B ∧ wf left1 ∧
      (q : Int) * (value right * ((B ^ i : Nat) : Int)) + value left1 = value left ∧
      0 ≤ value left1 ∧ value left1 < value right * ((B ^ i : Nat) : Int) := by
  have hvR : value right = (limbs_value right.number : Int) := value_of_sign_false hrs
  have hsl : left.sign = false := sign_false_of_nonneg hl.2 h0
  have hvL : value left = (limbs_value left.number : Int) := value_of_sign_false hsl
  have htop0 := top_limb_ne_zero hr hrs hR0
  obtain ⟨t1, t2, t3⟩ := top_limb_bounds hr.1.1 hr.1.2
  obtain ⟨k, hk⟩ : ∃ k, right.number.length = k + 1 :=
    ⟨right.number.length - 1, by have := List.length_pos.mpr hr.1.1; omega⟩
  rw [hk, Nat.add_sub_cancel] at t1 t2
  generalize hR : limbs_value right.number = R at *
  generalize hL : limbs_value left.number = L at *
  generalize htop : right.number.getLastD 0 = top at *
  have hR2 : R < B ^ (k + 1) := by
    have := limbs_value_lt hr.1.2
    rw [hR, hk] at this; exact this
  have hLlt : L < R * B ^ (i + 1) := by
    rw [hvL, hvR] at h1
    exact_mod_cast h1
  obtain ⟨q1, q2, q3⟩ := quotient_le_estimate (Nat.pos_of_ne_zero htop0) t1 hR2 hLlt
  have hnum := estimate_numerator hl.2 hsl (i := i) (k := k) (by rw [hL]; exact q3)
  rw [hL] at hnum
  rw [hk, hnum]
  generalize hest : min (L / B ^ (i + k) / top) UINT32_MAX = est
  have hestB : est < B := by
    have : est ≤ UINT32_MAX := by rw [← hest]; exact Nat.min_le_right _ _
    rw [UINT32_MAX_eq] at this; rw [B_eq]; omega
  have hqest : L / (R * B ^ i) ≤ est := by
    rw [← hest]
    apply Nat.le_min.mpr
    refine ⟨q1, ?_⟩
    have q2' : L / (R * B ^ i) < 4294967296 := q2
    rw [UINT32_MAX_eq]; omega
  -- the subtracted product
  obtain ⟨ce, ve⟩ := of_uint32_spec hestB
  have cm := mul_canonical hr ce
  have vm := mul_value hr ce
  have cs := shl_canonical (mul right (of_uint32 est)) (i * 32) cm.1
  have vs := shl_value (mul right (of_uint32 est)) (i * 32) cm.1 (canonical_ne cm)
  rw [vm, ve, hvR, two_pow_mul_32] at vs
  have vn := neg_value cs
  have hsub : value (sub left (shl (mul right (of_uint32 est)) (i * 32))) =
      (L : Int) - (R : Int) * (est : Int) * ((B ^ i : Nat) : Int) := by
    unfold sub
    rw [add_value hl (neg_wf cs.1), vn, vs, hvL]
    ring
  have wsub : wf (sub left (shl (mul right (of_uint32 est)) (i * 32))) :=
    (add_canonical hl (neg_wf cs.1)).1
  -- the shifted divisor
  have wsh := shl_wf right (i * 32) hr.1
  have vsh := shl_value right (i * 32) hr.1 (canonical_ne hr)
  rw [hvR, two_pow_mul_32] at vsh
  have hRpos : 0 < R := Nat.pos_of_ne_zero hR0
  have hSpos : 0 < R * B ^ i := Nat.mul_pos hRpos (B_pow_pos i)
  have hshpos : 0 < value (shl right (i * 32)) := by
    rw [vsh]; exact_mod_cast hSpos
  -- the true quotient limb
  have hdm := Nat.div_add_mod L (R * B ^ i)
  have hmod := Nat.mod_lt L hSpos
  have hV : R * B ^ i < (top + 1) * B ^ (i + k) := by
    calc R * B ^ i < (top + 1) * B ^ k * B ^ i :=
        Nat.mul_lt_mul_of_pos_right t2 (B_pow_pos i)
      _ = (top + 1) * B ^ (i + k) := by rw [pow_add]; ring
  have hqlt : L < (L / (R * B ^ i) + 1) * (R * B ^ i) :=
    (Nat.div_lt_iff_lt_mul hSpos).mp (Nat.lt_succ_self _)
  have hetop : est * top ≤ L / B ^ (i + k) := by
    rw [← hest]
    exact le_trans (Nat.mul_le_mul_right top (Nat.min_le_left _ _))
      (Nat.div_mul_le_self _ _)
  have hcorr : est ≤ L / (R * B ^ i) + 2 :=
    estimate_le_quotient_add_two hnorm hV hqlt hetop hestB
  generalize hq : L / (R * B ^ i) = q at *
  generalize hrem : L % (R * B ^ i) = rem at *
  have hdmI : ((R : Int) * ((B ^ i : Nat) : Int)) * (q : Int) + (rem : Int) = (L : Int) := by
    exact_mod_cast hdm
  have key : (L : Int) - (R : Int) * (est : Int) * ((B ^ i : Nat) : Int) +
      ((est : Int) - (q : Int)) * ((R : Int) * ((B ^ i : Nat) : Int)) = (rem : Int) := by
    linear_combination (-1 : Int) * hdmI
  have hremlt : (rem : Int) < (R : Int) * ((B ^ i : Nat) : Int) := by exact_mod_cast hmod
  obtain ⟨left1, e1, e2, e3⟩ := div_correct_loop_spec (shl right (i * 32)) wsh hshpos
    (est - q) fuel (sub left (shl (mul right (of_uint32 est)) (i * 32))) est wsub
    (by omega) (by omega) hestB
    (by
      rw [hsub, vsh, Nat.cast_sub hqest, key]
      exact Int.natCast_nonneg _)
    (by
      intro _
      rw [hsub, vsh, Nat.cast_sub hqest]
      linarith)
  have hval : value left1 = (rem : Int) := by
    rw [e3, hsub, vsh, Nat.cast_sub hqest, key]
  refine ⟨est, left1, q, rfl, ?_, by omega, e2, ?_, ?_, ?_⟩
  · rw [e1, show est - (est - q) = q by omega]
  · rw [hval, hvR, hvL]; linear_combination hdmI
  · rw [hval]; exact Int.natCast_nonneg _
  · rw [hval, hvR]; exact_mod_cast hmod


/-- The loop of the multi-limb branch of `operator/=`: it fills the low `i` limbs of
`number` with the quotient of `left` by `right` and leaves the remainder in `left`. -/
theorem div_loop_spec (fuel : Nat) (hfuel : 2 ≤ fuel) (right : big_integer)
    (hr : canonical right) (hrs : right.sign = false) (hR0 : limbs_value right.number ≠ 0)
    (hnorm : B ≤ 2 * right.number.getLastD 0) (i : Nat) :
    ∀ (left : big_integer) (lo hi : List Nat), lo.length = i → wf left → 0 ≤ value left →
      value left < value right * ((B ^ i : Nat) : Int) →
      ∃ left1 lo1, div_loop fuel right right.number.length i left (lo ++ hi) =
          .ok (left1, lo1 ++ hi) ∧
        lo1.length = i ∧ limbs_ok lo1 ∧ wf left1 ∧
        (limbs_value lo1 : Int) * value right + value left1 = value left ∧
        0 ≤ value left1 ∧ value left1 < value right := by
  induction i with
  | zero =>
    intro left lo hi hlo hl h0 h1
    have : lo = [] := List.length_eq_zero.mp hlo
    subst this
    exact ⟨left, [], rfl, rfl, limbs_ok_nil, hl, by simp [limbs_value], h0, by simpa using h1⟩
  | succ i ih =>
    intro left lo hi hlo hl h0 h1
    obtain ⟨lo', y, rfl⟩ := exists_snoc (l := lo) (by intro e; rw [e] at hlo; simp at hlo)
    have hlo' : lo'.length = i := by simpa using hlo
    have htop0 := top_limb_ne_zero hr hrs hR0
    obtain ⟨est, left1, q, hest, s1, s2, s3, s4, s5, s6⟩ :=
      div_step_spec fuel hfuel right hr hrs hR0 hnorm i left hl h0 h1
    obtain ⟨left2, lo2, r1, r2, r3, r4, r5, r6, r7⟩ := ih left1 lo' (q :: hi) hlo' s3 s5 s6
    refine ⟨left2, lo2 ++ [q], ?_, by simp [r2], ?_, r4, ?_, r6, r7⟩
    · rw [div_loop_succ, if_neg htop0, ← hest, s1]
      simp only [Outcome.bind]
      have hset : (lo' ++ [y] ++ hi).set i q = lo' ++ q :: hi := by
        rw [List.append_assoc, List.singleton_append, ← hlo', set_append_length]
      rw [hset, r1, List.append_assoc, List.singleton_append]
    · rw [limbs_ok_append, limbs_ok_cons]
      exact ⟨r3, s2, limbs_ok_nil⟩
    · rw [limbs_value_append, r2]
      simp only [limbs_value_cons, limbs_value_nil, Nat.mul_zero, Nat.add_zero]
      push_cast
      push_cast at s4 r5
      linear_combination r5 + s4


/-- The single-limb branch of `operator/=` on the absolute values. -/
theorem div_single_spec {left right : big_integer} (hl : wf left) (hls : left.sign = false)
    (hr : wf right) (hr1 : right.number.length = 1) (hR0 : limbs_value right.number ≠ 0) :
    ∃ num, ((div_long_short left (right.number.getD 0 0)).bind fun r => Outcome.ok r.1) =
        .ok ⟨num, false⟩ ∧ num ≠ [] ∧ limbs_ok num ∧
      limbs_value num = limbs_value left.number / limbs_value right.number := by
  obtain ⟨l, s⟩ := right
  simp only at hr1 hR0 ⊢
  match l, hr1 with
  | [d], _ =>
    have hd : d < B := by
      have := hr.2
      exact this d (by simp)
    simp only [limbs_value_cons, limbs_value_nil, Nat.mul_zero, Nat.add_zero] at hR0 ⊢
    obtain ⟨q, r, i1, i2, i3, i4, i5⟩ := div_long_short_spec hl hR0 hd
    refine ⟨q, ?_, ?_, i2, ?_⟩
    · simp only [List.getD_cons_zero, i1, Outcome.bind, hls]
    · intro e
      rw [e] at i3
      exact hl.1 (List.length_eq_zero.mp i3.symm)
    · rw [← i5, Nat.mul_comm, Nat.mul_add_div (Nat.pos_of_ne_zero hR0), Nat.div_eq_of_lt i4,
        Nat.add_zero]

/-- The normalization factor `f` of the multi-limb branch: a nonzero limb, with `f *
(top + 1) ≤ 2^32`. -/
theorem factor_spec {top : Nat} (h0 : top ≠ 0) (h1 : top < B) :
    (B / (top + 1)) % B = B / (top + 1) ∧ 0 < B / (top + 1) ∧ B / (top + 1) < B ∧
      B / (top + 1) * (top + 1) ≤ B := by
  have h2 : B / (top + 1) ≤ B / 2 := Nat.div_le_div_left (by omega) (by decide)
  have h3 : B / 2 < B := by decide
  have h4 : 0 < B / (top + 1) := Nat.div_pos (by omega) (by omega)
  exact ⟨Nat.mod_eq_of_lt (by omega), h4, by omega, Nat.div_mul_le_self _ _⟩


/-- The multi-limb branch of `operator/=` on the absolute values: normalization, the
loop over the quotient limbs, and the quotient it leaves in `number`. -/
theorem div_multi_spec (fuel : Nat) (hfuel : 2 ≤ fuel) {left right : big_integer}
    (hl : canonical left) (hr : canonical right)
    (hrs : right.sign = false) (hr1 : right.number.length ≠ 1)
    (hge : limbs_value right.number ≤ limbs_value left.number) :
    ∃ num, (if (mul_long_short left ((B / (right.number.getLastD 0 + 1)) % B)).number.length <
          (fit (mul_long_short right
            ((B / (right.number.getLastD 0 + 1)) % B))).number.length
        then Outcome.fail Fault.length_error
        else (div_loop fuel
          (fit (mul_long_short right ((B / (right.number.getLastD 0 + 1)) % B)))
          (fit (mul_long_short right ((B / (right.number.getLastD 0 + 1)) % B))).number.length
          ((mul_long_short left ((B / (right.number.getLastD 0 + 1)) % B)).number.length -
            (fit (mul_long_short right
              ((B / (right.number.getLastD 0 + 1)) % B))).number.length)
          (mul_long_short left ((B / (right.number.getLastD 0 + 1)) % B))
          (List.replicate
            ((mul_long_short left ((B / (right.number.getLastD 0 + 1)) % B)).number.length -
              (fit (mul_long_short right
                ((B / (right.number.getLastD 0 + 1)) % B))).number.length) 0)).bind
        fun r => Outcome.ok (big_integer.mk r.2 false)) = .ok ⟨num, false⟩ ∧
      num ≠ [] ∧ limbs_ok num ∧
      limbs_value num = limbs_value left.number / limbs_value right.number := by
  have hm1 : 0 < right.number.length := List.length_pos.mpr hr.1.1
  obtain ⟨m, hm⟩ : ∃ m, right.number.length = m + 2 := ⟨right.number.length - 2, by omega⟩
  have hRge : B ^ (m + 1) ≤ limbs_value right.number := by
    obtain ⟨l, s⟩ := right
    simp only at hrs hm ⊢
    subst hrs
    exact canonical_range_nonneg hr hm
  have hR0 : limbs_value right.number ≠ 0 := by
    have := B_pow_pos (m + 1); omega
  have htop0 := top_limb_ne_zero hr hrs hR0
  obtain ⟨t1, t2, t3⟩ := top_limb_bounds hr.1.1 hr.1.2
  rw [hm, show m + 2 - 1 = m + 1 by omega] at t1 t2
  obtain ⟨f1, f2, f3, f4⟩ := factor_spec htop0 t3
  have f5 := factor_normalizes htop0 t3
  rw [f1]
  generalize hf : B / (right.number.getLastD 0 + 1) = f at *
  generalize htop : right.number.getLastD 0 = top at *
  -- the scaled operands
  have wl1 := mul_long_short_wf hl.1.2 f3
  have vl1 := mul_long_short_value hl.1.2 f3
  have ll1 := mul_long_short_length hl.1.2 f3
  have wr0 := mul_long_short_wf hr.1.2 f3
  have vr0 := mul_long_short_value hr.1.2 f3
  have cr1 := fit_canonical wr0
  have vr1 : value (fit (mul_long_short right f)) =
      (limbs_value right.number : Int) * (f : Int) := by
    rw [fit_value, vr0]
    intro e
    have : (mul_long_short right f).sign = true := by rw [e]
    exact absurd this (by simp [mul_long_short])
  generalize hright1 : fit (mul_long_short right f) = right1 at *
  generalize hleft1 : mul_long_short left f = left1 at *
  generalize hRv : limbs_value right.number = R at *
  generalize hLv : limbs_value left.number = L at *
  have hLlt : L < B ^ left.number.length := by rw [← hLv]; exact limbs_value_lt hl.1.2
  have sr1 : right1.sign = false :=
    sign_false_of_nonneg cr1.1.2 (by rw [vr1]; positivity)
  have lr1 : limbs_value right1.number = R * f := by
    have := value_of_sign_false sr1
    rw [vr1] at this
    exact_mod_cast this.symm
  have hRf0 : limbs_value right1.number ≠ 0 := by
    rw [lr1]; exact Nat.mul_ne_zero hR0 (by omega)
  -- the lengths
  have hRflt : R * f < B ^ (m + 2) := by
    calc R * f < (top + 1) * B ^ (m + 1) * f := Nat.mul_lt_mul_of_pos_right t2 f2
      _ = f * (top + 1) * B ^ (m + 1) := by ring
      _ ≤ B * B ^ (m + 1) := Nat.mul_le_mul_right _ f4
      _ = B ^ (m + 2) := by rw [pow_succ B (m + 1)]; ring
  have hrs1 : 0 < right1.number.length := List.length_pos.mpr cr1.1.1
  have hrs_le : right1.number.length ≤ m + 2 := by
    by_contra hc
    obtain ⟨j, hj⟩ : ∃ j, right1.number.length = j + 2 :=
      ⟨right1.number.length - 2, by omega⟩
    have h1 : B ^ (j + 1) ≤ limbs_value right1.number := by
      obtain ⟨l, s⟩ := right1
      simp only at sr1 hj ⊢
      subst sr1
      exact canonical_range_nonneg cr1 hj
    have h2 : B ^ (m + 2) ≤ B ^ (j + 1) := Nat.pow_le_pow_right B_pos (by omega)
    omega
  have hn : m + 2 ≤ left.number.length := by
    by_contra hc
    have h2 : B ^ left.number.length ≤ B ^ (m + 1) := Nat.pow_le_pow_right B_pos (by omega)
    omega
  -- the top limb of the normalized divisor
  have hnorm : B ≤ 2 * right1.number.getLastD 0 := by
    obtain ⟨u1, u2, _⟩ := top_limb_bounds cr1.1.1 cr1.1.2
    rw [lr1] at u1 u2
    have h1 : top * f * B ^ (m + 1) ≤ R * f := by
      calc top * f * B ^ (m + 1) = top * B ^ (m + 1) * f := by ring
        _ ≤ R * f := Nat.mul_le_mul_right f t1
    have h2 : B * B ^ (m + 1) ≤ 2 * (top * f) * B ^ (m + 1) := Nat.mul_le_mul_right _ f5
    have h3 : B ^ (m + 1) * B ≤ 2 * (R * f) := by
      calc B ^ (m + 1) * B = B * B ^ (m + 1) := by ring
        _ ≤ 2 * (top * f) * B ^ (m + 1) := h2
        _ = 2 * (top * f * B ^ (m + 1)) := by ring
        _ ≤ 2 * (R * f) := Nat.mul_le_mul_left 2 h1
    have h4 : right1.number.length = m + 2 := by
      by_contra hc
      have h5 : B ^ right1.number.length ≤ B ^ (m + 1) :=
        Nat.pow_le_pow_right B_pos (by omega)
      have h6 := limbs_value_lt cr1.1.2
      rw [lr1] at h6
      have h7 : 2 * B ^ (m + 1) ≤ B ^ (m + 1) * B := by
        rw [Nat.mul_comm]; exact Nat.mul_le_mul_left _ (by decide)
      have h8 := B_pow_pos (m + 1)
      omega
    rw [h4, show m + 2 - 1 = m + 1 by omega] at u2
    have h9 : B ^ (m + 1) * B < (2 * (right1.number.getLastD 0 + 1)) * B ^ (m + 1) := by
      calc B ^ (m + 1) * B ≤ 2 * (R * f) := h3
        _ < 2 * ((right1.number.getLastD 0 + 1) * B ^ (m + 1)) := by omega
        _ = (2 * (right1.number.getLastD 0 + 1)) * B ^ (m + 1) := by ring
    rw [Nat.mul_comm (B ^ (m + 1)) B] at h9
    have h10 : B < 2 * (right1.number.getLastD 0 + 1) := Nat.lt_of_mul_lt_mul_right h9
    rw [B_eq] at h10 ⊢
    omega
  -- the invariant at the start of the loop
  rw [if_neg (by omega)]
  generalize hi : left1.number.length - right1.number.length = i
  have hi1 : left.number.length + 1 - (m + 2) ≤ i := by omega
  have hi0 : 0 < i := by omega
  have hstart : value left1 < value right1 * ((B ^ i : Nat) : Int) := by
    rw [vl1, vr1]
    have h1 : B ^ left.number.length ≤ B ^ (m + 1) * B ^ i := by
      rw [← pow_add]; exact Nat.pow_le_pow_right B_pos (by omega)
    have h2 : B ^ (m + 1) * B ^ i ≤ R * B ^ i := Nat.mul_le_mul_right _ hRge
    have h3 : L * f < R * f * B ^ i := by
      calc L * f < R * B ^ i * f := Nat.mul_lt_mul_of_pos_right (by omega) f2
        _ = R * f * B ^ i := by ring
    exact_mod_cast h3
  obtain ⟨left2, lo1, r1, r2, r3, r4, r5, r6, r7⟩ :=
    div_loop_spec fuel hfuel right1 cr1 sr1 hRf0 hnorm i left1 (List.replicate i 0) []
      (by simp) wl1 (by rw [vl1]; positivity) hstart
  rw [List.append_nil] at r1
  rw [List.append_nil] at r1
  refine ⟨lo1, ?_, ?_, r3, ?_⟩
  · rw [r1]; rfl
  · intro e
    rw [e] at r2
    simp at r2
    omega
  · rw [vr1] at r5 r7
    rw [vl1] at r5
    obtain ⟨rem, hrem⟩ := Int.eq_ofNat_of_zero_le r6
    rw [hrem] at r5 r7
    have e1 : limbs_value lo1 * (R * f) + rem = L * f := by exact_mod_cast r5
    have e2 : rem < R * f := by exact_mod_cast r7
    have e3 : L * f / (R * f) = limbs_value lo1 := by
      rw [← e1, Nat.mul_comm (limbs_value lo1), Nat.mul_add_div (by omega),
        Nat.div_eq_of_lt e2, Nat.add_zero]
    rw [← e3, Nat.mul_div_mul_right _ _ f2]


theorem div_def (fuel : Nat) (a rhs : big_integer) :
    div fuel a rhs =
      if lt (abs a) (abs rhs) then .ok (of_int 0)
      else
        (if (abs rhs).number.length = 1 then
          (div_long_short (abs a) ((abs rhs).number.getD 0 0)).bind fun r => Outcome.ok r.1
        else
          if (mul_long_short (abs a)
                ((B / ((abs rhs).number.getLastD 0 + 1)) % B)).number.length <
              (fit (mul_long_short (abs rhs)
                ((B / ((abs rhs).number.getLastD 0 + 1)) % B))).number.length
          then Outcome.fail Fault.length_error
          else (div_loop fuel
            (fit (mul_long_short (abs rhs) ((B / ((abs rhs).number.getLastD 0 + 1)) % B)))
            (fit (mul_long_short (abs rhs)
              ((B / ((abs rhs).number.getLastD 0 + 1)) % B))).number.length
            ((mul_long_short (abs a)
                ((B / ((abs rhs).number.getLastD 0 + 1)) % B)).number.length -
              (fit (mul_long_short (abs rhs)
                ((B / ((abs rhs).number.getLastD 0 + 1)) % B))).number.length)
            (mul_long_short (abs a) ((B / ((abs rhs).number.getLastD 0 + 1)) % B))
            (List.replicate
              ((mul_long_short (abs a)
                  ((B / ((abs rhs).number.getLastD 0 + 1)) % B)).number.length -
                (fit (mul_long_short (abs rhs)
                  ((B / ((abs rhs).number.getLastD 0 + 1)) % B))).number.length) 0)).bind
            fun r => Outcome.ok (big_integer.mk r.2 false)).bind fun this =>
          .ok (fit (if xor a.sign rhs.sign then negate_no_copy this else this)) := rfl

/-- The end of `operator/=`: the sign is applied to the quotient limbs and the result is
canonical. -/
theorem div_finish {num : List Nat} (hne : num ≠ []) (hok : limbs_ok num)
    (h0 : limbs_value num ≠ 0) (s : Bool) :
    canonical (fit (if s then negate_no_copy ⟨num, false⟩ else ⟨num, false⟩)) ∧
      value (fit (if s then negate_no_copy ⟨num, false⟩ else ⟨num, false⟩)) =
        if s then -(limbs_value num : Int) else (limbs_value num : Int) := by
  have hwf : wf ⟨num, false⟩ := ⟨hne, hok⟩
  have hv : value ⟨num, false⟩ = (limbs_value num : Int) := value_of_sign_false rfl
  cases s with
  | true =>
    simp only [if_true]
    have hc := neg_canonical hwf
    have hvn := neg_value_of_ne hwf h0
    unfold neg at hc hvn
    rw [hc.2]
    exact ⟨hc, by rw [hvn, hv]⟩
  | false =>
    simp only [Bool.false_eq_true, if_false]
    refine ⟨fit_canonical hwf, ?_⟩
    rw [fit_value (by simp), hv]

/-- Truncated division from the absolute values and the signs. -/
theorem tdiv_of_natAbs (x y : Int) :
    Int.tdiv x y = if xor (decide (x < 0)) (decide (y < 0)) then
      -((x.natAbs / y.natAbs : Nat) : Int) else ((x.natAbs / y.natAbs : Nat) : Int) := by
  rcases Int.natAbs_eq x with hx | hx <;> rcases Int.natAbs_eq y with hy | hy
  · have h1 : ¬ x < 0 := by omega
    have h2 : ¬ y < 0 := by omega
    simp only [h1, h2, decide_False, Bool.xor_false, Bool.false_eq_true, if_false]
    conv_lhs => rw [hx, hy]
    exact (Int.ofNat_tdiv _ _).symm
  · have h1 : ¬ x < 0 := by omega
    by_cases h2 : y < 0
    · simp only [h1, h2, decide_False, decide_True, Bool.false_xor, if_true]
      conv_lhs => rw [hx, hy, Int.tdiv_neg]
      rw [← Int.ofNat_tdiv]
    · have hy0 : y.natAbs = 0 := by omega
      have hy1 : y = 0 := by omega
      simp [hy0, hy1]
  · have h2 : ¬ y < 0 := by omega
    by_cases h1 : x < 0
    · simp only [h1, h2, decide_False, decide_True, Bool.xor_false, if_true]
      conv_lhs => rw [hx, hy, Int.neg_tdiv]
      rw [← Int.ofNat_tdiv]
    · have hx0 : x.natAbs = 0 := by omega
      have hx1 : x = 0 := by omega
      simp [hx0, hx1]
  · by_cases h1 : x < 0
    · by_cases h2 : y < 0
      · simp only [h1, h2, decide_True, Bool.xor_self, Bool.false_eq_true, if_false]
        conv_lhs => rw [hx, hy, Int.neg_tdiv_neg]
        rw [← Int.ofNat_tdiv]
      · have hy0 : y.natAbs = 0 := by omega
        have hy1 : y = 0 := by omega
        simp [hy0, hy1]
    · have hx0 : x.natAbs = 0 := by omega
      have hx1 : x = 0 := by omega
      simp [hx0, hx1]


theorem natAbs_of_abs_spec {a : big_integer} (ha : canonical a) :
    limbs_value (abs a).number = (value a).natAbs := by
  obtain ⟨_, _, h3, _⟩ := abs_spec ha
  have : ((limbs_value (abs a).number : Nat) : Int) = (((value a).natAbs : Nat) : Int) := by
    rw [h3, Int.natCast_natAbs]
  exact_mod_cast this

/-- The operator `operator/=` on canonical operands with a nonzero divisor: it returns, the result is
canonical, and its value is the quotient truncated toward zero. -/
theorem div_spec (fuel : Nat) (hfuel : 2 ≤ fuel) {a b : big_integer}
    (ha : canonical a) (hb : canonical b) (hb0 : value b ≠ 0) :
    ∃ q, div fuel a b = .ok q ∧ canonical q ∧ value q = Int.tdiv (value a) (value b) := by
  obtain ⟨ca, sa, _, va⟩ := abs_spec ha
  obtain ⟨cb, sb, _, vb⟩ := abs_spec hb
  have la := natAbs_of_abs_spec ha
  have lb := natAbs_of_abs_spec hb
  have hlt := lt_nonneg ca cb sa sb
  rw [value_of_sign_false sa, value_of_sign_false sb, la, lb] at hlt
  have hsa : decide (value a < 0) = a.sign := by
    have := value_nonneg_iff ha.1.2
    cases hs : a.sign <;> simp [hs] at this ⊢ <;> omega
  have hsb : decide (value b < 0) = b.sign := by
    have := value_nonneg_iff hb.1.2
    cases hs : b.sign <;> simp [hs] at this ⊢ <;> omega
  have hB0 : (value b).natAbs ≠ 0 := by omega
  rw [div_def, tdiv_of_natAbs, hsa, hsb]
  by_cases h : lt (abs a) (abs b) = true
  · rw [if_pos h]
    have h1 : (value a).natAbs < (value b).natAbs := by exact_mod_cast hlt.mp h
    refine ⟨of_int 0, rfl, canonical_of_int_zero, ?_⟩
    rw [Nat.div_eq_of_lt h1, of_int_zero, value_zero]
    simp
  · rw [if_neg h]
    have h1 : (value b).natAbs ≤ (value a).natAbs := by
      by_contra hc
      exact h (hlt.mpr (by exact_mod_cast Nat.lt_of_not_le hc))
    have hQ : (value a).natAbs / (value b).natAbs ≠ 0 := by
      intro e
      have := Nat.div_eq_zero_iff (Nat.pos_of_ne_zero hB0) |>.mp e
      omega
    have hbranch : ∃ num,
        (if (abs b).number.length = 1 then
          (div_long_short (abs a) ((abs b).number.getD 0 0)).bind fun r => Outcome.ok r.1
        else
          if (mul_long_short (abs a)
                ((B / ((abs b).number.getLastD 0 + 1)) % B)).number.length <
              (fit (mul_long_short (abs b)
                ((B / ((abs b).number.getLastD 0 + 1)) % B))).number.length
          then Outcome.fail Fault.length_error
          else (div_loop fuel
            (fit (mul_long_short (abs b) ((B / ((abs b).number.getLastD 0 + 1)) % B)))
            (fit (mul_long_short (abs b)
              ((B / ((abs b).number.getLastD 0 + 1)) % B))).number.length
            ((mul_long_short (abs a)
                ((B / ((abs b).number.getLastD 0 + 1)) % B)).number.length -
              (fit (mul_long_short (abs b)
                ((B / ((abs b).number.getLastD 0 + 1)) % B))).number.length)
            (mul_long_short (abs a) ((B / ((abs b).number.getLastD 0 + 1)) % B))
            (List.replicate
              ((mul_long_short (abs a)
                  ((B / ((abs b).number.getLastD 0 + 1)) % B)).number.length -
                (fit (mul_long_short (abs b)
                  ((B / ((abs b).number.getLastD 0 + 1)) % B))).number.length) 0)).bind
            fun r => Outcome.ok (big_integer.mk r.2 false)) = .ok ⟨num, false⟩ ∧
        num ≠ [] ∧ limbs_ok num ∧
        limbs_value num = (value a).natAbs / (value b).natAbs := by
      by_cases h1l : (abs b).number.length = 1
      · rw [if_pos h1l]
        have := div_single_spec ca.1 sa cb.1 h1l (by rw [lb]; exact hB0)
        rw [la, lb] at this
        exact this
      · rw [if_neg h1l]
        have := div_multi_spec fuel hfuel ca cb sb h1l (by rw [la, lb]; exact h1)
        rw [la, lb] at this
        exact this
    obtain ⟨num, e1, e2, e3, e4⟩ := hbranch
    rw [e1]
    simp only [Outcome.bind]
    obtain ⟨f1, f2⟩ := div_finish e2 e3 (by rw [e4]; exact hQ) (xor a.sign b.sign)
    refine ⟨_, rfl, f1, ?_⟩
    rw [f2, e4]


/-! ## Right shift -/

theorem limbs_value_drop (l : List Nat) (k : Nat) (hl : limbs_ok l) :
    limbs_value (l.drop k) = limbs_value l / B ^ k := by
  induction k generalizing l with
  | zero => simp
  | succ k ih =>
    cases l with
    | nil => simp [limbs_value]
    | cons x xs =>
      rw [limbs_ok_cons] at hl
      rw [List.drop_succ_cons, ih xs hl.2, limbs_value_cons, pow_succ, Nat.mul_comm (B ^ k) B,
        ← Nat.div_div_eq_div_mul]
      congr 1
      rw [Nat.add_comm, Nat.mul_add_div B_pos, Nat.div_eq_of_lt hl.1, Nat.add_zero]

theorem limbs_ok_drop {l : List Nat} (k : Nat) (hl : limbs_ok l) : limbs_ok (l.drop k) := by
  intro x hx
  exact hl x (List.mem_of_mem_drop hx)

/-- One step of the loop of `operator>>=`, with `T = 2^rhs`, `U = 2^(32 - rhs)`, a limb
`x` and the part `h < T` carried from the limb above: nothing wraps, the new limb is `x /
T + h * U`, and the next carry holds `x % T`. -/
theorem shr_step {T U x h : Nat} (hTU : T * U = B) (hx : x < B) (hh : h < T) :
    (x * U + h * (U * B)) % B64 = x * U + h * (U * B) ∧
    ((x * U + h * (U * B)) / B) % B = x / T + h * U ∧
    ((x * U + h * (U * B)) * B) % B64 = x % T * (U * B) ∧ x % T < T := by
  have hT : 0 < T := by omega
  have hU : 0 < U := by
    rcases Nat.eq_zero_or_pos U with h0 | h0
    · rw [h0, Nat.mul_zero] at hTU; exact absurd hTU.symm (by decide)
    · exact h0
  have hB := B_pos
  have hxT : x / T < U := by
    apply Nat.div_lt_of_lt_mul; rw [hTU]; exact hx
  have hdm := Nat.div_add_mod x T
  have hmod := Nat.mod_lt x hT
  -- x * U = (x / T) * B + (x % T) * U
  have e1 : x * U = x / T * B + x % T * U := by
    calc x * U = (T * (x / T) + x % T) * U := by rw [hdm]
      _ = x / T * (T * U) + x % T * U := by ring
      _ = x / T * B + x % T * U := by rw [hTU]
  have hlow : x % T * U < B := by
    calc x % T * U < T * U := Nat.mul_lt_mul_of_pos_right hmod hU
      _ = B := hTU
  have hlimb : x / T + h * U < B := by
    have : (h + 1) * U ≤ T * U := Nat.mul_le_mul_right U hh
    rw [Nat.add_mul, Nat.one_mul, hTU] at this
    omega
  have e2 : x * U + h * (U * B) = (x / T + h * U) * B + x % T * U := by
    rw [e1]; ring
  have hdiv : (x * U + h * (U * B)) / B = x / T + h * U := by
    rw [e2, Nat.add_comm, Nat.add_mul_div_right _ _ hB, Nat.div_eq_of_lt hlow, Nat.zero_add]
  refine ⟨?_, ?_, ?_, hmod⟩
  · apply Nat.mod_eq_of_lt
    rw [e2, B64_eq_sq]
    calc (x / T + h * U) * B + x % T * U < (x / T + h * U) * B + B := by omega
      _ = (x / T + h * U + 1) * B := by ring
      _ ≤ B * B := Nat.mul_le_mul_right B hlimb
  · rw [hdiv, Nat.mod_eq_of_lt hlimb]
  · rw [e2, B64_eq_sq]
    have e3 : ((x / T + h * U) * B + x % T * U) * B =
        x % T * U * B + (B * B) * (x / T + h * U) := by ring
    rw [e3, Nat.add_mul_mod_self_left]
    rw [Nat.mul_assoc]
    apply Nat.mod_eq_of_lt
    calc x % T * (U * B) = x % T * U * B := by ring
      _ < B * B := Nat.mul_lt_mul_of_pos_right hlow hB

theorem shr_loop_spec {r T U : Nat} (hT : 2 ^ r = T) (hU : 2 ^ (32 - r) = U)
    (hTU : T * U = B) (xs : List Nat) (h : Nat) (hx : limbs_ok xs) (hh : h < T) :
    limbs_ok (shr_loop r xs (h * (U * B))) ∧
      (shr_loop r xs (h * (U * B))).length = xs.length ∧
      limbs_value (shr_loop r xs (h * (U * B))).reverse =
        (h * B ^ xs.length + limbs_value xs.reverse) / T := by
  have hTpos : 0 < T := by rw [← hT]; positivity
  induction xs generalizing h with
  | nil =>
    refine ⟨limbs_ok_nil, rfl, ?_⟩
    simp only [shr_loop, List.reverse_nil, limbs_value_nil, List.length_nil, pow_zero,
      Nat.mul_one, Nat.add_zero]
    exact (Nat.div_eq_of_lt hh).symm
  | cons x xs ih =>
    rw [limbs_ok_cons] at hx
    obtain ⟨s1, s2, s3, s4⟩ := shr_step hTU hx.1 hh
    obtain ⟨i1, i2, i3⟩ := ih (x % T) hx.2 s4
    have hstep : shr_loop r (x :: xs) (h * (U * B)) =
        (x / T + h * U) :: shr_loop r xs (x % T * (U * B)) := by
      simp only [shr_loop, Nat.shiftLeft_eq, Nat.shiftRight_eq_div_pow, hU,
        show (2 : Nat) ^ 32 = B from rfl, s1, s2, s3]
    rw [hstep]
    refine ⟨?_, by simp [i2], ?_⟩
    · rw [limbs_ok_cons]
      refine ⟨?_, i1⟩
      rw [← s2]; exact Nat.mod_lt _ B_pos
    · simp only [List.reverse_cons, limbs_value_append, List.length_reverse, limbs_value_cons,
        limbs_value_nil, Nat.mul_zero, Nat.add_zero, i2, i3, List.length_cons]
      have hdm := Nat.div_add_mod x T
      have e : h * B ^ (xs.length + 1) + (limbs_value xs.reverse + B ^ xs.length * x) =
          (x % T * B ^ xs.length + limbs_value xs.reverse) +
            T * (B ^ xs.length * (x / T + h * U)) := by
        have e1 : B ^ (xs.length + 1) = B ^ xs.length * (T * U) := by rw [hTU, pow_succ]
        calc h * B ^ (xs.length + 1) + (limbs_value xs.reverse + B ^ xs.length * x)
            = h * (B ^ xs.length * (T * U)) +
                (limbs_value xs.reverse + B ^ xs.length * (T * (x / T) + x % T)) := by
              rw [e1, hdm]
          _ = (x % T * B ^ xs.length + limbs_value xs.reverse) +
                T * (B ^ xs.length * (x / T + h * U)) := by ring
      rw [e, Nat.add_mul_div_left _ _ hTpos]

/-- The split of the limb for a nonzero bit offset: `2^r * 2^(32 - r) = 2^32`. -/
theorem pow_split {r : Nat} (h : r < 32) : 2 ^ r * 2 ^ (32 - r) = B := by
  rw [← pow_add, show r + (32 - r) = 32 by omega]; rfl


theorem shr_def_nonneg {a : big_integer} (hs : a.sign = false) (rhs : Nat) :
    shr a rhs =
      if (a.number.drop (min a.number.length (rhs / 32))).length = 0 then ⟨[0], false⟩
      else fit ⟨if rhs % 32 ≠ 0 then
          (shr_loop (rhs % 32) (a.number.drop (min a.number.length (rhs / 32))).reverse
            0).reverse
        else a.number.drop (min a.number.length (rhs / 32)), false⟩ := by
  unfold shr
  simp only [hs, Bool.false_eq_true, if_false]

/-- The result of `operator>>=` on a state that is not negative: a canonical state whose limbs are the
limbs of the operand divided by `2 ^ rhs`. -/
theorem shr_nonneg_spec {a : big_integer} (ha : wf a) (hs : a.sign = false) (rhs : Nat) :
    canonical (shr a rhs) ∧
      value (shr a rhs) = ((limbs_value a.number / 2 ^ rhs : Nat) : Int) := by
  rw [shr_def_nonneg hs]
  have hlt := limbs_value_lt ha.2
  have hrhs : 2 ^ rhs = B ^ (rhs / 32) * 2 ^ (rhs % 32) := by
    rw [show B = 2 ^ 32 from rfl, ← pow_mul, ← pow_add, Nat.div_add_mod]
  by_cases h0 : (a.number.drop (min a.number.length (rhs / 32))).length = 0
  · rw [if_pos h0]
    refine ⟨canonical_zero, ?_⟩
    have hk : a.number.length ≤ rhs / 32 := by
      rw [List.length_drop] at h0; omega
    have h1 : B ^ a.number.length ≤ B ^ (rhs / 32) := Nat.pow_le_pow_right B_pos hk
    have h2 : B ^ (rhs / 32) ≤ 2 ^ rhs := by
      rw [hrhs]; exact Nat.le_mul_of_pos_right _ (by positivity)
    rw [Nat.div_eq_of_lt (by omega)]
    rfl
  · rw [if_neg h0]
    have hk : min a.number.length (rhs / 32) = rhs / 32 := by
      rw [List.length_drop] at h0; omega
    rw [hk] at h0 ⊢
    have hdv := limbs_value_drop a.number (rhs / 32) ha.2
    have hdok := limbs_ok_drop (rhs / 32) ha.2
    generalize hd : a.number.drop (rhs / 32) = d at *
    have hdne : d ≠ [] := fun e => h0 (by rw [e]; rfl)
    by_cases hr : rhs % 32 ≠ 0
    · rw [if_pos hr]
      have hr32 : rhs % 32 < 32 := Nat.mod_lt _ (by decide)
      obtain ⟨i1, i2, i3⟩ := shr_loop_spec (r := rhs % 32) rfl rfl (pow_split hr32) d.reverse 0
        (limbs_ok_reverse.mpr hdok) (by positivity)
      rw [Nat.zero_mul] at i1 i2 i3
      rw [Nat.zero_mul, Nat.zero_add, List.reverse_reverse] at i3
      have hwf : wf ⟨(shr_loop (rhs % 32) d.reverse 0).reverse, false⟩ := by
        refine ⟨?_, limbs_ok_reverse.mpr i1⟩
        intro e
        have : (shr_loop (rhs % 32) d.reverse 0).reverse.length = 0 := by
          rw [show (shr_loop (rhs % 32) d.reverse 0).reverse = [] from e]; rfl
        rw [List.length_reverse, i2, List.length_reverse] at this
        exact hdne (List.length_eq_zero.mp this)
      refine ⟨fit_canonical hwf, ?_⟩
      rw [fit_value (by simp), value_of_sign_false rfl]
      simp only
      rw [i3, hdv, Nat.div_div_eq_div_mul, ← hrhs]
    · rw [if_neg hr]
      have hwf : wf ⟨d, false⟩ := ⟨hdne, hdok⟩
      refine ⟨fit_canonical hwf, ?_⟩
      rw [fit_value (by simp), value_of_sign_false rfl]
      simp only
      have hr0 : rhs % 32 = 0 := by omega
      rw [hr0, pow_zero, Nat.mul_one] at hrhs
      rw [hdv, hrhs]


/-- The truncated remainder from the absolute values and the sign of the dividend. -/
theorem tmod_of_natAbs (x y : Int) :
    Int.tmod x y = if x < 0 then -((x.natAbs % y.natAbs : Nat) : Int)
      else ((x.natAbs % y.natAbs : Nat) : Int) := by
  rcases x with m | m <;> rcases y with n | n
  · have h : ¬ ((m : Int) < 0) := by omega
    simp [Int.tmod, h]
  · have h : ¬ ((m : Int) < 0) := by omega
    simp [Int.tmod, Int.natAbs, h]
  · simp [Int.tmod, Int.natAbs, Int.negSucc_lt_zero]
  · simp [Int.tmod, Int.natAbs, Int.negSucc_lt_zero]

/-- The operator `operator%=` on canonical operands with a nonzero divisor: it returns `a - (a / b) *
b`, a canonical state whose value is the truncated remainder. -/
theorem mod_spec (fuel : Nat) (hfuel : 2 ≤ fuel) {a b : big_integer}
    (ha : canonical a) (hb : canonical b) (hb0 : value b ≠ 0) :
    ∃ q r, div fuel a b = .ok q ∧ mod fuel a b = .ok r ∧ r = sub a (mul q b) ∧
      canonical q ∧ value q = Int.tdiv (value a) (value b) ∧
      canonical r ∧ value r = Int.tmod (value a) (value b) := by
  obtain ⟨q, h1, h2, h3⟩ := div_spec fuel hfuel ha hb hb0
  have cm := mul_canonical h2 hb
  have vm := mul_value h2 hb
  refine ⟨q, sub a (mul q b), h1, ?_, rfl, h2, h3, add_canonical ha.1 (neg_wf cm.1), ?_⟩
  · simp only [mod, h1, Outcome.bind]
  · unfold sub
    rw [add_value ha.1 (neg_wf cm.1), neg_value cm, vm, h3, Int.tmod_def]
    ring

/-- With a zero divisor `operator/=` reaches the machine division of `div_long_short`
with a zero divisor. -/
theorem div_zero (fuel : Nat) {a : big_integer} (ha : canonical a) :
    div fuel a (of_int 0) = .fail .division_by_zero_ub := by
  obtain ⟨ca, sa, _, _⟩ := abs_spec ha
  have h0 : abs (of_int 0) = of_int 0 := by decide
  rw [div_def, h0, lt_zero ca.1, sa]
  simp only [Bool.false_eq_true, if_false]
  have h1 : (of_int 0).number.length = 1 := by decide
  have h2 : (of_int 0).number.getD 0 0 = 0 := by decide
  rw [if_pos h1, h2, div_long_short_zero ca.1.1]
  rfl


/-! ## The order on arbitrary states -/

/-- On limb lists of equal length the loop of `operator<` is a strict total comparison:
exactly one of `xs < ys`, `xs = ys`, `ys < xs`. -/
theorem lt_loop_trichotomy (xs ys : List Nat) (hlen : xs.length = ys.length) :
    (lt_loop xs ys = true ∧ xs ≠ ys ∧ lt_loop ys xs = false) ∨
    (lt_loop xs ys = false ∧ xs = ys ∧ lt_loop ys xs = false) ∨
    (lt_loop xs ys = false ∧ xs ≠ ys ∧ lt_loop ys xs = true) := by
  induction xs generalizing ys with
  | nil =>
    cases ys with
    | nil => right; left; exact ⟨rfl, rfl, rfl⟩
    | cons y ys => simp at hlen
  | cons x xs ih =>
    cases ys with
    | nil => simp at hlen
    | cons y ys =>
      simp only [List.length_cons, Nat.add_right_cancel_iff] at hlen
      rcases Nat.lt_trichotomy x y with h | h | h
      · left
        have h1 : x ≠ y := by omega
        have h2 : y ≠ x := by omega
        have h3 : ¬ y < x := by omega
        simp [lt_loop, h1, h2, h, h3]
      · subst h
        rcases ih ys hlen with ⟨a, b, c⟩ | ⟨a, b, c⟩ | ⟨a, b, c⟩
        · left; simp [lt_loop, a, b, c]
        · right; left
          subst b
          simp [lt_loop, a]
        · right; right; simp [lt_loop, a, b, c]
      · right; right
        have h1 : x ≠ y := by omega
        have h2 : y ≠ x := by omega
        have h3 : ¬ x < y := by omega
        simp [lt_loop, h1, h2, h, h3]

/-- Exactly one of `a < b`, `a == b`, `b < a` holds, for all states `a` and `b`. -/
theorem lt_eq_gt_trichotomy (a b : big_integer) :
    (lt a b = true ∧ eq a b = false ∧ gt a b = false) ∨
    (lt a b = false ∧ eq a b = true ∧ gt a b = false) ∨
    (lt a b = false ∧ eq a b = false ∧ gt a b = true) := by
  obtain ⟨la, sa⟩ := a
  obtain ⟨lb, sb⟩ := b
  have heq : ∀ x y : big_integer, eq x y = false ↔ x ≠ y := by
    intro x y
    rw [Ne, ← eq_iff, Bool.not_eq_true]
  by_cases hs : sa = sb
  · subst hs
    by_cases hl : la.length = lb.length
    · have h1 : lt ⟨la, sa⟩ ⟨lb, sa⟩ = lt_loop la.reverse lb.reverse := by
        simp [lt, hl]
      have h2 : gt ⟨la, sa⟩ ⟨lb, sa⟩ = lt_loop lb.reverse la.reverse := by
        simp [gt, lt, hl]
      rw [h1, h2]
      rcases lt_loop_trichotomy la.reverse lb.reverse (by simp [hl]) with
        ⟨a, b, c⟩ | ⟨a, b, c⟩ | ⟨a, b, c⟩
      · left
        refine ⟨a, ?_, c⟩
        rw [heq]
        intro e
        rw [big_integer.mk.injEq] at e
        exact b (by rw [e.1])
      · right; left
        refine ⟨a, ?_, c⟩
        rw [eq_iff, List.reverse_injective b]
      · right; right
        refine ⟨a, ?_, c⟩
        rw [heq]
        intro e
        rw [big_integer.mk.injEq] at e
        exact b (by rw [e.1])
    · have hne : ⟨la, sa⟩ ≠ (⟨lb, sa⟩ : big_integer) := by
        intro e
        rw [big_integer.mk.injEq] at e
        exact hl (by rw [e.1])
      have hl' : lb.length ≠ la.length := fun e => hl e.symm
      have h1 : lt ⟨la, sa⟩ ⟨lb, sa⟩ = xor sa (decide (la.length < lb.length)) := by
        simp [lt, hl]
      have h2 : gt ⟨la, sa⟩ ⟨lb, sa⟩ = xor sa (decide (lb.length < la.length)) := by
        simp [gt, lt, hl']
      rw [h1, h2, (heq _ _).mpr hne]
      rcases Nat.lt_or_gt_of_ne hl with h | h
      · have h3 : ¬ lb.length < la.length := by omega
        cases sa <;> simp [h, h3]
      · have h3 : ¬ la.length < lb.length := by omega
        cases sa <;> simp [h, h3]
  · have hne : ⟨la, sa⟩ ≠ (⟨lb, sb⟩ : big_integer) := by
      intro e
      rw [big_integer.mk.injEq] at e
      exact hs e.2
    have hs' : sb ≠ sa := fun e => hs e.symm
    have h1 : lt ⟨la, sa⟩ ⟨lb, sb⟩ = sa := by simp [lt, hs]
    have h2 : gt ⟨la, sa⟩ ⟨lb, sb⟩ = sb := by simp [gt, lt, hs']
    rw [h1, h2, (heq _ _).mpr hne]
    cases sa <;> cases sb <;> simp at hs ⊢


/-- Among canonical negative states the one with more limbs is the smaller. -/
theorem canonical_neg_length_lt {a b : big_integer} (ha : canonical a) (hb : canonical b)
    (hsa : a.sign = true) (hsb : b.sign = true)
    (hlt : a.number.length < b.number.length) : value b < value a := by
  obtain ⟨la, sa⟩ := a
  obtain ⟨lb, sb⟩ := b
  simp only at hsa hsb hlt
  subst hsa; subst hsb
  have hna : 0 < la.length := List.length_pos.mpr ha.1.1
  obtain ⟨n, hn⟩ : ∃ n, la.length = n + 1 := ⟨la.length - 1, by omega⟩
  obtain ⟨k, hk⟩ : ∃ k, lb.length = n + k + 2 := ⟨lb.length - n - 2, by omega⟩
  have h1 := canonical_range_neg_lower ha hn
  have h2 := canonical_range_neg_upper (n := n + k) hb hk
  have hmono2 : B ^ n ≤ B ^ (n + k) := Nat.pow_le_pow_right B_pos (by omega)
  have h3 : B ^ (n + 1) = 4294967296 * B ^ n := by rw [pow_succ, B_eq]; ring
  have h4 := Nat.mul_le_mul_left UINT32_MAX hmono2
  rw [UINT32_MAX_eq] at h2 h4
  unfold value
  simp only [if_true]
  rw [hn, hk]
  have e1 : ((B ^ (n + 1) : Nat) : Int) = 4294967296 * ((B ^ n : Nat) : Int) := by
    rw [h3]; push_cast; ring
  have h1' : ((B ^ n : Nat) : Int) ≤ (limbs_value la : Int) := by exact_mod_cast h1
  have h2' : (limbs_value lb : Int) + 4294967295 * ((B ^ (n + k) : Nat) : Int) <
      ((B ^ (n + k + 2) : Nat) : Int) := by exact_mod_cast h2
  have h4' : 4294967295 * ((B ^ n : Nat) : Int) ≤ 4294967295 * ((B ^ (n + k) : Nat) : Int) := by
    exact_mod_cast h4
  omega

/-- On canonical negative states `operator<` is the order of the values. -/
theorem lt_neg {a b : big_integer} (ha : canonical a) (hb : canonical b)
    (hsa : a.sign = true) (hsb : b.sign = true) :
    lt a b = true ↔ value a < value b := by
  by_cases hl : a.number.length = b.number.length
  · have h1 : lt a b = lt_loop a.number.reverse b.number.reverse := by
      simp [lt, hsa, hsb, hl]
    rw [h1, lt_loop_spec _ _ (by simp [hl]) (limbs_ok_reverse.mpr ha.1.2)
      (limbs_ok_reverse.mpr hb.1.2)]
    simp only [List.reverse_reverse, decide_eq_true_eq]
    unfold value
    rw [hsa, hsb, hl]
    simp only [if_true]
    omega
  · have h1 : lt a b = !decide (a.number.length < b.number.length) := by
      simp [lt, hsa, hsb, hl]
    rw [h1]
    rcases Nat.lt_or_gt_of_ne hl with h | h
    · have := canonical_neg_length_lt ha hb hsa hsb h
      simp only [h, decide_True, Bool.not_true, Bool.false_eq_true, false_iff, not_lt]
      omega
    · have := canonical_neg_length_lt hb ha hsb hsa h
      have h3 : ¬ a.number.length < b.number.length := by omega
      simp only [h3, decide_False, Bool.not_false, true_iff]
      exact this

/-- On canonical states `operator<` is the order of the values. -/
theorem lt_iff {a b : big_integer} (ha : canonical a) (hb : canonical b) :
    lt a b = true ↔ value a < value b := by
  cases hsa : a.sign <;> cases hsb : b.sign
  · exact lt_nonneg ha hb hsa hsb
  · have h1 : lt a b = false := by simp [lt, hsa, hsb]
    have h2 := value_neg_of_sign hb.1.2 hsb
    have h3 := value_nonneg_of_sign hsa
    rw [h1]
    simp only [Bool.false_eq_true, false_iff, not_lt]
    omega
  · have h1 : lt a b = true := by simp [lt, hsa, hsb]
    have h2 := value_neg_of_sign ha.1.2 hsa
    have h3 := value_nonneg_of_sign hsb
    rw [h1]
    simp only [true_iff]
    omega
  · exact lt_neg ha hb hsa hsb


/-! ## Construction from machine integers -/

/-- The constructor from two limbs and a sign: a canonical state of the value of the two
limbs under the sign. -/
theorem of_limbs_spec {lo hi : Nat} (hlo : lo < B) (hhi : hi < B) (s : Bool) :
    canonical (of_limbs lo hi s) ∧
      value (of_limbs lo hi s) =
        (lo : Int) + 4294967296 * (hi : Int) - (if s = true then 18446744073709551616 else 0) := by
  have hwf : wf ⟨[lo, hi], s⟩ := by
    refine ⟨by simp, ?_⟩
    show limbs_ok [lo, hi]
    rw [limbs_ok_cons, limbs_ok_cons]
    exact ⟨hlo, hhi, limbs_ok_nil⟩
  unfold of_limbs
  refine ⟨fit_canonical hwf, ?_⟩
  rw [fit_value (by simp)]
  unfold value
  simp only [limbs_value_cons, limbs_value_nil, List.length_cons, List.length_nil]
  rw [B_eq]
  cases s <;> simp

/-- A canonical state whose value is a 64-bit machine integer has one or two limbs. -/
theorem canonical_length_le_two {a : big_integer} (ha : canonical a)
    (h1 : -9223372036854775808 ≤ value a) (h2 : value a < 18446744073709551616) :
    a.number.length ≤ 2 := by
  by_contra hc
  obtain ⟨n, hn⟩ : ∃ n, a.number.length = n + 3 := ⟨a.number.length - 3, by omega⟩
  obtain ⟨l, s⟩ := a
  simp only at hn
  have hP : 4294967296 ≤ B ^ (n + 1) := by
    calc 4294967296 = B ^ 1 := by rw [pow_one, B_eq]
      _ ≤ B ^ (n + 1) := Nat.pow_le_pow_right B_pos (by omega)
  have hP2 : B ^ (n + 2) = 4294967296 * B ^ (n + 1) := by
    rw [pow_succ B (n + 1), B_eq]; ring
  have hP3 : B ^ (n + 3) = 18446744073709551616 * B ^ (n + 1) := by
    rw [pow_succ B (n + 2), hP2, B_eq]; ring
  unfold value at h1 h2
  simp only at h1 h2
  rw [hn, hP3] at h1 h2
  cases s with
  | false =>
    have h3 := canonical_range_nonneg (n := n + 1) ha hn
    simp only [Bool.false_eq_true, if_false, Int.sub_zero] at h2
    have h2' : limbs_value l < 18446744073709551616 := by exact_mod_cast h2
    rw [hP2] at h3
    omega
  | true =>
    have h3 := canonical_range_neg_upper (n := n + 1) ha hn
    simp only [if_true] at h1
    rw [UINT32_MAX_eq, hP3] at h3
    generalize B ^ (n + 1) = P at *
    push_cast at h1
    omega

/-- The constructor from `long long`: canonical, of value `x`, with `sign = (x < 0)` and
one or two limbs. -/
theorem of_long_long_spec {x : Int} (h1 : -9223372036854775808 ≤ x)
    (h2 : x < 9223372036854775808) :
    canonical (of_long_long x) ∧ value (of_long_long x) = x ∧
      (of_long_long x).sign = decide (x < 0) ∧ (of_long_long x).number.length ≤ 2 := by
  have hB : ((B : Nat) : Int) = 4294967296 := by rw [B_eq]; rfl
  have hlo : (x % (B : Int)).toNat < B := by rw [hB, B_eq]; omega
  have hhi : ((x / (B : Int)) % (B : Int)).toNat < B := by rw [hB, B_eq]; omega
  obtain ⟨hc, hv⟩ := of_limbs_spec hlo hhi (decide (x < 0))
  have hval : value (of_long_long x) = x := by
    unfold of_long_long
    rw [hv, hB]
    by_cases hx : x < 0
    · simp only [hx, decide_True, if_true]; omega
    · simp only [hx, decide_False, Bool.false_eq_true, if_false]; omega
  have hcan : canonical (of_long_long x) := hc
  refine ⟨hcan, hval, ?_, canonical_length_le_two hcan (by omega) (by omega)⟩
  have := value_nonneg_iff hcan.1.2
  rw [hval] at this
  by_cases hx : x < 0
  · simp only [hx, decide_True]; exact this.mp hx
  · simp only [hx, decide_False]
    cases hs : (of_long_long x).sign with
    | false => rfl
    | true => exact absurd (this.mpr hs) hx

/-- The constructor from `unsigned long long`: canonical, of value `y`, not negative,
with one or two limbs. -/
theorem of_unsigned_long_long_spec {y : Nat} (h : y < 18446744073709551616) :
    canonical (of_unsigned_long_long y) ∧ value (of_unsigned_long_long y) = (y : Int) ∧
      (of_unsigned_long_long y).sign = false ∧
      (of_unsigned_long_long y).number.length ≤ 2 := by
  have hlo : y % B < B := Nat.mod_lt _ B_pos
  have hhi : (y >>> 32) % B < B := Nat.mod_lt _ B_pos
  obtain ⟨hc, hv⟩ := of_limbs_spec hlo hhi false
  have hval : value (of_unsigned_long_long y) = (y : Int) := by
    unfold of_unsigned_long_long
    rw [hv, Nat.shiftRight_eq_div_pow, B_eq]
    simp only [Bool.false_eq_true, if_false]
    omega
  have hcan : canonical (of_unsigned_long_long y) := hc
  refine ⟨hcan, hval, ?_, canonical_length_le_two hcan (by omega) (by omega)⟩
  exact sign_false_of_nonneg hcan.1.2 (by omega)


/-! ## The string constructor -/

theorem decimal_acc_eq (acc : Nat) (cs : List Char) :
    decimal_acc acc cs = acc * 10 ^ cs.length + decimal_value cs := by
  show decimal_acc acc cs = acc * 10 ^ cs.length + decimal_acc 0 cs
  induction cs generalizing acc with
  | nil => show acc = acc * 10 ^ 0 + 0; omega
  | cons c cs ih =>
    show decimal_acc (acc * 10 + digit_value c) cs =
      acc * 10 ^ (cs.length + 1) + decimal_acc (0 * 10 + digit_value c) cs
    rw [ih (acc * 10 + digit_value c), ih (0 * 10 + digit_value c), pow_succ]
    ring

theorem decimal_value_nil : decimal_value [] = 0 := rfl

theorem decimal_value_cons (c : Char) (cs : List Char) :
    decimal_value (c :: cs) = digit_value c * 10 ^ cs.length + decimal_value cs := by
  have h := decimal_acc_eq (0 * 10 + digit_value c) cs
  rw [Nat.zero_mul, Nat.zero_add] at h
  show decimal_acc (0 * 10 + digit_value c) cs = _
  rw [Nat.zero_mul, Nat.zero_add, h]

theorem decimal_value_append (xs ys : List Char) :
    decimal_value (xs ++ ys) = decimal_value xs * 10 ^ ys.length + decimal_value ys := by
  induction xs with
  | nil => simp [decimal_value_nil]
  | cons c cs ih =>
    rw [List.cons_append, decimal_value_cons, decimal_value_cons, ih, List.length_append,
      pow_add]
    ring

theorem digit_value_le {c : Char} (h : is_digit c) : digit_value c ≤ 9 := by
  unfold is_digit at h
  unfold digit_value
  have h0 : '0'.toNat = 48 := rfl
  have h9 : '9'.toNat = 57 := rfl
  omega

theorem decimal_value_lt {cs : List Char} (h : ∀ c ∈ cs, is_digit c) :
    decimal_value cs < 10 ^ cs.length := by
  induction cs with
  | nil => simp [decimal_value_nil]
  | cons c cs ih =>
    have h1 := digit_value_le (h c (by simp))
    have h2 := ih (fun d hd => h d (by simp [hd]))
    rw [decimal_value_cons, List.length_cons, pow_succ]
    have h3 : digit_value c * 10 ^ cs.length ≤ 9 * 10 ^ cs.length :=
      Nat.mul_le_mul_right _ h1
    omega

theorem parse_uint32_cons (c : Char) (cs : List Char) (res : Nat) :
    parse_uint32 (c :: cs) res =
      if is_digit c then parse_uint32 cs (((res * 10) % B + digit_value c) % B)
      else .fail (.invalid_argument "Expected number") := rfl

/-- On digits `parse_uint32` returns the number read, as long as it is a `uint32_t`. -/
theorem parse_uint32_spec (cs : List Char) (res : Nat) (h : ∀ c ∈ cs, is_digit c)
    (hlt : res * 10 ^ cs.length + decimal_value cs < B) :
    parse_uint32 cs res = .ok (res * 10 ^ cs.length + decimal_value cs) := by
  induction cs generalizing res with
  | nil => simp [parse_uint32, decimal_value_nil]
  | cons c cs ih =>
    have hc : is_digit c := h c (by simp)
    rw [decimal_value_cons, List.length_cons, pow_succ] at hlt ⊢
    have hpos : 0 < 10 ^ cs.length := by positivity
    have e : (res * 10 + digit_value c) * 10 ^ cs.length + decimal_value cs =
        res * (10 ^ cs.length * 10) + (digit_value c * 10 ^ cs.length + decimal_value cs) := by
      ring
    have hsmall : res * 10 + digit_value c < B := by
      have : res * 10 + digit_value c ≤ (res * 10 + digit_value c) * 10 ^ cs.length :=
        Nat.le_mul_of_pos_right _ hpos
      omega
    have hmod : ((res * 10) % B + digit_value c) % B = res * 10 + digit_value c := by
      have h1 : res * 10 < B := by omega
      rw [Nat.mod_eq_of_lt h1, Nat.mod_eq_of_lt hsmall]
    rw [parse_uint32_cons, if_pos hc, hmod,
      ih (res * 10 + digit_value c) (fun d hd => h d (by simp [hd])) (by rw [e]; exact hlt), e]

/-- On digits `parse_uint32` returns. -/
theorem parse_uint32_total (cs : List Char) (res : Nat) (h : ∀ c ∈ cs, is_digit c) :
    ∃ v, parse_uint32 cs res = .ok v := by
  induction cs generalizing res with
  | nil => exact ⟨res, rfl⟩
  | cons c cs ih =>
    rw [parse_uint32_cons, if_pos (h c (by simp))]
    exact ih _ (fun d hd => h d (by simp [hd]))

/-- A character that is not a digit makes `parse_uint32` throw. -/
theorem parse_uint32_fail (cs : List Char) (res : Nat) (h : ∃ c ∈ cs, ¬ is_digit c) :
    parse_uint32 cs res = .fail (.invalid_argument "Expected number") := by
  induction cs generalizing res with
  | nil => obtain ⟨c, hc, _⟩ := h; simp at hc
  | cons c cs ih =>
    rw [parse_uint32_cons]
    by_cases hc : is_digit c
    · rw [if_pos hc]
      apply ih
      obtain ⟨d, hd, hnd⟩ := h
      rcases List.mem_cons.mp hd with e | e
      · rw [e] at hnd; exact absurd hc hnd
      · exact ⟨d, e, hnd⟩
    · rw [if_neg hc]

theorem of_string_loop_succ (str : List Char) (n i : Nat) (this : big_integer) :
    of_string_loop str (n + 1) i this =
      if i < str.length then
        (parse_uint32 ((str.drop i).take 9) 0).bind fun c =>
          of_string_loop str n (i + 9)
            (add (mul_long_short this
              ((if i + 9 < str.length then 1000000000 else 10 ^ (str.length - i)) % B))
              (of_uint32 c))
      else .ok this := rfl

theorem drop_eq_chunk_append (str : List Char) (i : Nat) :
    str.drop i = (str.drop i).take 9 ++ str.drop (i + 9) := by
  rw [← List.drop_drop, List.take_append_drop]


/-- The multiplier of a chunk of the string constructor is `10 ^ (length of the chunk)`,
a `uint32_t`. -/
theorem chunk_multiplier (str : List Char) (i : Nat) (hi : i < str.length) :
    (if i + 9 < str.length then 1000000000 else 10 ^ (str.length - i)) % B =
        10 ^ ((str.drop i).take 9).length ∧
      ((str.drop i).take 9).length ≤ 9 ∧
      ((str.drop i).take 9).length + (str.drop (i + 9)).length = str.length - i := by
  have hlen : ((str.drop i).take 9).length = min 9 (str.length - i) := by
    rw [List.length_take, List.length_drop]
  have h9 : (10 : Nat) ^ 9 = 1000000000 := by norm_num
  refine ⟨?_, by rw [hlen]; omega, by rw [hlen, List.length_drop]; omega⟩
  by_cases h : i + 9 < str.length
  · rw [if_pos h, hlen, show min 9 (str.length - i) = 9 by omega, h9]
    rfl
  · rw [if_neg h, hlen, show min 9 (str.length - i) = str.length - i by omega]
    apply Nat.mod_eq_of_lt
    calc 10 ^ (str.length - i) ≤ 10 ^ 9 := Nat.pow_le_pow_right (by decide) (by omega)
      _ < B := by rw [h9, B_eq]; decide

/-- The loop of the string constructor on digits: it returns the canonical state of the
number read so far followed by the digits from position `i` on. -/
theorem of_string_loop_spec (str : List Char) (fuel : Nat) :
    ∀ (i : Nat) (this : big_integer), (∀ c ∈ str.drop i, is_digit c) →
      str.length - i ≤ 9 * fuel → canonical this → this.sign = false →
      ∃ r, of_string_loop str fuel i this = .ok r ∧ canonical r ∧ r.sign = false ∧
        value r = value this * ((10 ^ (str.length - i) : Nat) : Int) +
          (decimal_value (str.drop i) : Int) := by
  induction fuel with
  | zero =>
    intro i this _ hf hc hs
    have hd : str.drop i = [] := List.drop_eq_nil_of_le (by omega)
    refine ⟨this, rfl, hc, hs, ?_⟩
    rw [hd, decimal_value_nil, show str.length - i = 0 by omega]
    simp
  | succ n ih =>
    intro i this hdig hf hc hs
    rw [of_string_loop_succ]
    by_cases hi : i < str.length
    · rw [if_pos hi]
      obtain ⟨m1, m2, m3⟩ := chunk_multiplier str i hi
      have hsplit := drop_eq_chunk_append str i
      have hchunk : ∀ c ∈ (str.drop i).take 9, is_digit c :=
        fun c hc' => hdig c (List.mem_of_mem_take hc')
      have hrest : ∀ c ∈ str.drop (i + 9), is_digit c := by
        intro c hc'
        apply hdig
        rw [hsplit]
        exact List.mem_append_right _ hc'
      have hclt := decimal_value_lt hchunk
      have hpow : 10 ^ ((str.drop i).take 9).length ≤ 10 ^ 9 :=
        Nat.pow_le_pow_right (by decide) m2
      have h9 : (10 : Nat) ^ 9 = 1000000000 := by norm_num
      have hcB : decimal_value ((str.drop i).take 9) < B := by rw [B_eq]; omega
      have hmB : 10 ^ ((str.drop i).take 9).length < B := by rw [B_eq]; omega
      have hparse := parse_uint32_spec ((str.drop i).take 9) 0 hchunk
        (by rw [Nat.zero_mul, Nat.zero_add]; exact hcB)
      rw [Nat.zero_mul, Nat.zero_add] at hparse
      rw [hparse, m1]
      simp only [Outcome.bind]
      obtain ⟨cu, vu⟩ := of_uint32_spec hcB
      have wm := mul_long_short_wf hc.1.2 hmB
      have vm := mul_long_short_value hc.1.2 hmB
      have ca := add_canonical wm cu.1
      have va := add_value wm cu.1
      rw [vm, vu, ← value_of_sign_false hs] at va
      have hsa : (add (mul_long_short this (10 ^ ((str.drop i).take 9).length))
          (of_uint32 (decimal_value ((str.drop i).take 9)))).sign = false := by
        apply sign_false_of_nonneg ca.1.2
        rw [va]
        have := value_nonneg_of_sign hs
        positivity
      obtain ⟨r, r1, r2, r3, r4⟩ := ih (i + 9) _ hrest (by omega) ca hsa
      refine ⟨r, r1, r2, r3, ?_⟩
      rw [r4, va]
      conv_rhs => rw [hsplit, decimal_value_append]
      have e : str.length - i = ((str.drop i).take 9).length + (str.length - (i + 9)) := by
        rw [List.length_drop] at m3; omega
      rw [e, pow_add, List.length_drop]
      push_cast
      ring
    · rw [if_neg hi]
      have hd : str.drop i = [] := List.drop_eq_nil_of_le (by omega)
      refine ⟨this, rfl, hc, hs, ?_⟩
      rw [hd, decimal_value_nil, show str.length - i = 0 by omega]
      simp

/-- A character that is not a digit, at position `i` or later, makes the loop of the
string constructor throw. -/
theorem of_string_loop_fail (str : List Char) (fuel : Nat) :
    ∀ (i : Nat) (this : big_integer), (∃ c ∈ str.drop i, ¬ is_digit c) →
      str.length - i ≤ 9 * fuel →
      of_string_loop str fuel i this = .fail (.invalid_argument "Expected number") := by
  induction fuel with
  | zero =>
    intro i this hbad hf
    have hd : str.drop i = [] := List.drop_eq_nil_of_le (by omega)
    obtain ⟨c, hc, _⟩ := hbad
    rw [hd] at hc
    simp at hc
  | succ n ih =>
    intro i this hbad hf
    rw [of_string_loop_succ]
    have hi : i < str.length := by
      by_contra hc
      have hd : str.drop i = [] := List.drop_eq_nil_of_le (by omega)
      obtain ⟨c, hc', _⟩ := hbad
      rw [hd] at hc'
      simp at hc'
    rw [if_pos hi]
    by_cases hchunk : ∃ c ∈ (str.drop i).take 9, ¬ is_digit c
    · rw [parse_uint32_fail _ _ hchunk]
      rfl
    · have hall : ∀ c ∈ (str.drop i).take 9, is_digit c := by
        intro c hc
        by_contra hn
        exact hchunk ⟨c, hc, hn⟩
      obtain ⟨v, hv⟩ := parse_uint32_total _ 0 hall
      rw [hv]
      simp only [Outcome.bind]
      apply ih
      · obtain ⟨c, hc, hn⟩ := hbad
        rw [drop_eq_chunk_append str i] at hc
        rcases List.mem_append.mp hc with h | h
        · exact absurd (hall c h) hn
        · exact ⟨c, h, hn⟩
      · omega


theorem of_string_def (str : List Char) :
    of_string str =
      (of_string_loop str str.length (sign_length str) zero).bind fun this =>
        if str.headD (Char.ofNat 0) = '-' ∧ str.length = 1 then
          .fail (.invalid_argument "-")
        else if str.length = 0 then .fail (.invalid_argument "")
        else .ok (fit (if str.headD (Char.ofNat 0) = '-' then negate this else this)) := rfl

/-- The string constructor on an optional sign followed by one or more digits: it
returns the canonical state of the number the digits denote, negated after `'-'`. -/
theorem of_string_spec (str : List Char) (hlen : sign_length str < str.length)
    (hdig : ∀ c ∈ str.drop (sign_length str), is_digit c) :
    ∃ x, of_string str = .ok x ∧ canonical x ∧
      value x = if str.headD (Char.ofNat 0) = '-' then
          -(decimal_value (str.drop (sign_length str)) : Int)
        else (decimal_value (str.drop (sign_length str)) : Int) := by
  obtain ⟨r, r1, r2, r3, r4⟩ := of_string_loop_spec str str.length (sign_length str) zero
    hdig (by omega) canonical_zero rfl
  rw [value_zero, Int.zero_mul, Int.zero_add] at r4
  have hs : sign_length str ≤ 1 := by unfold sign_length; split <;> omega
  have h1 : ¬ (str.headD (Char.ofNat 0) = '-' ∧ str.length = 1) := by
    rintro ⟨e1, e2⟩
    have : sign_length str = 1 := by unfold sign_length; rw [if_pos (Or.inl e1)]
    omega
  have h0 : ¬ str.length = 0 := by omega
  rw [of_string_def, r1]
  simp only [Outcome.bind]
  rw [if_neg h1, if_neg h0]
  by_cases hm : str.headD (Char.ofNat 0) = '-'
  · rw [if_pos hm, if_pos hm]
    have hn := neg_canonical r2.1
    unfold negate
    rw [hn.2]
    exact ⟨_, rfl, hn, by rw [neg_value r2, r4]⟩
  · rw [if_neg hm, if_neg hm, r2.2]
    exact ⟨_, rfl, r2, r4⟩

/-- The string constructor throws when a character after the optional sign is not a
digit. -/
theorem of_string_fail (str : List Char)
    (hbad : ∃ c ∈ str.drop (sign_length str), ¬ is_digit c) :
    of_string str = .fail (.invalid_argument "Expected number") := by
  rw [of_string_def, of_string_loop_fail str str.length (sign_length str) zero hbad (by omega)]
  rfl


/-! ## The decimal rendering -/

theorem digit_char_digit_value {c : Char} (h : is_digit c) : digit_char (digit_value c) = c := by
  unfold is_digit at h
  unfold digit_char digit_value
  have h0 : '0'.toNat = 48 := rfl
  rw [h0] at h ⊢
  rw [show 48 + (c.toNat - 48) = c.toNat by omega, Char.ofNat_toNat]

theorem digit_value_zero : digit_value '0' = 0 := rfl

theorem digit_value_ne_zero {c : Char} (h : is_digit c) (h0 : c ≠ '0') : digit_value c ≠ 0 := by
  intro hz
  apply h0
  unfold is_digit at h
  unfold digit_value at hz
  have h48 : '0'.toNat = 48 := rfl
  rw [h48] at h hz
  have : c.toNat = 48 := by omega
  rw [← Char.ofNat_toNat c, this]

theorem digit_char_ne_zero : ∀ d < 10, d ≠ 0 → digit_char d ≠ '0' := by decide

theorem std_to_string_zero : std_to_string 0 = ['0'] := rfl

theorem std_to_string_pos {n : Nat} (h : n ≠ 0) :
    std_to_string n = (Nat.digits 10 n).reverse.map digit_char := by
  unfold std_to_string; rw [if_neg h]

/-- The rendering of a positive number does not start with `'0'`. -/
theorem std_to_string_ne_zero {n : Nat} (h : n ≠ 0) : std_to_string n ≠ ['0'] := by
  rw [std_to_string_pos h]
  have hne : Nat.digits 10 n ≠ [] := Nat.digits_ne_nil_iff_ne_zero.mpr h
  have hlast := Nat.getLast_digit_ne_zero 10 h
  obtain ⟨l, y, hl⟩ := exists_snoc hne
  have hy : y ≠ 0 := by
    have := hlast
    simp only [hl, List.getLast_append_singleton] at this
    exact this
  have hy10 : y < 10 := Nat.digits_lt_base (by decide) (by rw [hl]; simp)
  rw [hl, List.reverse_append, List.reverse_singleton, List.singleton_append, List.map_cons]
  intro hc
  exact digit_char_ne_zero y hy10 hy (List.cons.inj hc).1

theorem decimal_value_eq_ofDigits (cs : List Char) :
    decimal_value cs = Nat.ofDigits 10 (cs.reverse.map digit_value) := by
  induction cs with
  | nil => rfl
  | cons c cs ih =>
    rw [decimal_value_cons, List.reverse_cons, List.map_append, Nat.ofDigits_append, ← ih,
      List.length_map, List.length_reverse, List.map_singleton, Nat.ofDigits_singleton]
    ring

/-- The rendering of the number that a digit string denotes is the string without its
leading zeros. -/
theorem std_to_string_decimal_value {ds : List Char} (h : ∀ c ∈ ds, is_digit c) :
    std_to_string (decimal_value ds) = strip_zeros ds := by
  induction ds with
  | nil => rfl
  | cons c cs ih =>
    by_cases hc : c = '0'
    · subst hc
      have h1 : decimal_value ('0' :: cs) = decimal_value cs := by
        rw [decimal_value_cons, digit_value_zero]; omega
      have h2 : strip_zeros ('0' :: cs) = strip_zeros cs := by
        unfold strip_zeros
        rw [List.dropWhile_cons]
        simp
      rw [h1, h2]
      exact ih fun c hc => h c (List.mem_cons_of_mem _ hc)
    · have h2 : strip_zeros (c :: cs) = c :: cs := by
        unfold strip_zeros
        rw [List.dropWhile_cons]
        simp [hc]
      have hd : Nat.digits 10 (decimal_value (c :: cs)) = (c :: cs).reverse.map digit_value := by
        rw [decimal_value_eq_ofDigits]
        apply Nat.digits_ofDigits 10 (by decide)
        · intro l hl
          rw [List.mem_map] at hl
          obtain ⟨x, hx, rfl⟩ := hl
          have := digit_value_le (h x (List.mem_reverse.mp hx))
          omega
        · intro hne
          simp only [List.reverse_cons, List.map_append, List.map_singleton,
            List.getLast_append_singleton]
          exact digit_value_ne_zero (h c (List.mem_cons_self _ _)) hc
      have hne : decimal_value (c :: cs) ≠ 0 := by
        intro h0
        rw [h0, Nat.digits_zero] at hd
        simp at hd
      rw [std_to_string_pos hne, hd, h2]
      simp only [List.map_reverse, List.reverse_reverse, List.map_map]
      calc List.map (digit_char ∘ digit_value) (c :: cs) = List.map id (c :: cs) := by
            apply List.map_congr_left
            intro x hx
            exact digit_char_digit_value (h x hx)
        _ = c :: cs := List.map_id _

theorem strip_zeros_eq_zero_iff {ds : List Char} (h : ∀ c ∈ ds, is_digit c) :
    strip_zeros ds = ['0'] ↔ decimal_value ds = 0 := by
  rw [← std_to_string_decimal_value h]
  constructor
  · intro hs
    by_contra hne
    exact std_to_string_ne_zero hne hs
  · intro h0
    rw [h0]; rfl

/-- The rendering of the integer that a signed digit string denotes is the normalized
string. -/
theorem render_decimal_value (neg : Bool) {ds : List Char} (h : ∀ c ∈ ds, is_digit c) :
    render (if neg = true then -(decimal_value ds : Int) else (decimal_value ds : Int)) =
      normalize neg ds := by
  unfold render normalize
  cases neg with
  | false =>
    simp only [Bool.false_eq_true, if_false, false_and]
    rw [if_neg (by omega), Int.natAbs_ofNat, std_to_string_decimal_value h]
  | true =>
    simp only [if_true, true_and]
    by_cases h0 : decimal_value ds = 0
    · rw [if_neg (by omega), if_neg (by rw [not_not]; exact (strip_zeros_eq_zero_iff h).mpr h0),
        Int.natAbs_neg, Int.natAbs_ofNat, std_to_string_decimal_value h]
    · rw [if_pos (by omega), if_pos (fun hs => h0 ((strip_zeros_eq_zero_iff h).mp hs)),
        Int.natAbs_neg, Int.natAbs_ofNat, std_to_string_decimal_value h]


/-- The loop test of `to_string` on a canonical non-negative state: it holds unless the
state is zero. -/
theorem nonzero_test_iff {a : big_integer} (h : canonical a) :
    (a.number.length > 1 ∨ a.number.headD 0 ≠ 0) ↔ limbs_value a.number ≠ 0 := by
  constructor
  · intro ht h0
    have hz := canonical_eq_zero h h0
    rw [hz] at ht
    revert ht
    decide
  · intro hne
    by_contra hc
    apply hne
    obtain ⟨l, s⟩ := a
    have hwf := h.1
    match l, hwf, hc with
    | [], hwf, _ => exact absurd rfl hwf.1
    | [x], _, hc =>
      simp only [List.length_singleton, gt_iff_lt, lt_self_iff_false, List.headD_cons, ne_eq,
        false_or, not_not] at hc
      subst hc
      rfl
    | x :: y :: l, _, hc =>
      simp at hc

theorem to_string_loop_spec (fuel : Nat) : ∀ (tmp : big_integer) (ans : List Nat),
    canonical tmp → tmp.sign = false → limbs_value tmp.number < 1000000000 ^ fuel →
    to_string_loop fuel tmp ans =
      .ok (ans ++ Nat.digits 1000000000 (limbs_value tmp.number)) := by
  induction fuel with
  | zero =>
    intro tmp ans hc hs hlt
    have h0 : limbs_value tmp.number = 0 := by
      rw [pow_zero] at hlt; omega
    unfold to_string_loop
    rw [if_neg (by rw [nonzero_test_iff hc]; exact not_not.mpr h0), h0, Nat.digits_zero,
      List.append_nil]
  | succ fuel ih =>
    intro tmp ans hc hs hlt
    unfold to_string_loop
    by_cases h0 : limbs_value tmp.number = 0
    · rw [if_neg (by rw [nonzero_test_iff hc]; exact not_not.mpr h0), h0, Nat.digits_zero,
        List.append_nil]
    · rw [if_pos ((nonzero_test_iff hc).mpr h0)]
      obtain ⟨q, r, hdiv, hq, hlen, hr, hqr⟩ :=
        div_long_short_spec hc.1 (show (1000000000 : Nat) ≠ 0 by decide)
          (show 1000000000 < B by decide)
      rw [hdiv, hs]
      show to_string_loop fuel (fit ⟨q, false⟩) (ans ++ [r]) = _
      have hwf : wf ⟨q, false⟩ := by
        refine ⟨?_, hq⟩
        intro hnil
        have hl := hc.1.1
        have hq0 : q = [] := hnil
        rw [hq0] at hlen
        exact hl (List.length_eq_zero.mp hlen.symm)
      have hcan := fit_canonical hwf
      have hval : value (fit ⟨q, false⟩) = (limbs_value q : Int) := by
        rw [fit_value (by intro hh; cases hh)]
        exact value_of_sign_false rfl
      have hsign : (fit ⟨q, false⟩).sign = false :=
        sign_false_of_nonneg hcan.1.2 (by rw [hval]; exact Int.ofNat_nonneg _)
      have hlv : limbs_value (fit ⟨q, false⟩).number = limbs_value q := by
        have := value_of_sign_false hsign
        rw [hval] at this
        exact_mod_cast this.symm
      have hqv : limbs_value q = limbs_value tmp.number / 1000000000 := by omega
      have hrv : r = limbs_value tmp.number % 1000000000 := by omega
      have hlt1 : limbs_value (fit ⟨q, false⟩).number < 1000000000 ^ fuel := by
        rw [hlv, hqv]
        rw [pow_succ, Nat.mul_comm] at hlt
        exact Nat.div_lt_of_lt_mul hlt
      rw [ih _ _ hcan hsign hlt1, hlv, hqv, hrv,
        Nat.digits_def' (by decide) (Nat.pos_of_ne_zero h0), List.append_assoc,
        List.singleton_append]

theorem to_string_chunks_append (xs ys : List Nat) :
    to_string_chunks (xs ++ ys) = to_string_chunks xs ++ to_string_chunks ys := by
  induction xs with
  | nil => rfl
  | cons x xs ih =>
    show pad9 (std_to_string x) ++ to_string_chunks (xs ++ ys) = _
    rw [ih]
    show _ = (pad9 (std_to_string x) ++ to_string_chunks xs) ++ _
    rw [List.append_assoc]

theorem digits_length_le_nine {x : Nat} (h : x < 1000000000) : (Nat.digits 10 x).length ≤ 9 := by
  by_cases h0 : x = 0
  · rw [h0, Nat.digits_zero]; exact Nat.zero_le _
  · have h1 := Nat.base_pow_length_digits_le 10 x (by decide) h0
    have h2 : 10 ^ (Nat.digits 10 x).length < 10 ^ 10 := by
      calc 10 ^ (Nat.digits 10 x).length ≤ 10 * x := h1
        _ < 10 ^ 10 := by omega
    have := (Nat.pow_lt_pow_iff_right (show 1 < 10 by decide)).mp h2
    omega

/-- A nine-digit chunk printed after a positive number. -/
theorem std_to_string_chunk {m x : Nat} (hm : m ≠ 0) (hx : x < 1000000000) :
    std_to_string m ++ pad9 (std_to_string x) = std_to_string (x + 1000000000 * m) := by
  have hlen := digits_length_le_nine hx
  have hd := Nat.digits_append_zeroes_append_digits (b := 10)
    (k := 9 - (Nat.digits 10 x).length) (n := x) (by decide) (Nat.pos_of_ne_zero hm)
  rw [show (Nat.digits 10 x).length + (9 - (Nat.digits 10 x).length) = 9 by omega] at hd
  rw [show (10 : Nat) ^ 9 = 1000000000 by norm_num] at hd
  have hne : x + 1000000000 * m ≠ 0 := by
    have := Nat.pos_of_ne_zero hm
    omega
  rw [std_to_string_pos hne, ← hd, std_to_string_pos hm]
  simp only [List.reverse_append, List.map_append, List.reverse_replicate, List.map_replicate,
    List.append_assoc]
  congr 1
  unfold pad9
  by_cases h0 : x = 0
  · subst h0
    rw [std_to_string_zero, Nat.digits_zero]
    rfl
  · rw [std_to_string_pos h0, List.length_map, List.length_reverse]
    rfl

/-- The chunks of `to_string`, printed most significant first after the leading chunk. -/
theorem std_to_string_chunks (l : List Nat) : ∀ {m : Nat}, m ≠ 0 → (∀ x ∈ l, x < 1000000000) →
    std_to_string m ++ to_string_chunks l.reverse =
      std_to_string (Nat.ofDigits 1000000000 l + 1000000000 ^ l.length * m) := by
  induction l with
  | nil =>
    intro m _ _
    simp [to_string_chunks, Nat.ofDigits_nil]
  | cons x l ih =>
    intro m hm hl
    have hx := hl x (List.mem_cons_self _ _)
    have hl1 : ∀ y ∈ l, y < 1000000000 := fun y hy => hl y (List.mem_cons_of_mem _ hy)
    have hpos : Nat.ofDigits 1000000000 l + 1000000000 ^ l.length * m ≠ 0 := by
      have h1 : 0 < 1000000000 ^ l.length * m :=
        Nat.mul_pos (pow_pos (by decide) _) (Nat.pos_of_ne_zero hm)
      omega
    rw [List.reverse_cons, to_string_chunks_append, ← List.append_assoc, ih hm hl1]
    show _ ++ (pad9 (std_to_string x) ++ []) = _
    rw [List.append_nil, std_to_string_chunk hpos hx, Nat.ofDigits_cons, List.length_cons,
      pow_succ]
    congr 1
    ring

/-- The text that `to_string` assembles from the chunks of a positive number. -/
theorem std_to_string_digits {n : Nat} (h : n ≠ 0) :
    std_to_string ((Nat.digits 1000000000 n).getLastD 0) ++
      to_string_chunks (Nat.digits 1000000000 n).dropLast.reverse = std_to_string n := by
  have hne : Nat.digits 1000000000 n ≠ [] := Nat.digits_ne_nil_iff_ne_zero.mpr h
  have hlast := Nat.getLast_digit_ne_zero 1000000000 h
  obtain ⟨l, y, hl⟩ := exists_snoc hne
  have hy : y ≠ 0 := by
    have := hlast
    simp only [hl, List.getLast_append_singleton] at this
    exact this
  have hlt : ∀ x ∈ l, x < 1000000000 := fun x hx =>
    Nat.digits_lt_base (by decide) (by rw [hl]; exact List.mem_append_left _ hx)
  have hn : n = Nat.ofDigits 1000000000 l + 1000000000 ^ l.length * y := by
    have := Nat.ofDigits_digits 1000000000 n
    rw [hl, Nat.ofDigits_append, Nat.ofDigits_singleton] at this
    exact this.symm
  rw [hl, getLastD_snoc, List.dropLast_concat, std_to_string_chunks l hy hlt, ← hn]


theorem zero_test_iff {a : big_integer} (h : wf a) :
    (a.number.length = 1 ∧ a.number.headD 0 = 0) ↔
      ¬ (a.number.length > 1 ∨ a.number.headD 0 ≠ 0) := by
  have := h.1
  have hlen : a.number.length ≠ 0 := fun h0 => this (List.length_eq_zero.mp h0)
  constructor
  · rintro ⟨h1, h2⟩ (h3 | h3)
    · omega
    · exact h3 h2
  · intro hn
    rw [not_or, not_not] at hn
    exact ⟨by omega, hn.2⟩

/-- The text of a canonical non-negative state. -/
theorem to_string_nonneg {fuel : Nat} {a : big_integer} (h : canonical a) (hs : a.sign = false)
    (hf : limbs_value a.number < 1000000000 ^ fuel) :
    to_string fuel a = .ok (std_to_string (limbs_value a.number)) := by
  unfold to_string
  simp only [hs, Bool.false_eq_true, if_false, List.nil_append]
  by_cases h0 : limbs_value a.number = 0
  · rw [if_pos ((zero_test_iff h.1).mpr (by rw [nonzero_test_iff h]; exact not_not.mpr h0)), h0]
    rfl
  · rw [if_neg (by rw [zero_test_iff h.1, not_not]; exact (nonzero_test_iff h).mpr h0),
      to_string_loop_spec fuel a [] h hs hf]
    show Outcome.ok _ = _
    rw [List.nil_append, std_to_string_digits h0]

/-- The free function `to_string` renders the value of a canonical state in decimal, when
the fuel covers the number of nine-digit chunks. -/
theorem to_string_spec {fuel : Nat} {a : big_integer} (h : canonical a)
    (hf : (value a).natAbs < 1000000000 ^ fuel) :
    to_string fuel a = .ok (render (value a)) := by
  cases hs : a.sign with
  | false =>
    have hv := value_of_sign_false hs
    have hn : (value a).natAbs = limbs_value a.number := by rw [hv]; rfl
    rw [to_string_nonneg h hs (by rw [← hn]; exact hf)]
    unfold render
    rw [if_neg (by rw [hv]; omega), hn]
  | true =>
    have hneg : value a < 0 := value_neg_of_sign h.1.2 hs
    have hc := neg_canonical h.1
    have hv := neg_value h
    have hs1 : (neg a).sign = false := sign_false_of_nonneg hc.1.2 (by rw [hv]; omega)
    have hv1 := value_of_sign_false hs1
    have hn : (value a).natAbs = limbs_value (neg a).number := by
      rw [hv] at hv1
      omega
    have h0 : limbs_value (neg a).number ≠ 0 := by omega
    unfold to_string
    simp only [hs, if_true]
    show (if (neg a).number.length = 1 ∧ (neg a).number.headD 0 = 0 then _ else _) = _
    have htest : ¬ ((neg a).number.length = 1 ∧ (neg a).number.headD 0 = 0) := by
      rw [zero_test_iff hc.1, not_not]; exact (nonzero_test_iff hc).mpr h0
    rw [if_neg htest]
    show ((to_string_loop fuel (neg a) []).bind _) = _
    rw [to_string_loop_spec fuel (neg a) [] hc hs1 (by rw [← hn]; exact hf)]
    show Outcome.ok _ = _
    rw [List.nil_append, List.append_assoc, std_to_string_digits h0]
    unfold render
    rw [if_pos hneg, hn]
    rfl


/-! ## Strings with an optional sign -/

theorem is_digit_ne_sign {c : Char} (h : is_digit c) : c ≠ '-' ∧ c ≠ '+' := by
  constructor
  · intro hc; subst hc; revert h; decide
  · intro hc; subst hc; revert h; decide

/-- The digits of a string without sign. -/
theorem sign_length_digits {ds : List Char} (hne : ds ≠ []) (h : ∀ c ∈ ds, is_digit c) :
    sign_length ds = 0 ∧ ds.headD (Char.ofNat 0) ≠ '-' := by
  match ds, hne, h with
  | c :: cs, _, h =>
    have hc := is_digit_ne_sign (h c (List.mem_cons_self _ _))
    unfold sign_length
    simp only [List.headD_cons]
    exact ⟨if_neg (by rw [not_or]; exact hc), hc.1⟩

/-- The digits of a string with a sign `s`, which is `'-'` or `'+'`. -/
theorem sign_length_signed {s : Char} (hs : s = '-' ∨ s = '+') (ds : List Char) :
    sign_length (s :: ds) = 1 := by
  unfold sign_length
  simp only [List.headD_cons]
  exact if_pos hs

theorem bnot_limbs {l : List Nat} (h : limbs_ok l) :
    limbs_value (l.map fun i => i ^^^ UINT32_MAX) + limbs_value l + 1 = B ^ l.length := by
  induction l with
  | nil => rfl
  | cons x xs ih =>
    rw [limbs_ok_cons] at h
    have h1 := ih h.2
    simp only [List.map_cons, limbs_value_cons, List.length_cons, pow_succ]
    rw [xor_max h.1]
    have hx := h.1
    rw [B_eq] at hx
    have hM := UINT32_MAX_eq
    calc UINT32_MAX - x + B * limbs_value (xs.map fun i => i ^^^ UINT32_MAX) +
          (x + B * limbs_value xs) + 1
        = B * (limbs_value (xs.map fun i => i ^^^ UINT32_MAX) + limbs_value xs + 1) +
            (UINT32_MAX - x + x + 1 - B) := by
          rw [B_eq]; omega
      _ = B ^ xs.length * B := by
          rw [h1, show UINT32_MAX - x + x + 1 - B = 0 by rw [B_eq]; omega]; ring

/-- The complement `operator~` on the value: `-value a - 1`. -/
theorem bnot_value {a : big_integer} (h : limbs_ok a.number) :
    value (bnot a) = -value a - 1 := by
  have h1 := bnot_limbs h
  unfold value bnot
  simp only [List.length_map]
  cases a.sign with
  | false =>
    simp only [Bool.not_false, if_true, Bool.false_eq_true, if_false]
    have : ((limbs_value (a.number.map fun i => i ^^^ UINT32_MAX) + limbs_value a.number + 1 :
      Nat) : Int) = ((B ^ a.number.length : Nat) : Int) := by rw [h1]
    push_cast at this ⊢
    linarith
  | true =>
    simp only [Bool.not_true, if_true, Bool.false_eq_true, if_false]
    have : ((limbs_value (a.number.map fun i => i ^^^ UINT32_MAX) + limbs_value a.number + 1 :
      Nat) : Int) = ((B ^ a.number.length : Nat) : Int) := by rw [h1]
    push_cast at this ⊢
    linarith


/-- The early return of `operator>>=`: when the shift removes every limb, the result is
the single limb `0` with the sign of the operand, whatever that sign is. -/
theorem shr_all_limbs (a : big_integer) (rhs : Nat) (h : a.number.length ≤ rhs / 32) :
    shr a rhs = ⟨[0], a.sign⟩ := by
  unfold shr
  simp only [Nat.min_eq_left h, List.drop_length, List.length_nil, if_true]


/-- Every value the string constructor returns is canonical. -/
theorem of_string_canonical (str : List Char) (r : big_integer) (h : of_string str = .ok r) :
    canonical r := by
  by_cases hbad : ∃ c ∈ str.drop (sign_length str), ¬ is_digit c
  · rw [of_string_fail str hbad] at h
    cases h
  · have hdig : ∀ c ∈ str.drop (sign_length str), is_digit c := by
      intro c hc
      by_contra hn
      exact hbad ⟨c, hc, hn⟩
    by_cases hlen : sign_length str < str.length
    · obtain ⟨x, e1, e2, _⟩ := of_string_spec str hlen hdig
      rw [e1] at h
      cases h
      exact e2
    · match str, h, hlen with
      | [], h, _ => cases h
      | [c], h, hlen =>
        have hs : sign_length [c] = 1 := by
          have : sign_length [c] ≤ 1 := by unfold sign_length; split <;> omega
          simp only [List.length_singleton] at hlen
          omega
        unfold sign_length at hs
        simp only [List.headD_cons] at hs
        have hc : c = '-' ∨ c = '+' := by
          by_contra hn
          rw [if_neg hn] at hs
          cases hs
        rcases hc with rfl | rfl
        · cases h
        · have : of_string ['+'] = .ok zero := rfl
          rw [this] at h
          cases h
          exact canonical_zero
      | c :: d :: cs, _, hlen =>
        exfalso
        apply hlen
        have : sign_length (c :: d :: cs) ≤ 1 := by unfold sign_length; split <;> omega
        simp only [List.length_cons]
        omega

theorem sub_canonical {a b : big_integer} (ha : wf a) (hb : wf b) : canonical (sub a b) :=
  add_canonical ha (neg_canonical hb).1

/-- The flag `sign` that `fit` leaves is the flag it was given, except on the single limb `0`. -/
theorem fit_sign {a : big_integer} (h : a ≠ ⟨[0], true⟩) : (fit a).sign = a.sign := by
  obtain ⟨l, s⟩ := a
  cases l with
  | nil => rfl
  | cons x xs =>
    by_cases h0 : xs = [] ∧ x = 0
    · obtain ⟨rfl, rfl⟩ := h0
      cases s with
      | false => rfl
      | true => exact absurd rfl h
    · exact fit_sign_of_ne h0


/-- One step of the loop of the multi-limb branch of `operator/=`, with the bounds on the
estimate: the estimate is at least the true quotient limb `q = left / (right * B ^ i)` and
at most `q + 2`, and the correction loop ends after `est - q` iterations with the limb `q`
and the remainder `left - q * right * B ^ i`. -/
theorem div_step_estimate (right : big_integer)
    (hr : canonical right) (hrs : right.sign = false) (hR0 : limbs_value right.number ≠ 0)
    (hnorm : B ≤ 2 * right.number.getLastD 0)
    (i : Nat) (left : big_integer) (hl : wf left) (h0 : 0 ≤ value left)
    (h1 : value left < value right * ((B ^ (i + 1) : Nat) : Int)) :
    ∃ est q, est = min
        ((((myAt left (i + right.number.length) <<< 32) % B64 +
          myAt left (i + 1 + right.number.length - 2)) % B64) / right.number.getLastD 0)
        UINT32_MAX ∧
      q = limbs_value left.number / (limbs_value right.number * B ^ i) ∧
      q ≤ est ∧ est ≤ q + 2 ∧ est < B ∧
      ∀ fuel, est - q ≤ fuel → ∃ left1,
        div_correct_loop (shl right (i * 32)) fuel
          (sub left (shl (mul right (of_uint32 est)) (i * 32))) est = .ok (left1, q) ∧
        wf left1 ∧
        (q : Int) * (value right * ((B ^ i : Nat) : Int)) + value left1 = value left ∧
        0 ≤ value left1 ∧ value left1 < value right * ((B ^ i : Nat) : Int) := by
  have hvR : value right = (limbs_value right.number : Int) := value_of_sign_false hrs
  have hsl : left.sign = false := sign_false_of_nonneg hl.2 h0
  have hvL : value left = (limbs_value left.number : Int) := value_of_sign_false hsl
  have htop0 := top_limb_ne_zero hr hrs hR0
  obtain ⟨t1, t2, t3⟩ := top_limb_bounds hr.1.1 hr.1.2
  obtain ⟨k, hk⟩ : ∃ k, right.number.length = k + 1 :=
    ⟨right.number.length - 1, by have := List.length_pos.mpr hr.1.1; omega⟩
  rw [hk, Nat.add_sub_cancel] at t1 t2
  generalize hR : limbs_value right.number = R at *
  generalize hL : limbs_value left.number = L at *
  generalize htop : right.number.getLastD 0 = top at *
  have hR2 : R < B ^ (k + 1) := by
    have := limbs_value_lt hr.1.2
    rw [hR, hk] at this; exact this
  have hLlt : L < R * B ^ (i + 1) := by
    rw [hvL, hvR] at h1
    exact_mod_cast h1
  obtain ⟨q1, q2, q3⟩ := quotient_le_estimate (Nat.pos_of_ne_zero htop0) t1 hR2 hLlt
  have hnum := estimate_numerator hl.2 hsl (i := i) (k := k) (by rw [hL]; exact q3)
  rw [hL] at hnum
  rw [hk, hnum]
  generalize hest : min (L / B ^ (i + k) / top) UINT32_MAX = est
  have hestB : est < B := by
    have : est ≤ UINT32_MAX := by rw [← hest]; exact Nat.min_le_right _ _
    rw [UINT32_MAX_eq] at this; rw [B_eq]; omega
  have hqest : L / (R * B ^ i) ≤ est := by
    rw [← hest]
    apply Nat.le_min.mpr
    refine ⟨q1, ?_⟩
    have q2' : L / (R * B ^ i) < 4294967296 := q2
    rw [UINT32_MAX_eq]; omega
  -- the subtracted product
  obtain ⟨ce, ve⟩ := of_uint32_spec hestB
  have cm := mul_canonical hr ce
  have vm := mul_value hr ce
  have cs := shl_canonical (mul right (of_uint32 est)) (i * 32) cm.1
  have vs := shl_value (mul right (of_uint32 est)) (i * 32) cm.1 (canonical_ne cm)
  rw [vm, ve, hvR, two_pow_mul_32] at vs
  have vn := neg_value cs
  have hsub : value (sub left (shl (mul right (of_uint32 est)) (i * 32))) =
      (L : Int) - (R : Int) * (est : Int) * ((B ^ i : Nat) : Int) := by
    unfold sub
    rw [add_value hl (neg_wf cs.1), vn, vs, hvL]
    ring
  have wsub : wf (sub left (shl (mul right (of_uint32 est)) (i * 32))) :=
    (add_canonical hl (neg_wf cs.1)).1
  -- the shifted divisor
  have wsh := shl_wf right (i * 32) hr.1
  have vsh := shl_value right (i * 32) hr.1 (canonical_ne hr)
  rw [hvR, two_pow_mul_32] at vsh
  have hRpos : 0 < R := Nat.pos_of_ne_zero hR0
  have hSpos : 0 < R * B ^ i := Nat.mul_pos hRpos (B_pow_pos i)
  have hshpos : 0 < value (shl right (i * 32)) := by
    rw [vsh]; exact_mod_cast hSpos
  -- the true quotient limb
  have hdm := Nat.div_add_mod L (R * B ^ i)
  have hmod := Nat.mod_lt L hSpos
  have hV : R * B ^ i < (top + 1) * B ^ (i + k) := by
    calc R * B ^ i < (top + 1) * B ^ k * B ^ i :=
        Nat.mul_lt_mul_of_pos_right t2 (B_pow_pos i)
      _ = (top + 1) * B ^ (i + k) := by rw [pow_add]; ring
  have hqlt : L < (L / (R * B ^ i) + 1) * (R * B ^ i) :=
    (Nat.div_lt_iff_lt_mul hSpos).mp (Nat.lt_succ_self _)
  have hetop : est * top ≤ L / B ^ (i + k) := by
    rw [← hest]
    exact le_trans (Nat.mul_le_mul_right top (Nat.min_le_left _ _))
      (Nat.div_mul_le_self _ _)
  have hcorr : est ≤ L / (R * B ^ i) + 2 :=
    estimate_le_quotient_add_two hnorm hV hqlt hetop hestB
  generalize hq : L / (R * B ^ i) = q at *
  generalize hrem : L % (R * B ^ i) = rem at *
  have hdmI : ((R : Int) * ((B ^ i : Nat) : Int)) * (q : Int) + (rem : Int) = (L : Int) := by
    exact_mod_cast hdm
  have key : (L : Int) - (R : Int) * (est : Int) * ((B ^ i : Nat) : Int) +
      ((est : Int) - (q : Int)) * ((R : Int) * ((B ^ i : Nat) : Int)) = (rem : Int) := by
    linear_combination (-1 : Int) * hdmI
  have hremlt : (rem : Int) < (R : Int) * ((B ^ i : Nat) : Int) := by exact_mod_cast hmod
  refine ⟨est, q, rfl, rfl, hqest, hcorr, hestB, ?_⟩
  intro fuel hfuel
  obtain ⟨left1, e1, e2, e3⟩ := div_correct_loop_spec (shl right (i * 32)) wsh hshpos
    (est - q) fuel (sub left (shl (mul right (of_uint32 est)) (i * 32))) est wsub
    hfuel (by omega) hestB
    (by
      rw [hsub, vsh, Nat.cast_sub hqest, key]
      exact Int.natCast_nonneg _)
    (by
      intro _
      rw [hsub, vsh, Nat.cast_sub hqest]
      linarith)
  have hval : value left1 = (rem : Int) := by
    rw [e3, hsub, vsh, Nat.cast_sub hqest, key]
  refine ⟨left1, ?_, e2, ?_, ?_, ?_⟩
  · rw [e1, show est - (est - q) = q by omega]
  · rw [hval, hvR, hvL]; linear_combination hdmI
  · rw [hval]; exact Int.natCast_nonneg _
  · rw [hval, hvR]; exact_mod_cast hmod


/-- The normalization of the multi-limb branch of `operator/=`: with `f = 2^32 / (top limb
of right + 1)`, the divisor `right * f` is canonical, not negative and has its top limb at
least `2^31`; the dividend `left * f` is below `right * f * B ^ (ls - rs)`, the invariant
of the loop at its start. -/
theorem div_normalize_spec {left right : big_integer}
    (hl : canonical left) (hr : canonical right)
    (hrs : right.sign = false) (hr1 : right.number.length ≠ 1)
    (hge : limbs_value right.number ≤ limbs_value left.number) :
    (B / (right.number.getLastD 0 + 1)) % B = B / (right.number.getLastD 0 + 1) ∧
    canonical (fit (mul_long_short right (B / (right.number.getLastD 0 + 1)))) ∧
    (fit (mul_long_short right (B / (right.number.getLastD 0 + 1)))).sign = false ∧
    limbs_value (fit (mul_long_short right (B / (right.number.getLastD 0 + 1)))).number ≠ 0 ∧
    B ≤ 2 * (fit (mul_long_short right
      (B / (right.number.getLastD 0 + 1)))).number.getLastD 0 ∧
    wf (mul_long_short left (B / (right.number.getLastD 0 + 1))) ∧
    0 ≤ value (mul_long_short left (B / (right.number.getLastD 0 + 1))) ∧
    (fit (mul_long_short right (B / (right.number.getLastD 0 + 1)))).number.length ≤
      (mul_long_short left (B / (right.number.getLastD 0 + 1))).number.length ∧
    value (mul_long_short left (B / (right.number.getLastD 0 + 1))) <
      value (fit (mul_long_short right (B / (right.number.getLastD 0 + 1)))) *
        ((B ^ ((mul_long_short left (B / (right.number.getLastD 0 + 1))).number.length -
          (fit (mul_long_short right
            (B / (right.number.getLastD 0 + 1)))).number.length) : Nat) : Int) := by
  have hm1 : 0 < right.number.length := List.length_pos.mpr hr.1.1
  obtain ⟨m, hm⟩ : ∃ m, right.number.length = m + 2 := ⟨right.number.length - 2, by omega⟩
  have hRge : B ^ (m + 1) ≤ limbs_value right.number := by
    obtain ⟨l, s⟩ := right
    simp only at hrs hm ⊢
    subst hrs
    exact canonical_range_nonneg hr hm
  have hR0 : limbs_value right.number ≠ 0 := by
    have := B_pow_pos (m + 1); omega
  have htop0 := top_limb_ne_zero hr hrs hR0
  obtain ⟨t1, t2, t3⟩ := top_limb_bounds hr.1.1 hr.1.2
  rw [hm, show m + 2 - 1 = m + 1 by omega] at t1 t2
  obtain ⟨f1, f2, f3, f4⟩ := factor_spec htop0 t3
  have f5 := factor_normalizes htop0 t3
  generalize hf : B / (right.number.getLastD 0 + 1) = f at *
  generalize htop : right.number.getLastD 0 = top at *
  -- the scaled operands
  have wl1 := mul_long_short_wf hl.1.2 f3
  have vl1 := mul_long_short_value hl.1.2 f3
  have ll1 := mul_long_short_length hl.1.2 f3
  have wr0 := mul_long_short_wf hr.1.2 f3
  have vr0 := mul_long_short_value hr.1.2 f3
  have cr1 := fit_canonical wr0
  have vr1 : value (fit (mul_long_short right f)) =
      (limbs_value right.number : Int) * (f : Int) := by
    rw [fit_value, vr0]
    intro e
    have : (mul_long_short right f).sign = true := by rw [e]
    exact absurd this (by simp [mul_long_short])
  generalize hright1 : fit (mul_long_short right f) = right1 at *
  generalize hleft1 : mul_long_short left f = left1 at *
  generalize hRv : limbs_value right.number = R at *
  generalize hLv : limbs_value left.number = L at *
  have hLlt : L < B ^ left.number.length := by rw [← hLv]; exact limbs_value_lt hl.1.2
  have sr1 : right1.sign = false :=
    sign_false_of_nonneg cr1.1.2 (by rw [vr1]; positivity)
  have lr1 : limbs_value right1.number = R * f := by
    have := value_of_sign_false sr1
    rw [vr1] at this
    exact_mod_cast this.symm
  have hRf0 : limbs_value right1.number ≠ 0 := by
    rw [lr1]; exact Nat.mul_ne_zero hR0 (by omega)
  -- the lengths
  have hRflt : R * f < B ^ (m + 2) := by
    calc R * f < (top + 1) * B ^ (m + 1) * f := Nat.mul_lt_mul_of_pos_right t2 f2
      _ = f * (top + 1) * B ^ (m + 1) := by ring
      _ ≤ B * B ^ (m + 1) := Nat.mul_le_mul_right _ f4
      _ = B ^ (m + 2) := by rw [pow_succ B (m + 1)]; ring
  have hrs1 : 0 < right1.number.length := List.length_pos.mpr cr1.1.1
  have hrs_le : right1.number.length ≤ m + 2 := by
    by_contra hc
    obtain ⟨j, hj⟩ : ∃ j, right1.number.length = j + 2 :=
      ⟨right1.number.length - 2, by omega⟩
    have h1 : B ^ (j + 1) ≤ limbs_value right1.number := by
      obtain ⟨l, s⟩ := right1
      simp only at sr1 hj ⊢
      subst sr1
      exact canonical_range_nonneg cr1 hj
    have h2 : B ^ (m + 2) ≤ B ^ (j + 1) := Nat.pow_le_pow_right B_pos (by omega)
    omega
  have hn : m + 2 ≤ left.number.length := by
    by_contra hc
    have h2 : B ^ left.number.length ≤ B ^ (m + 1) := Nat.pow_le_pow_right B_pos (by omega)
    omega
  -- the top limb of the normalized divisor
  have hnorm : B ≤ 2 * right1.number.getLastD 0 := by
    obtain ⟨u1, u2, _⟩ := top_limb_bounds cr1.1.1 cr1.1.2
    rw [lr1] at u1 u2
    have h1 : top * f * B ^ (m + 1) ≤ R * f := by
      calc top * f * B ^ (m + 1) = top * B ^ (m + 1) * f := by ring
        _ ≤ R * f := Nat.mul_le_mul_right f t1
    have h2 : B * B ^ (m + 1) ≤ 2 * (top * f) * B ^ (m + 1) := Nat.mul_le_mul_right _ f5
    have h3 : B ^ (m + 1) * B ≤ 2 * (R * f) := by
      calc B ^ (m + 1) * B = B * B ^ (m + 1) := by ring
        _ ≤ 2 * (top * f) * B ^ (m + 1) := h2
        _ = 2 * (top * f * B ^ (m + 1)) := by ring
        _ ≤ 2 * (R * f) := Nat.mul_le_mul_left 2 h1
    have h4 : right1.number.length = m + 2 := by
      by_contra hc
      have h5 : B ^ right1.number.length ≤ B ^ (m + 1) :=
        Nat.pow_le_pow_right B_pos (by omega)
      have h6 := limbs_value_lt cr1.1.2
      rw [lr1] at h6
      have h7 : 2 * B ^ (m + 1) ≤ B ^ (m + 1) * B := by
        rw [Nat.mul_comm]; exact Nat.mul_le_mul_left _ (by decide)
      have h8 := B_pow_pos (m + 1)
      omega
    rw [h4, show m + 2 - 1 = m + 1 by omega] at u2
    have h9 : B ^ (m + 1) * B < (2 * (right1.number.getLastD 0 + 1)) * B ^ (m + 1) := by
      calc B ^ (m + 1) * B ≤ 2 * (R * f) := h3
        _ < 2 * ((right1.number.getLastD 0 + 1) * B ^ (m + 1)) := by omega
        _ = (2 * (right1.number.getLastD 0 + 1)) * B ^ (m + 1) := by ring
    rw [Nat.mul_comm (B ^ (m + 1)) B] at h9
    have h10 : B < 2 * (right1.number.getLastD 0 + 1) := Nat.lt_of_mul_lt_mul_right h9
    rw [B_eq] at h10 ⊢
    omega
  generalize hi : left1.number.length - right1.number.length = i
  have hi1 : left.number.length + 1 - (m + 2) ≤ i := by omega
  have hstart : value left1 < value right1 * ((B ^ i : Nat) : Int) := by
    rw [vl1, vr1]
    have h1 : B ^ left.number.length ≤ B ^ (m + 1) * B ^ i := by
      rw [← pow_add]; exact Nat.pow_le_pow_right B_pos (by omega)
    have h2 : B ^ (m + 1) * B ^ i ≤ R * B ^ i := Nat.mul_le_mul_right _ hRge
    have h3 : L * f < R * f * B ^ i := by
      calc L * f < R * B ^ i * f := Nat.mul_lt_mul_of_pos_right (by omega) f2
        _ = R * f * B ^ i := by ring
    exact_mod_cast h3
  exact ⟨f1, cr1, sr1, hRf0, hnorm, wl1, by rw [vl1]; positivity, by omega, hstart⟩


/-! ## Claims on division and remainder

`div` and `mod` carry the fuel of the correction loop `while (left < 0)`; the claims hold
for every fuel from `2` on, so each run of the loop of the source ends within two
iterations and the operators return. -/

/-- C1: for canonical `a` and canonical nonzero `b`, `a / b` and `a % b` return, `a % b`
is `a - (a / b) * b`, and `(a / b) * b + (a % b) == a`. -/
theorem C1_div_mod_consistency (fuel : Nat) (a b : big_integer) (hfuel : 2 ≤ fuel)
    (ha : canonical a) (hb : canonical b) (hb0 : value b ≠ 0) :
    ∃ q r, div fuel a b = .ok q ∧ mod fuel a b = .ok r ∧ r = sub a (mul q b) ∧
      eq (add (mul q b) r) a = true := by
  obtain ⟨q, r, h1, h2, h3, h4, h5, h6, h7⟩ := mod_spec fuel hfuel ha hb hb0
  refine ⟨q, r, h1, h2, h3, ?_⟩
  have cm := mul_canonical h4 hb
  rw [eq_iff]
  apply canonical_inj (add_canonical cm.1 h6.1) ha
  rw [add_value cm.1 h6.1, mul_value h4 hb, h5, h7, Int.tmod_def]
  ring

theorem C1_div_mod_consistency_witness :
    2 ≤ 2 ∧ canonical ⟨[7, 0, 4294967295], true⟩ ∧
    canonical ⟨[3, 5], false⟩ ∧ value ⟨[3, 5], false⟩ ≠ 0 ∧
    ∃ q r, div 2 ⟨[7, 0, 4294967295], true⟩ ⟨[3, 5], false⟩ = .ok q ∧
      mod 2 ⟨[7, 0, 4294967295], true⟩ ⟨[3, 5], false⟩ = .ok r ∧
      r = sub ⟨[7, 0, 4294967295], true⟩ (mul q ⟨[3, 5], false⟩) ∧
      eq (add (mul q ⟨[3, 5], false⟩) r) ⟨[7, 0, 4294967295], true⟩ = true :=
  ⟨by decide, by decide, by decide, by decide,
    C1_div_mod_consistency 2 ⟨[7, 0, 4294967295], true⟩ ⟨[3, 5], false⟩
      (by decide) (by decide) (by decide) (by decide)⟩

/-- C2: for canonical `a` and canonical nonzero `b`, in the single-limb branch and in the
multi-limb branch alike, `abs(a % b) < abs(b)` under `operator<`. -/
theorem C2_remainder_bound (fuel : Nat) (a b : big_integer) (hfuel : 2 ≤ fuel)
    (ha : canonical a) (hb : canonical b) (hb0 : value b ≠ 0) :
    ∃ r, mod fuel a b = .ok r ∧ lt (abs r) (abs b) = true ∧
      (value r).natAbs < (value b).natAbs := by
  obtain ⟨q, r, h1, h2, h3, h4, h5, h6, h7⟩ := mod_spec fuel hfuel ha hb hb0
  obtain ⟨cr, sr, _, vr⟩ := abs_spec h6
  obtain ⟨cb, sb, _, vb⟩ := abs_spec hb
  have hlt : (value r).natAbs < (value b).natAbs := by
    rw [h7, tmod_of_natAbs]
    have : (value a).natAbs % (value b).natAbs < (value b).natAbs :=
      Nat.mod_lt _ (by omega)
    generalize (value a).natAbs % (value b).natAbs = m at *
    split <;> omega
  refine ⟨r, h2, ?_, hlt⟩
  rw [lt_nonneg cr cb sr sb, vr, vb, Int.abs_eq_natAbs, Int.abs_eq_natAbs]
  exact_mod_cast hlt

theorem C2_remainder_bound_witness :
    2 ≤ 2 ∧ canonical ⟨[7, 0, 4294967295], true⟩ ∧
    canonical ⟨[3, 5], false⟩ ∧ value ⟨[3, 5], false⟩ ≠ 0 ∧
    ∃ r, mod 2 ⟨[7, 0, 4294967295], true⟩ ⟨[3, 5], false⟩ = .ok r ∧
      lt (abs r) (abs ⟨[3, 5], false⟩) = true ∧
      (value r).natAbs < (value ⟨[3, 5], false⟩).natAbs :=
  ⟨by decide, by decide, by decide, by decide,
    C2_remainder_bound 2 ⟨[7, 0, 4294967295], true⟩ ⟨[3, 5], false⟩
      (by decide) (by decide) (by decide) (by decide)⟩

/-- C3: for canonical `a` and canonical nonzero `b`, `a / b` is the quotient computed on
the absolute values and then signed: its magnitude is `floor(|a| / |b|)`, it is negative
iff exactly one operand is negative and the magnitude is nonzero, and the remainder
carries the sign of the dividend; `parse("-5") / parse("2") == parse("-2")` and
`parse("-5") % parse("2") == parse("-1")`. -/
theorem C3_div_truncates (fuel : Nat) (a b : big_integer) (hfuel : 2 ≤ fuel)
    (ha : canonical a) (hb : canonical b) (hb0 : value b ≠ 0) :
    (∃ q r, div fuel a b = .ok q ∧ mod fuel a b = .ok r ∧ canonical q ∧
      value q = Int.tdiv (value a) (value b) ∧
      (value q).natAbs = (value a).natAbs / (value b).natAbs ∧
      (q.sign = true ↔
        (xor a.sign b.sign = true ∧ (value a).natAbs / (value b).natAbs ≠ 0)) ∧
      value r = Int.tmod (value a) (value b) ∧ (value r ≠ 0 → r.sign = a.sign)) ∧
    (∃ x y q r q1 r1, of_string "-5".toList = .ok x ∧ of_string "2".toList = .ok y ∧
      of_string "-2".toList = .ok q ∧ of_string "-1".toList = .ok r ∧
      div fuel x y = .ok q1 ∧ mod fuel x y = .ok r1 ∧
      eq q1 q = true ∧ eq r1 r = true) := by
  refine ⟨?_, ⟨_, _, _, _, _, _, rfl, rfl, rfl, rfl, rfl, rfl, rfl, rfl⟩⟩
  obtain ⟨q, r, h1, h2, h3, h4, h5, h6, h7⟩ := mod_spec fuel hfuel ha hb hb0
  have hsa := value_nonneg_iff ha.1.2
  have hsb := value_nonneg_iff hb.1.2
  have hsq := value_nonneg_iff h4.1.2
  have hsr := value_nonneg_iff h6.1.2
  have hda : decide (value a < 0) = a.sign := by
    cases hs : a.sign <;> simp [hs] at hsa ⊢ <;> omega
  have hdb : decide (value b < 0) = b.sign := by
    cases hs : b.sign <;> simp [hs] at hsb ⊢ <;> omega
  have hq := tdiv_of_natAbs (value a) (value b)
  rw [← h5, hda, hdb] at hq
  have hr := tmod_of_natAbs (value a) (value b)
  rw [← h7] at hr
  refine ⟨q, r, h1, h2, h4, h5, ?_, ?_, h7, ?_⟩ <;>
    generalize (value a).natAbs / (value b).natAbs = Q at * <;>
    generalize (value a).natAbs % (value b).natAbs = m at *
  · rw [hq]; split <;> omega
  · rw [← hsq, hq]
    cases hx : xor a.sign b.sign
    · simp only [Bool.false_eq_true, if_false, false_and, iff_false]; omega
    · simp only [if_true, true_and]; omega
  · intro hr0
    cases hs : a.sign with
    | true =>
      have h8 := hsa.mpr hs
      rw [if_pos h8] at hr
      exact hsr.mp (by omega)
    | false =>
      have h8 : ¬ value a < 0 := fun h => by rw [hsa.mp h] at hs; cases hs
      rw [if_neg h8] at hr
      exact sign_false_of_nonneg h6.1.2 (by omega)

theorem C3_div_truncates_witness :
    2 ≤ 2 ∧ canonical ⟨[7, 0, 4294967295], true⟩ ∧
    canonical ⟨[3, 5], false⟩ ∧ value ⟨[3, 5], false⟩ ≠ 0 ∧
    ∃ q r, div 2 ⟨[7, 0, 4294967295], true⟩ ⟨[3, 5], false⟩ = .ok q ∧
      mod 2 ⟨[7, 0, 4294967295], true⟩ ⟨[3, 5], false⟩ = .ok r ∧ canonical q ∧
      value q = Int.tdiv (value ⟨[7, 0, 4294967295], true⟩) (value ⟨[3, 5], false⟩) ∧
      (value q).natAbs =
        (value ⟨[7, 0, 4294967295], true⟩).natAbs / (value ⟨[3, 5], false⟩).natAbs ∧
      (q.sign = true ↔ (xor true false = true ∧
        (value ⟨[7, 0, 4294967295], true⟩).natAbs / (value ⟨[3, 5], false⟩).natAbs ≠ 0)) ∧
      value r = Int.tmod (value ⟨[7, 0, 4294967295], true⟩) (value ⟨[3, 5], false⟩) ∧
      (value r ≠ 0 → r.sign = true) :=
  ⟨by decide, by decide, by decide, by decide,
    (C3_div_truncates 2 ⟨[7, 0, 4294967295], true⟩ ⟨[3, 5], false⟩
      (by decide) (by decide) (by decide) (by decide)).1⟩

/-- C4, as the code has it: for every canonical `a`, `a / 0` and `a % 0` raise no error
signal; both reach the 64-bit machine division `tmp / right` of `div_long_short` with a
zero divisor, which is undefined behaviour. -/
theorem C4_div_by_zero_undefined (fuel : Nat) (a : big_integer) (ha : canonical a) :
    div fuel a (of_int 0) = .fail .division_by_zero_ub ∧
      mod fuel a (of_int 0) = .fail .division_by_zero_ub := by
  have h := div_zero fuel ha
  refine ⟨h, ?_⟩
  simp only [mod, h, Outcome.bind]

theorem C4_div_by_zero_undefined_witness :
    canonical ⟨[7, 0, 4294967295], true⟩ ∧
    div 2 ⟨[7, 0, 4294967295], true⟩ (of_int 0) = .fail .division_by_zero_ub ∧
    mod 2 ⟨[7, 0, 4294967295], true⟩ (of_int 0) = .fail .division_by_zero_ub :=
  ⟨by decide, C4_div_by_zero_undefined 2 ⟨[7, 0, 4294967295], true⟩ (by decide)⟩

/-- C4 fails as stated: `1 / 0` and `1 % 0` do not end in a thrown exception; they end
in the machine division by zero. -/
theorem C4_counterexample :
    div 2 (of_int 1) (of_int 0) = .fail .division_by_zero_ub ∧
    mod 2 (of_int 1) (of_int 0) = .fail .division_by_zero_ub ∧
    ¬ (∃ what, div 2 (of_int 1) (of_int 0) = .fail (.invalid_argument what)) ∧
    ¬ (∃ what, mod 2 (of_int 1) (of_int 0) = .fail (.invalid_argument what)) := by
  have h1 : div 2 (of_int 1) (of_int 0) = .fail .division_by_zero_ub := rfl
  have h2 : mod 2 (of_int 1) (of_int 0) = .fail .division_by_zero_ub := rfl
  refine ⟨h1, h2, ?_, ?_⟩
  · rintro ⟨w, hw⟩
    rw [h1] at hw
    cases hw
  · rintro ⟨w, hw⟩
    rw [h2] at hw
    cases hw

/-! ## Claims on addition and negation -/

/-- C5: for canonical `a` and `b`, `a + b` is the canonical representation of `value a +
value b`: it is canonical, its value is the sum, and it is `==` to every canonical state
of that value; and `parse("123456789123456789") + parse("1") ==
parse("123456789123456790")`. -/
theorem C5_add_is_sum (a b : big_integer) (ha : canonical a) (hb : canonical b) :
    canonical (add a b) ∧ value (add a b) = value a + value b ∧
    (∀ c, canonical c → value c = value a + value b → eq (add a b) c = true) ∧
    (∃ x y z, of_string "123456789123456789".toList = .ok x ∧
      of_string "1".toList = .ok y ∧ of_string "123456789123456790".toList = .ok z ∧
      eq (add x y) z = true) := by
  refine ⟨add_canonical ha.1 hb.1, add_value ha.1 hb.1, ?_, ⟨_, _, _, rfl, rfl, rfl, rfl⟩⟩
  intro c hc hv
  rw [eq_iff]
  exact canonical_inj (add_canonical ha.1 hb.1) hc (by rw [add_value ha.1 hb.1, hv])

theorem C5_add_is_sum_witness :
    canonical ⟨[4294967295, 7], false⟩ ∧ canonical ⟨[1, 0, 4294967295], true⟩ ∧
    value (add ⟨[4294967295, 7], false⟩ ⟨[1, 0, 4294967295], true⟩) =
      value ⟨[4294967295, 7], false⟩ + value ⟨[1, 0, 4294967295], true⟩ :=
  ⟨by decide, by decide,
    (C5_add_is_sum ⟨[4294967295, 7], false⟩ ⟨[1, 0, 4294967295], true⟩ (by decide)
      (by decide)).2.1⟩

/-- C6: for every canonical `a`, `a + 0 == a` and `a + (-a) == 0`; the sum with the
negation is exactly the single limb `0` with `sign = false`. -/
theorem C6_add_identity_inverse (a : big_integer) (ha : canonical a) :
    eq (add a (of_int 0)) a = true ∧ eq (add a (neg a)) (of_int 0) = true ∧
    add a (neg a) = ⟨[0], false⟩ := by
  have hz : canonical (of_int 0) := by rw [of_int_zero]; exact canonical_zero
  have h1 : add a (of_int 0) = a := by
    apply canonical_inj (add_canonical ha.1 hz.1) ha
    rw [add_value ha.1 hz.1, of_int_zero, value_zero, Int.add_zero]
  have h2 : add a (neg a) = zero := by
    apply canonical_inj (add_canonical ha.1 (neg_wf ha.1)) canonical_zero
    rw [add_value ha.1 (neg_wf ha.1), neg_value ha, value_zero]
    omega
  refine ⟨(eq_iff _ _).mpr h1, ?_, h2⟩
  rw [eq_iff, of_int_zero]; exact h2

theorem C6_add_identity_inverse_witness :
    canonical ⟨[0, 4294967295], true⟩ ∧
    eq (add ⟨[0, 4294967295], true⟩ (of_int 0)) ⟨[0, 4294967295], true⟩ = true ∧
    eq (add ⟨[0, 4294967295], true⟩ (neg ⟨[0, 4294967295], true⟩)) (of_int 0) = true ∧
    add ⟨[0, 4294967295], true⟩ (neg ⟨[0, 4294967295], true⟩) = ⟨[0], false⟩ :=
  ⟨by decide, C6_add_identity_inverse ⟨[0, 4294967295], true⟩ (by decide)⟩

/-- C7: negation is an involution on canonical values: `-(-a) == a` for every canonical
`a`. -/
theorem C7_neg_involution (a : big_integer) (ha : canonical a) :
    eq (neg (neg a)) a = true := by
  rw [eq_iff]
  apply canonical_inj (neg_canonical (neg_wf ha.1)) ha
  rw [neg_value (neg_canonical ha.1), neg_value ha]
  omega

theorem C7_neg_involution_witness :
    canonical ⟨[0, 4294967295], true⟩ ∧
    eq (neg (neg ⟨[0, 4294967295], true⟩)) ⟨[0, 4294967295], true⟩ = true :=
  ⟨by decide, C7_neg_involution ⟨[0, 4294967295], true⟩ (by decide)⟩


/-! ## Claims on multiplication and the left shift -/

/-- C8: for canonical `a` and `b`, `a * b` is the canonical representation of `value a *
value b`; hence `a * 1 == a`, the sign of `a * b` is `sign a XOR sign b` when both are
nonzero, `a * 0 == 0`, and `parse("1000000000000000000000") * parse("0") ==
parse("0")`. -/
theorem C8_mul_is_product (a b : big_integer) (ha : canonical a) (hb : canonical b) :
    canonical (mul a b) ∧ value (mul a b) = value a * value b ∧
    (∀ c, canonical c → value c = value a * value b → eq (mul a b) c = true) ∧
    eq (mul a (of_int 1)) a = true ∧
    (value a ≠ 0 → value b ≠ 0 → (mul a b).sign = xor a.sign b.sign) ∧
    eq (mul a (of_int 0)) (of_int 0) = true ∧
    (∃ x y, of_string "1000000000000000000000".toList = .ok x ∧
      of_string "0".toList = .ok y ∧ eq (mul x y) y = true) := by
  have h1 : canonical (of_int 1) := by decide
  have h0 : canonical (of_int 0) := by decide
  refine ⟨mul_canonical ha hb, mul_value ha hb, ?_, ?_, ?_, ?_, ⟨_, _, rfl, rfl, rfl⟩⟩
  · intro c hc hv
    rw [eq_iff]
    exact canonical_inj (mul_canonical ha hb) hc (by rw [mul_value ha hb, hv])
  · rw [eq_iff]
    apply canonical_inj (mul_canonical ha h1) ha
    rw [mul_value ha h1, show value (of_int 1) = 1 by decide, Int.mul_one]
  · intro hva hvb
    have hm := value_nonneg_iff (mul_canonical ha hb).1.2
    have hsa := value_nonneg_iff ha.1.2
    have hsb := value_nonneg_iff hb.1.2
    rw [mul_value ha hb] at hm
    cases hxa : a.sign <;> cases hxb : b.sign <;>
      simp only [hxa, hxb, Bool.false_eq_true, iff_true, iff_false, not_lt] at hsa hsb <;>
      simp only [Bool.xor_false, Bool.xor_true, Bool.not_true, Bool.not_false]
    · apply sign_false_of_nonneg (mul_canonical ha hb).1.2
      rw [mul_value ha hb]; exact Int.mul_nonneg hsa hsb
    · apply hm.mp
      exact Int.mul_neg_of_pos_of_neg (by omega) hsb
    · apply hm.mp
      exact Int.mul_neg_of_neg_of_pos hsa (by omega)
    · apply sign_false_of_nonneg (mul_canonical ha hb).1.2
      rw [mul_value ha hb]; exact Int.le_of_lt (Int.mul_pos_of_neg_of_neg hsa hsb)
  · rw [eq_iff]
    apply canonical_inj (mul_canonical ha h0) h0
    rw [mul_value ha h0, show value (of_int 0) = 0 by decide, Int.mul_zero]

theorem C8_mul_is_product_witness :
    canonical ⟨[0, 4294967295], true⟩ ∧ canonical ⟨[5, 2147483648, 3], false⟩ ∧
    value (mul ⟨[0, 4294967295], true⟩ ⟨[5, 2147483648, 3], false⟩) =
      value ⟨[0, 4294967295], true⟩ * value ⟨[5, 2147483648, 3], false⟩ :=
  ⟨by decide, by decide,
    (C8_mul_is_product ⟨[0, 4294967295], true⟩ ⟨[5, 2147483648, 3], false⟩ (by decide)
      (by decide)).2.1⟩

/-- C9: for every canonical `a` and every shift amount `n ≥ 0`, `a << n` is canonical,
its value is `value a * 2 ^ n`, and it is `==` to `a * p` for every canonical `p` of
value `2 ^ n`; and `parse("4") << 2 == parse("16")`. -/
theorem C9_shl_is_mul_pow (a : big_integer) (n : Nat) (ha : canonical a) :
    canonical (shl a n) ∧ value (shl a n) = value a * 2 ^ n ∧
    (∀ p, canonical p → value p = 2 ^ n → eq (shl a n) (mul a p) = true) ∧
    (∃ x y, of_string "4".toList = .ok x ∧ of_string "16".toList = .ok y ∧
      eq (shl x 2) y = true) := by
  have hv : value (shl a n) = value a * 2 ^ n := by
    rw [shl_value a n ha.1 (canonical_ne ha)]; push_cast; rfl
  refine ⟨shl_canonical a n ha.1, hv, ?_, ⟨_, _, rfl, rfl, rfl⟩⟩
  intro p hp hvp
  rw [eq_iff]
  apply canonical_inj (shl_canonical a n ha.1) (mul_canonical ha hp)
  rw [hv, mul_value ha hp, hvp]

theorem C9_shl_is_mul_pow_witness :
    canonical ⟨[1, 0, 4294967295], true⟩ ∧
    value (shl ⟨[1, 0, 4294967295], true⟩ 37) = value ⟨[1, 0, 4294967295], true⟩ * 2 ^ 37 :=
  ⟨by decide, (C9_shl_is_mul_pow ⟨[1, 0, 4294967295], true⟩ 37 (by decide)).2.1⟩

/-! ## Claim on the right shift -/

/-- C10: for every canonical `a ≥ 0` and every shift amount `n ≥ 0`, also one of `32 *
len` or more, `a >> n` is the canonical representation of `floor(value a / 2 ^ n)`, and
it is what `a / p` returns for every canonical `p` of value `2 ^ n`. -/
theorem C10_shr_nonneg (a : big_integer) (n : Nat) (ha : canonical a) (h0 : 0 ≤ value a) :
    canonical (shr a n) ∧ value (shr a n) = value a / 2 ^ n ∧
    (∀ fuel p, 2 ≤ fuel → canonical p → value p = 2 ^ n →
      div fuel a p = .ok (shr a n)) := by
  have hs : a.sign = false := sign_false_of_nonneg ha.1.2 h0
  obtain ⟨h1, h2⟩ := shr_nonneg_spec ha.1 hs n
  have hv : value (shr a n) = value a / 2 ^ n := by
    rw [h2, value_of_sign_false hs]
    push_cast
    rfl
  refine ⟨h1, hv, ?_⟩
  intro fuel p hfuel hp hvp
  have hp0 : value p ≠ 0 := by
    rw [hvp]; positivity
  obtain ⟨q, e1, e2, e3⟩ := div_spec fuel hfuel ha hp hp0
  rw [e1]
  congr 1
  apply canonical_inj e2 h1
  rw [e3, hv, hvp, Int.tdiv_eq_ediv h0 (by positivity)]

theorem C10_shr_nonneg_witness :
    canonical ⟨[5, 2147483648, 3], false⟩ ∧ 0 ≤ value ⟨[5, 2147483648, 3], false⟩ ∧
    value (shr ⟨[5, 2147483648, 3], false⟩ 45) = value ⟨[5, 2147483648, 3], false⟩ / 2 ^ 45 :=
  ⟨by decide, by decide,
    (C10_shr_nonneg ⟨[5, 2147483648, 3], false⟩ 45 (by decide) (by decide)).2.1⟩


/-! ## Claims on the right shift of a negative number and on the bitwise operators -/

/-- C11: on `parse("-4")`, which is the canonical `([0xFFFFFFFC], sign)`, `>> 1` is `==` to
`parse("-2")`, but `>> 32` removes every limb and returns the limbs `[0]` with the sign
still set: a state that is not canonical, is not `==` to `-1`, and does not have the value
`floor(-4 / 2 ^ 32) = -1`. -/
theorem C11_shr_negative_all_limbs :
    of_string "-4".toList = .ok ⟨[4294967292], true⟩ ∧
    canonical ⟨[4294967292], true⟩ ∧ value ⟨[4294967292], true⟩ = -4 ∧
    (∃ y, of_string "-2".toList = .ok y ∧ eq (shr ⟨[4294967292], true⟩ 1) y = true) ∧
    shr ⟨[4294967292], true⟩ 32 = ⟨[0], true⟩ ∧
    eq (shr ⟨[4294967292], true⟩ 32) (of_int (-1)) = false ∧
    ¬ canonical (shr ⟨[4294967292], true⟩ 32) ∧
    value (shr ⟨[4294967292], true⟩ 32) ≠ -4 / 2 ^ 32 := by
  refine ⟨rfl, by decide, by decide, ⟨_, rfl, rfl⟩, rfl, rfl, by decide, by decide⟩

/-- C12: on the canonical `a = 4294967295 = ([0xFFFFFFFF], no sign)`, `~a` is the state
`([0], sign)`, which `operator~` returns without canonicalizing, while `-a - 1` is the
canonical `([0, 0xFFFFFFFF], sign)`; `~a == -a - 1` is false (the limb counts differ),
although both states stand for `-4294967296`. -/
theorem C12_bnot_skips_fit :
    canonical ⟨[4294967295], false⟩ ∧
    bnot ⟨[4294967295], false⟩ = ⟨[0], true⟩ ∧
    sub (neg ⟨[4294967295], false⟩) (of_int 1) = ⟨[0, 4294967295], true⟩ ∧
    eq (bnot ⟨[4294967295], false⟩) (sub (neg ⟨[4294967295], false⟩) (of_int 1)) = false ∧
    ¬ canonical (bnot ⟨[4294967295], false⟩) ∧
    value (bnot ⟨[4294967295], false⟩) =
      value (sub (neg ⟨[4294967295], false⟩) (of_int 1)) := by
  refine ⟨by decide, rfl, rfl, rfl, by decide, by decide⟩

/-- C13: with `a = -4294967296 = ([0, 0xFFFFFFFF], sign)`, canonical, `a ^ a` is `([0, 0,
0xFFFFFFFF], no sign)` and not `== 0`; `a & 1` is that same state while `1 & a` is zero, so
`a & 1 == 1 & a` is false; and with `c = 4294967296 = ([0, 1], no sign)`, `c | -1` is
`([0xFFFFFFFF, 0xFFFFFFFF], sign)` and not `== -1`: `bitOp` canonicalizes under the old
sign of `*this` and assigns the new sign afterwards. -/
theorem C13_bitop_fit_before_sign :
    canonical ⟨[0, 4294967295], true⟩ ∧ canonical ⟨[0, 1], false⟩ ∧
    bit_xor ⟨[0, 4294967295], true⟩ ⟨[0, 4294967295], true⟩ = ⟨[0, 0, 4294967295], false⟩ ∧
    eq (bit_xor ⟨[0, 4294967295], true⟩ ⟨[0, 4294967295], true⟩) (of_int 0) = false ∧
    bit_and ⟨[0, 4294967295], true⟩ (of_int 1) = ⟨[0, 0, 4294967295], false⟩ ∧
    bit_and (of_int 1) ⟨[0, 4294967295], true⟩ = ⟨[0], false⟩ ∧
    eq (bit_and ⟨[0, 4294967295], true⟩ (of_int 1))
      (bit_and (of_int 1) ⟨[0, 4294967295], true⟩) = false ∧
    bit_or ⟨[0, 1], false⟩ (of_int (-1)) = ⟨[4294967295, 4294967295], true⟩ ∧
    eq (bit_or ⟨[0, 1], false⟩ (of_int (-1))) (of_int (-1)) = false := by
  refine ⟨by decide, by decide, rfl, rfl, rfl, rfl, rfl, rfl, rfl⟩

/-! ## Claims on the order -/

/-- C14: for all states `a` and `b`, canonical or not, exactly one of `a < b`, `a == b`
and `a > b` holds, where `a > b` is `b < a`. -/
theorem C14_ordering_total (a b : big_integer) :
    gt a b = lt b a ∧
    ((lt a b = true ∧ eq a b = false ∧ gt a b = false) ∨
     (lt a b = false ∧ eq a b = true ∧ gt a b = false) ∨
     (lt a b = false ∧ eq a b = false ∧ gt a b = true)) :=
  ⟨rfl, lt_eq_gt_trichotomy a b⟩

/-- C15: for canonical `a` and `b`, `a < b` holds exactly when `value a < value b`; with
equal signs and different limb counts the answer of `operator<` is `sign XOR (len a < len
b)`. -/
theorem C15_lt_is_integer_order (a b : big_integer) (ha : canonical a) (hb : canonical b) :
    (lt a b = true ↔ value a < value b) ∧
    (a.sign = b.sign → a.number.length ≠ b.number.length →
      lt a b = xor a.sign (decide (a.number.length < b.number.length))) := by
  refine ⟨lt_iff ha hb, ?_⟩
  intro hs hl
  unfold lt
  rw [if_neg (by rw [not_not]; exact hs), if_pos hl]

theorem C15_lt_is_integer_order_witness :
    canonical ⟨[0, 4294967295], true⟩ ∧ canonical ⟨[1], true⟩ ∧
    value ⟨[0, 4294967295], true⟩ = -4294967296 ∧ value ⟨[1], true⟩ = -4294967295 ∧
    (lt ⟨[0, 4294967295], true⟩ ⟨[1], true⟩ = true ↔
      value ⟨[0, 4294967295], true⟩ < value ⟨[1], true⟩) ∧
    lt ⟨[0, 4294967295], true⟩ ⟨[1], true⟩ = xor true (decide (2 < 1)) :=
  ⟨by decide, by decide, by decide, by decide,
    (C15_lt_is_integer_order ⟨[0, 4294967295], true⟩ ⟨[1], true⟩ (by decide) (by decide)).1,
    (C15_lt_is_integer_order ⟨[0, 4294967295], true⟩ ⟨[1], true⟩ (by decide) (by decide)).2
      rfl (by decide)⟩

/-! ## Claims on the string constructor and on `to_string` -/

/-- C16: for every string made of an optional single `'+'` or `'-'` followed by one or
more decimal digits, the string constructor returns a canonical state whose value is the number
the digits denote, negated after `'-'`; and `"-0"` gives zero. -/
theorem C16_parse_decimal (pre ds : List Char)
    (hpre : pre = [] ∨ pre = ['+'] ∨ pre = ['-']) (hne : ds ≠ [])
    (hdig : ∀ c ∈ ds, is_digit c) :
    (∃ x, of_string (pre ++ ds) = .ok x ∧ canonical x ∧
      value x = if pre = ['-'] then -(decimal_value ds : Int) else (decimal_value ds : Int)) ∧
    of_string "-0".toList = .ok zero := by
  refine ⟨?_, rfl⟩
  have hlen : 0 < ds.length := List.length_pos.mpr hne
  rcases hpre with h | h | h
  · subst h
    obtain ⟨h1, h2⟩ := sign_length_digits hne hdig
    obtain ⟨x, e1, e2, e3⟩ := of_string_spec ([] ++ ds)
      (by rw [List.nil_append, h1]; exact hlen) (by rw [List.nil_append, h1]; exact hdig)
    rw [List.nil_append] at e1 e3
    rw [h1, List.drop_zero, if_neg h2] at e3
    exact ⟨x, e1, e2, by rw [e3, if_neg (by simp)]⟩
  · subst h
    have h1 : sign_length (['+'] ++ ds) = 1 := sign_length_signed (Or.inr rfl) ds
    obtain ⟨x, e1, e2, e3⟩ := of_string_spec (['+'] ++ ds)
      (by rw [h1]; simp only [List.singleton_append, List.length_cons]; omega)
      (by rw [h1]; exact hdig)
    rw [h1] at e3
    exact ⟨x, e1, e2, by rw [e3]; simp⟩
  · subst h
    have h1 : sign_length (['-'] ++ ds) = 1 := sign_length_signed (Or.inl rfl) ds
    obtain ⟨x, e1, e2, e3⟩ := of_string_spec (['-'] ++ ds)
      (by rw [h1]; simp only [List.singleton_append, List.length_cons]; omega)
      (by rw [h1]; exact hdig)
    rw [h1] at e3
    exact ⟨x, e1, e2, by rw [e3]; simp⟩

theorem C16_parse_decimal_witness :
    decimal_value "1234567890123".toList = 1234567890123 ∧
    ∃ x, of_string (['-'] ++ "1234567890123".toList) = .ok x ∧ canonical x ∧
      value x = if ['-'] = ['-'] then -(decimal_value "1234567890123".toList : Int)
        else (decimal_value "1234567890123".toList : Int) :=
  ⟨by decide,
    (C16_parse_decimal ['-'] "1234567890123".toList (Or.inr (Or.inr rfl)) (by decide)
      (by decide)).1⟩


/-- C17: for every string `-?[0-9]+` (`neg` tells whether it starts with `'-'`, `ds` is
its digits), the string constructor returns a state `x` and `to_string(x)` returns the
string with its leading zeros removed and `"-0"` turned into `"0"`, which is the decimal
rendering of `value x`; the loop of `to_string` ends within one iteration for every nine
digits of `ds`. -/
theorem C17_decimal_round_trip (neg : Bool) (ds : List Char) (fuel : Nat) (hne : ds ≠ [])
    (hdig : ∀ c ∈ ds, is_digit c) (hfuel : ds.length ≤ 9 * fuel) :
    ∃ x, of_string ((if neg = true then ['-'] else []) ++ ds) = .ok x ∧
      to_string fuel x = .ok (normalize neg ds) ∧ normalize neg ds = render (value x) := by
  have hlen : 0 < ds.length := List.length_pos.mpr hne
  have hbound : decimal_value ds < 1000000000 ^ fuel := by
    calc decimal_value ds < 10 ^ ds.length := decimal_value_lt hdig
      _ ≤ 10 ^ (9 * fuel) := Nat.pow_le_pow_right (by decide) hfuel
      _ = 1000000000 ^ fuel := by rw [pow_mul]; norm_num
  have key : ∀ x : big_integer, canonical x →
      value x = (if neg = true then -(decimal_value ds : Int) else (decimal_value ds : Int)) →
      to_string fuel x = .ok (normalize neg ds) ∧ normalize neg ds = render (value x) := by
    intro x hc hv
    have hr : render (value x) = normalize neg ds := by
      rw [hv]; exact render_decimal_value neg hdig
    have hn : (value x).natAbs < 1000000000 ^ fuel := by
      rw [hv]
      cases neg with
      | false => simpa using hbound
      | true => simpa using hbound
    exact ⟨by rw [to_string_spec hc hn, hr], hr.symm⟩
  cases neg with
  | false =>
    obtain ⟨h1, h2⟩ := sign_length_digits hne hdig
    obtain ⟨x, e1, e2, e3⟩ := of_string_spec ([] ++ ds)
      (by rw [List.nil_append, h1]; exact hlen) (by rw [List.nil_append, h1]; exact hdig)
    rw [List.nil_append] at e3
    rw [h1, List.drop_zero, if_neg h2] at e3
    exact ⟨x, e1, key x e2 (by rw [e3]; simp)⟩
  | true =>
    have h1 : sign_length (['-'] ++ ds) = 1 := sign_length_signed (Or.inl rfl) ds
    obtain ⟨x, e1, e2, e3⟩ := of_string_spec (['-'] ++ ds)
      (by rw [h1]; simp only [List.singleton_append, List.length_cons]; omega)
      (by rw [h1]; exact hdig)
    rw [h1] at e3
    exact ⟨x, e1, key x e2 (by rw [e3]; simp)⟩

theorem C17_decimal_round_trip_witness :
    normalize true "000123456789012345678".toList = "-123456789012345678".toList ∧
    ∃ x, of_string ((if true = true then ['-'] else []) ++ "000123456789012345678".toList) =
        .ok x ∧
      to_string 3 x = .ok (normalize true "000123456789012345678".toList) ∧
      normalize true "000123456789012345678".toList = render (value x) :=
  ⟨by decide,
    C17_decimal_round_trip true "000123456789012345678".toList 3 (by decide) (by decide)
      (by decide)⟩

/-- C18: the string constructor throws `std::invalid_argument` for the empty string and for
`"-"`, but for `"+"` it throws nothing and returns zero: the test for a lone sign is made
for `'-'` only. -/
theorem C18_lone_plus_accepted :
    of_string "".toList = .fail (.invalid_argument "") ∧
    of_string "-".toList = .fail (.invalid_argument "-") ∧
    of_string "+".toList = .ok zero ∧
    sign_length "+".toList = 1 ∧ sign_length "-".toList = 1 :=
  ⟨rfl, rfl, rfl, rfl, rfl⟩

/-- C19: for every string that has a character other than `'0'`..`'9'` after its optional
leading `'+'` or `'-'` (a second sign and a sign further on are such characters), the
string constructor throws `std::invalid_argument` from `parse_uint32` and returns no value. -/
theorem C19_non_digit_rejected (str : List Char)
    (hbad : ∃ c ∈ str.drop (sign_length str), ¬ is_digit c) :
    of_string str = .fail (.invalid_argument "Expected number") ∧
    ∀ x, of_string str ≠ .ok x := by
  have h := of_string_fail str hbad
  refine ⟨h, ?_⟩
  intro x hx
  rw [h] at hx
  cases hx

theorem C19_non_digit_rejected_witness :
    (∃ c ∈ "--5".toList.drop (sign_length "--5".toList), ¬ is_digit c) ∧
    of_string "--5".toList = .fail (.invalid_argument "Expected number") ∧
    of_string "1234567890123456789+".toList = .fail (.invalid_argument "Expected number") ∧
    of_string "+12a4".toList = .fail (.invalid_argument "Expected number") :=
  ⟨by decide, (C19_non_digit_rejected "--5".toList (by decide)).1,
    (C19_non_digit_rejected "1234567890123456789+".toList (by decide)).1,
    (C19_non_digit_rejected "+12a4".toList (by decide)).1⟩

/-! ## Claim on the constructors from machine integers -/

/-- C20: for every signed 64-bit `x` and every unsigned 64-bit `y`, `big_integer(x)` and
`big_integer(y)` are canonical with one or two limbs, have the values `x` and `y`, and the
signs `x < 0` and `false`; the constructors from `int`, `long`, `uint32_t` and `unsigned
long` are the 64-bit ones on the widened argument; and `0`, `-1`, `-2^32`, `2^63 - 1`,
`-2^63` and `2^64 - 1` get the limbs listed. -/
theorem C20_machine_integers (x : Int) (y : Nat) (hx1 : -9223372036854775808 ≤ x)
    (hx2 : x < 9223372036854775808) (hy : y < 18446744073709551616) :
    (canonical (of_long_long x) ∧ value (of_long_long x) = x ∧
      (of_long_long x).sign = decide (x < 0) ∧
      1 ≤ (of_long_long x).number.length ∧ (of_long_long x).number.length ≤ 2) ∧
    (canonical (of_unsigned_long_long y) ∧ value (of_unsigned_long_long y) = (y : Int) ∧
      (of_unsigned_long_long y).sign = false ∧
      1 ≤ (of_unsigned_long_long y).number.length ∧
      (of_unsigned_long_long y).number.length ≤ 2) ∧
    (of_int x = of_long_long x ∧ of_long x = of_long_long x ∧
      of_uint32 y = of_unsigned_long_long y ∧ of_unsigned_long y = of_unsigned_long_long y) ∧
    (of_long_long 0 = ⟨[0], false⟩ ∧ of_long_long (-1) = ⟨[4294967295], true⟩ ∧
      of_long_long (-4294967296) = ⟨[0, 4294967295], true⟩ ∧
      of_long_long 9223372036854775807 = ⟨[4294967295, 2147483647], false⟩ ∧
      of_long_long (-9223372036854775808) = ⟨[0, 2147483648], true⟩ ∧
      of_unsigned_long_long 18446744073709551615 = ⟨[4294967295, 4294967295], false⟩) := by
  obtain ⟨a1, a2, a3, a4⟩ := of_long_long_spec hx1 hx2
  obtain ⟨b1, b2, b3, b4⟩ := of_unsigned_long_long_spec hy
  have la : 0 < (of_long_long x).number.length := List.length_pos.mpr a1.1.1
  have lb : 0 < (of_unsigned_long_long y).number.length := List.length_pos.mpr b1.1.1
  exact ⟨⟨a1, a2, a3, la, a4⟩, ⟨b1, b2, b3, lb, b4⟩, ⟨rfl, rfl, rfl, rfl⟩,
    ⟨by decide, by decide, by decide, by decide, by decide, by decide⟩⟩

theorem C20_machine_integers_witness :
    value (of_long_long (-9223372036854775808)) = -9223372036854775808 ∧
    value (of_unsigned_long_long 18446744073709551615) = (18446744073709551615 : Nat) ∧
    canonical (of_long_long (-9223372036854775808)) ∧
    canonical (of_unsigned_long_long 18446744073709551615) :=
  ⟨(C20_machine_integers (-9223372036854775808) 18446744073709551615 (by decide) (by decide)
      (by decide)).1.2.1,
    (C20_machine_integers (-9223372036854775808) 18446744073709551615 (by decide) (by decide)
      (by decide)).2.1.2.1,
    (C20_machine_integers (-9223372036854775808) 18446744073709551615 (by decide) (by decide)
      (by decide)).1.1,
    (C20_machine_integers (-9223372036854775808) 18446744073709551615 (by decide) (by decide)
      (by decide)).2.1.1⟩


/-! ## Claims on the canonical form -/

/-- C21: for canonical operands (and a nonzero divisor), the default constructor, the
constructors from 64-bit integers (to which the 32-bit ones widen), the string constructor, unary
`-`, `abs`, `+`, `-`, `*`, `/`, `%`, `++` and `--` return canonical states: a non-empty limb
list that `fit` leaves unchanged; and a canonical state of value zero is the single limb
`0` with `sign = false`. -/
theorem C21_arithmetic_canonical (a b : big_integer) (x : Int) (y : Nat) (str : List Char)
    (fuel : Nat) (ha : canonical a) (hb : canonical b) (hb0 : value b ≠ 0)
    (hx1 : -9223372036854775808 ≤ x) (hx2 : x < 9223372036854775808)
    (hy : y < 18446744073709551616) (hfuel : 2 ≤ fuel) :
    canonical zero ∧ canonical (of_long_long x) ∧ canonical (of_unsigned_long_long y) ∧
    (∀ r, of_string str = .ok r → canonical r) ∧
    canonical (neg a) ∧ canonical (abs a) ∧ canonical (add a b) ∧ canonical (sub a b) ∧
    canonical (mul a b) ∧
    (∃ q, div fuel a b = .ok q ∧ canonical q) ∧ (∃ r, mod fuel a b = .ok r ∧ canonical r) ∧
    canonical (inc a) ∧ canonical (dec a) ∧
    (∀ c, canonical c → (c.number ≠ [] ∧ fit c = c) ∧ (value c = 0 → c = ⟨[0], false⟩)) := by
  have h1 : canonical (of_int 1) := by decide
  obtain ⟨q, e1, e2, _⟩ := div_spec fuel hfuel ha hb hb0
  obtain ⟨_, r, _, f1, _, _, _, f2, _⟩ := mod_spec fuel hfuel ha hb hb0
  refine ⟨canonical_zero, (of_long_long_spec hx1 hx2).1, (of_unsigned_long_long_spec hy).1,
    of_string_canonical str, neg_canonical ha.1, (abs_spec ha).1, add_canonical ha.1 hb.1,
    sub_canonical ha.1 hb.1, mul_canonical ha hb, ⟨q, e1, e2⟩, ⟨r, f1, f2⟩,
    add_canonical ha.1 h1.1, sub_canonical ha.1 h1.1, ?_⟩
  intro c hc
  refine ⟨⟨hc.1.1, hc.2⟩, ?_⟩
  intro hv
  exact canonical_inj hc canonical_zero (by rw [hv]; rfl)

theorem C21_arithmetic_canonical_witness :
    canonical ⟨[0, 4294967295], true⟩ ∧ canonical ⟨[4294967295], true⟩ ∧
    value ⟨[4294967295], true⟩ ≠ 0 ∧
    canonical (sub ⟨[0, 4294967295], true⟩ ⟨[4294967295], true⟩) ∧
    canonical (dec ⟨[0, 4294967295], true⟩) ∧
    (∃ r, mod 2 ⟨[0, 4294967295], true⟩ ⟨[4294967295], true⟩ = .ok r ∧ canonical r) :=
  ⟨by decide, by decide, by decide,
    (C21_arithmetic_canonical ⟨[0, 4294967295], true⟩ ⟨[4294967295], true⟩ (-5) 7
      "-0012".toList 2 (by decide) (by decide) (by decide) (by decide) (by decide) (by decide)
      (by decide)).2.2.2.2.2.2.2.1,
    (C21_arithmetic_canonical ⟨[0, 4294967295], true⟩ ⟨[4294967295], true⟩ (-5) 7
      "-0012".toList 2 (by decide) (by decide) (by decide) (by decide) (by decide) (by decide)
      (by decide)).2.2.2.2.2.2.2.2.2.2.2.2.1,
    (C21_arithmetic_canonical ⟨[0, 4294967295], true⟩ ⟨[4294967295], true⟩ (-5) 7
      "-0012".toList 2 (by decide) (by decide) (by decide) (by decide) (by decide) (by decide)
      (by decide)).2.2.2.2.2.2.2.2.2.2.1⟩

/-- C22: on canonical operands, `~`, `>>`, `|` and `^` return states that `fit` changes:
`~4294967295` and `parse("-4") >> 32` are `([0], sign)`, `4294967296 | -1` is `([0xFFFFFFFF,
0xFFFFFFFF], sign)`, and `a ^ b` for `a = ([5, 1], no sign)`, `b = ([0, 0xFFFFFFFE], sign)`
is `([5, 0xFFFFFFFF], sign)`; and `c ^ c` for `c = -4294967296`, which should be zero,
is `([0, 0, 0xFFFFFFFF], no sign)`, not the single limb `0`. -/
theorem C22_bitwise_not_canonical :
    canonical ⟨[4294967295], false⟩ ∧ canonical ⟨[4294967292], true⟩ ∧
    canonical ⟨[0, 1], false⟩ ∧ canonical (of_int (-1)) ∧
    canonical ⟨[5, 1], false⟩ ∧ canonical ⟨[0, 4294967294], true⟩ ∧
    canonical ⟨[0, 4294967295], true⟩ ∧
    fit (bnot ⟨[4294967295], false⟩) ≠ bnot ⟨[4294967295], false⟩ ∧
    fit (shr ⟨[4294967292], true⟩ 32) ≠ shr ⟨[4294967292], true⟩ 32 ∧
    fit (bit_or ⟨[0, 1], false⟩ (of_int (-1))) ≠ bit_or ⟨[0, 1], false⟩ (of_int (-1)) ∧
    bit_xor ⟨[5, 1], false⟩ ⟨[0, 4294967294], true⟩ = ⟨[5, 4294967295], true⟩ ∧
    fit (bit_xor ⟨[5, 1], false⟩ ⟨[0, 4294967294], true⟩) ≠
      bit_xor ⟨[5, 1], false⟩ ⟨[0, 4294967294], true⟩ ∧
    bit_xor ⟨[0, 4294967295], true⟩ ⟨[0, 4294967295], true⟩ ≠ ⟨[0], false⟩ := by
  refine ⟨by decide, by decide, by decide, by decide, by decide, by decide, by decide,
    by decide, by decide, by decide, by decide, by decide, by decide⟩

/-- C29: for every limb list and every sign flag, `fit` applied twice gives the same limb
list and the same sign as `fit` applied once. -/
theorem C29_fit_idempotent (number : List Nat) (sign : Bool) :
    fit (fit ⟨number, sign⟩) = fit ⟨number, sign⟩ ∧
    (fit (fit ⟨number, sign⟩)).number = (fit ⟨number, sign⟩).number ∧
    (fit (fit ⟨number, sign⟩)).sign = (fit ⟨number, sign⟩).sign := by
  have h := fit_idem ⟨number, sign⟩
  exact ⟨h, by rw [h], by rw [h]⟩

/-- C30, as the code has it: `fit` does not read bit 31 of any limb.  On a non-empty list
of limbs it drops every top limb that equals the padding of the sign (`0xFFFFFFFF` when the
sign is set, `0` when it is not) as long as more than one limb is left, which leaves the
list `core`; it then appends the one limb `0xFFFFFFFF` exactly when the sign is set and
the top limb of `core` is `0`; the single limb `0` alone is left as it is and gets `sign =
false`.  After `fit` the flag `sign` is set exactly when the represented value `sum_i
limbs[i] * 2^(32 i) - (sign ? 2^(32 len) : 0)` is negative, and for every state other than
the single limb `0` with the sign set, `fit` keeps the flag and the value. -/
theorem C30_sign_is_value_sign (number : List Nat) (sign : Bool) (hne : number ≠ [])
    (hok : limbs_ok number) :
    ((fit ⟨number, sign⟩).sign = true ↔ value (fit ⟨number, sign⟩) < 0) ∧
    ((⟨number, sign⟩ : big_integer) ≠ ⟨[0], true⟩ →
      (fit ⟨number, sign⟩).sign = sign ∧ value (fit ⟨number, sign⟩) = value ⟨number, sign⟩) ∧
    fit ⟨[0], true⟩ = ⟨[0], false⟩ ∧
    (∃ core k, number = core ++ List.replicate k (if sign = true then UINT32_MAX else 0) ∧
      core ≠ [] ∧
      (core.length = 1 ∨ core.getLastD 0 ≠ (if sign = true then UINT32_MAX else 0)) ∧
      (fit ⟨number, sign⟩).number =
        if sign = true ∧ core.getLastD 0 = 0 ∧ number ≠ [0] then core ++ [UINT32_MAX]
        else core) := by
  have hwf : wf ⟨number, sign⟩ := ⟨hne, hok⟩
  refine ⟨(value_nonneg_iff (fit_wf hwf).2).symm, fun h => ⟨fit_sign h, fit_value h⟩,
    by decide, ?_⟩
  cases number with
  | nil => exact absurd rfl hne
  | cons x xs =>
    obtain ⟨k, hk, hlast⟩ := fit_pop_spec sign xs
    have hpad : pad sign = if sign = true then UINT32_MAX else 0 := by
      unfold pad; cases sign <;> rfl
    rw [hpad] at hk hlast
    refine ⟨x :: fit_pop sign xs, k, ?_, List.cons_ne_nil _ _, ?_, ?_⟩
    · rw [List.cons_append, ← hk]
    · by_cases he : fit_pop sign xs = []
      · left; rw [he]; rfl
      · right
        obtain ⟨l1, y, hl⟩ := exists_snoc he
        rw [hl] at hlast ⊢
        rw [getLastD_cons_append_singleton]
        intro hy
        apply hlast
        rw [List.getLast?_append, hy]
        rfl
    · rw [fit_cons]
      by_cases h0 : xs = [] ∧ x = 0
      · obtain ⟨rfl, rfl⟩ := h0
        rw [if_pos ⟨rfl, rfl⟩, if_neg (by simp)]
        rfl
      · have hne0 : x :: xs ≠ [0] := by
          intro e
          injection e with e1 e2
          exact h0 ⟨e2, e1⟩
        rw [if_neg h0]
        by_cases h1 : sign = true ∧ (x :: fit_pop sign xs).getLastD 0 = 0
        · rw [if_pos h1, if_pos ⟨h1.1, h1.2, hne0⟩]
        · rw [if_neg h1, if_neg (fun hh => h1 ⟨hh.1, hh.2.1⟩)]

theorem C30_sign_is_value_sign_witness :
    limbs_ok [5, 0, 4294967295, 4294967295] ∧
    fit ⟨[5, 0, 4294967295, 4294967295], true⟩ = ⟨[5, 0, 4294967295], true⟩ ∧
    fit ⟨[1, 4294967295, 4294967295], true⟩ = ⟨[1], true⟩ ∧
    fit ⟨[5, 0, 0], false⟩ = ⟨[5], false⟩ ∧
    ((fit ⟨[5, 0, 4294967295, 4294967295], true⟩).sign = true ↔
      value (fit ⟨[5, 0, 4294967295, 4294967295], true⟩) < 0) ∧
    (∃ core k, [5, 0, 4294967295, 4294967295] =
        core ++ List.replicate k (if true = true then UINT32_MAX else 0) ∧
      core ≠ [] ∧
      (core.length = 1 ∨ core.getLastD 0 ≠ (if true = true then UINT32_MAX else 0)) ∧
      (fit ⟨[5, 0, 4294967295, 4294967295], true⟩).number =
        if true = true ∧ core.getLastD 0 = 0 ∧ [5, 0, 4294967295, 4294967295] ≠ [0] then
          core ++ [UINT32_MAX]
        else core) :=
  ⟨by decide, by decide, by decide, by decide,
    (C30_sign_is_value_sign [5, 0, 4294967295, 4294967295] true (by decide) (by decide)).1,
    (C30_sign_is_value_sign [5, 0, 4294967295, 4294967295] true (by decide) (by decide)).2.2.2⟩

/-- C30 fails as stated: `big_integer(2147483648ull)` is `([0x80000000], sign = false)`, its
top limb has bit 31 set; and `big_integer(-4294967295ll)` is `([1], sign = true)`, its top
limb has bit 31 clear. -/
theorem C30_counterexample :
    of_unsigned_long_long 2147483648 = ⟨[2147483648], false⟩ ∧
    fit ⟨[2147483648], false⟩ = ⟨[2147483648], false⟩ ∧
    ¬ ((fit ⟨[2147483648], false⟩).sign = true ↔
      (fit ⟨[2147483648], false⟩).number.getLastD 0 >>> 31 = 1) ∧
    of_long_long (-4294967295) = ⟨[1], true⟩ ∧
    fit ⟨[1, 4294967295], true⟩ = ⟨[1], true⟩ ∧
    ¬ ((fit ⟨[1, 4294967295], true⟩).sign = true ↔
      (fit ⟨[1, 4294967295], true⟩).number.getLastD 0 >>> 31 = 1) := by
  refine ⟨by decide, by decide, by decide, by decide, by decide, by decide⟩


/-! ## Claims on equality, the quotient estimate, `fit` and `add32c` -/

/-- C31: for canonical `a` and `b`, `a == b` (same sign, same limb count, same limbs)
holds exactly when `value a = value b`: the canonical form of a value is unique. -/
theorem C31_eq_is_value_equality (a b : big_integer) (ha : canonical a) (hb : canonical b) :
    (eq a b = true ↔ value a = value b) ∧
    (eq a b = true ↔
      a.sign = b.sign ∧ a.number.length = b.number.length ∧ a.number = b.number) ∧
    (value a = value b → a = b) := by
  refine ⟨?_, ?_, canonical_inj ha hb⟩
  · rw [eq_iff]
    exact ⟨fun h => by rw [h], canonical_inj ha hb⟩
  · unfold eq
    simp only [Bool.and_eq_true, beq_iff_eq, and_assoc]

theorem C31_eq_is_value_equality_witness :
    canonical ⟨[0, 4294967295], true⟩ ∧ canonical (of_long_long (-4294967296)) ∧
    (eq ⟨[0, 4294967295], true⟩ (of_long_long (-4294967296)) = true ↔
      value ⟨[0, 4294967295], true⟩ = value (of_long_long (-4294967296))) ∧
    value ⟨[0, 4294967295], true⟩ = -4294967296 :=
  ⟨by decide, by decide,
    (C31_eq_is_value_equality ⟨[0, 4294967295], true⟩ (of_long_long (-4294967296)) (by decide)
      (by decide)).1, by decide⟩

/-- C32: in the multi-limb branch of `operator/=` (the divisor `abs b` has at least two
limbs and `abs a` is not below it), with `f = 2^32 / (top limb of abs b + 1)`, `right =
fit (abs b * f)` and `left0 = abs a * f`: `f` is a `uint32_t`, the top limb of `right` is at
least `2^31`, `left0` satisfies the invariant `0 <= left < right * B ^ (i + 1)` of the
loop at its start, and in every state `left` that satisfies the invariant the estimate
`est = min(((left.myAt(i + rs) << 32) + left.myAt(i + rs - 1)) / right.number.back(),
UINT32_MAX)` is at least the true quotient limb `q = left / (right * B ^ i)` and at most
`q + 2`; the correction loop, run for at most 2 iterations, ends with the limb `q = est -
(number of iterations)`, without a wrap, and leaves a remainder that satisfies the invariant
for the next limb. -/
theorem C32_estimate_within_two (a b : big_integer) (ha : canonical a) (hb : canonical b)
    (h2 : (abs b).number.length ≠ 1) (hge : lt (abs a) (abs b) = false)
    (f : Nat) (right left0 : big_integer)
    (hf : f = B / ((abs b).number.getLastD 0 + 1))
    (hright : right = fit (mul_long_short (abs b) f))
    (hleft : left0 = mul_long_short (abs a) f) :
    f % B = f ∧ B ≤ 2 * right.number.getLastD 0 ∧
    (wf left0 ∧ 0 ≤ value left0 ∧ right.number.length ≤ left0.number.length ∧
      value left0 <
        value right * ((B ^ (left0.number.length - right.number.length) : Nat) : Int)) ∧
    (∀ (i : Nat) (left : big_integer), wf left → 0 ≤ value left →
      value left < value right * ((B ^ (i + 1) : Nat) : Int) →
      ∃ est q left1,
        est = min ((((myAt left (i + right.number.length) <<< 32) % B64 +
          myAt left (i + 1 + right.number.length - 2)) % B64) / right.number.getLastD 0)
          UINT32_MAX ∧
        q = limbs_value left.number / (limbs_value right.number * B ^ i) ∧
        q ≤ est ∧ est ≤ q + 2 ∧
        div_correct_loop (shl right (i * 32)) 2
          (sub left (shl (mul right (of_uint32 est)) (i * 32))) est = .ok (left1, q) ∧
        wf left1 ∧ 0 ≤ value left1 ∧
        value left1 < value right * ((B ^ i : Nat) : Int) ∧
        (q : Int) * (value right * ((B ^ i : Nat) : Int)) + value left1 = value left) := by
  obtain ⟨ca, sa, _, _⟩ := abs_spec ha
  obtain ⟨cb, sb, _, _⟩ := abs_spec hb
  have hge1 : limbs_value (abs b).number ≤ limbs_value (abs a).number := by
    have h := lt_nonneg ca cb sa sb
    rw [hge, value_of_sign_false sa, value_of_sign_false sb] at h
    have h3 : ¬ ((limbs_value (abs a).number : Int) < (limbs_value (abs b).number : Int)) :=
      fun hh => by simpa using h.mpr hh
    omega
  obtain ⟨n1, n2, n3, n4, n5, n6, n7, n8, n9⟩ := div_normalize_spec ca cb sb h2 hge1
  rw [← hf] at n1 n2 n3 n4 n5 n6 n7 n8 n9
  rw [← hright] at n2 n3 n4 n5 n8 n9
  rw [← hleft] at n6 n7 n8 n9
  refine ⟨n1, n5, ⟨n6, n7, n8, n9⟩, ?_⟩
  intro i left hl h0 h1
  obtain ⟨est, q, e1, e2, e3, e4, _, e6⟩ := div_step_estimate right n2 n3 n4 n5 i left hl h0 h1
  obtain ⟨left1, g1, g2, g3, g4, g5⟩ := e6 2 (by omega)
  exact ⟨est, q, left1, e1, e2, e3, e4, g1, g2, g4, g5, g3⟩

theorem C32_estimate_within_two_witness :
    canonical ⟨[7, 5, 4294967295], false⟩ ∧ canonical ⟨[1, 2], false⟩ ∧
    B ≤ 2 * (⟨[1431655765, 2863311530], false⟩ : big_integer).number.getLastD 0 ∧
    ∃ est q left1,
      est = min ((((myAt ⟨[1431655763, 2863311531, 2863311532, 1431655764], false⟩
          (1 + (⟨[1431655765, 2863311530], false⟩ : big_integer).number.length) <<< 32) % B64 +
        myAt ⟨[1431655763, 2863311531, 2863311532, 1431655764], false⟩
          (1 + 1 + (⟨[1431655765, 2863311530], false⟩ : big_integer).number.length - 2)) %
            B64) /
        (⟨[1431655765, 2863311530], false⟩ : big_integer).number.getLastD 0) UINT32_MAX ∧
      q = limbs_value
          (⟨[1431655763, 2863311531, 2863311532, 1431655764], false⟩ : big_integer).number /
        (limbs_value (⟨[1431655765, 2863311530], false⟩ : big_integer).number * B ^ 1) ∧
      q ≤ est ∧ est ≤ q + 2 ∧
      div_correct_loop (shl ⟨[1431655765, 2863311530], false⟩ (1 * 32)) 2
        (sub ⟨[1431655763, 2863311531, 2863311532, 1431655764], false⟩
          (shl (mul ⟨[1431655765, 2863311530], false⟩ (of_uint32 est)) (1 * 32))) est =
        .ok (left1, q) ∧
      wf left1 ∧ 0 ≤ value left1 ∧
      value left1 < value ⟨[1431655765, 2863311530], false⟩ * ((B ^ 1 : Nat) : Int) ∧
      (q : Int) * (value ⟨[1431655765, 2863311530], false⟩ * ((B ^ 1 : Nat) : Int)) +
        value left1 = value ⟨[1431655763, 2863311531, 2863311532, 1431655764], false⟩ :=
  ⟨by decide, by decide,
    (C32_estimate_within_two ⟨[7, 5, 4294967295], false⟩ ⟨[1, 2], false⟩ (by decide)
      (by decide) (by decide) (by decide) 1431655765 ⟨[1431655765, 2863311530], false⟩
      ⟨[1431655763, 2863311531, 2863311532, 1431655764], false⟩ (by decide) (by decide)
      (by decide)).2.1,
    (C32_estimate_within_two ⟨[7, 5, 4294967295], false⟩ ⟨[1, 2], false⟩ (by decide)
      (by decide) (by decide) (by decide) 1431655765 ⟨[1431655765, 2863311530], false⟩
      ⟨[1431655763, 2863311531, 2863311532, 1431655764], false⟩ (by decide) (by decide)
      (by decide)).2.2.2 1 ⟨[1431655763, 2863311531, 2863311532, 1431655764], false⟩
      (by decide) (by decide) (by decide)⟩

/-- C33: for every limb list and sign flag other than the single limb `0` with the sign
set, `fit` keeps the value `sum_i limbs[i] * 2^(32 i) - (sign ? 2^(32 len) : 0)`; the
excluded state has the value `-2^32` and `fit` maps it to zero. -/
theorem C33_fit_preserves_value (number : List Nat) (sign : Bool)
    (h : (⟨number, sign⟩ : big_integer) ≠ ⟨[0], true⟩) :
    value (fit ⟨number, sign⟩) = value ⟨number, sign⟩ ∧
    value ⟨number, sign⟩ =
      (limbs_value number : Int) - (if sign then ((B ^ number.length : Nat) : Int) else 0) ∧
    fit ⟨[0], true⟩ = ⟨[0], false⟩ ∧ value ⟨[0], true⟩ = -4294967296 ∧
    value (fit ⟨[0], true⟩) = 0 :=
  ⟨fit_value h, rfl, by decide, by decide, by decide⟩

theorem C33_fit_preserves_value_witness :
    fit ⟨[5, 0, 4294967295, 4294967295], true⟩ = ⟨[5, 0, 4294967295], true⟩ ∧
    value (fit ⟨[5, 0, 4294967295, 4294967295], true⟩) =
      value ⟨[5, 0, 4294967295, 4294967295], true⟩ :=
  ⟨by decide, (C33_fit_preserves_value [5, 0, 4294967295, 4294967295] true (by decide)).1⟩

/-- C35: for all 32-bit `first`, `second` and `carry` in `{0, 1}`, `add32c` stores `(first
+ second + carry) mod 2^32` in `first` and returns `(first + second + carry) / 2^32`,
which is `1` exactly when the sum does not fit in 32 bits; with `second = 0xFFFFFFFF` and
`carry = 1` it leaves `first` and returns `1`. -/
theorem C35_add32c_full_adder (first second carry : Nat) (h1 : first < B) (h2 : second < B)
    (h3 : carry ≤ 1) :
    (add32c first second carry).1 = (first + second + carry) % B ∧
    (add32c first second carry).2 = (first + second + carry) / B ∧
    ((add32c first second carry).2 = 1 ↔ B ≤ first + second + carry) ∧
    ((add32c first second carry).2 = 0 ∨ (add32c first second carry).2 = 1) ∧
    add32c first UINT32_MAX 1 = (first, 1) := by
  have hlast : add32c first UINT32_MAX 1 = (first, 1) := by
    obtain ⟨g1, g2, g3⟩ := add32c_spec h1 (show UINT32_MAX < B by decide) (le_refl 1)
    apply Prod.ext
    · show (add32c first UINT32_MAX 1).1 = first
      generalize (add32c first UINT32_MAX 1).1 = u at *
      generalize (add32c first UINT32_MAX 1).2 = v at *
      rw [B_eq] at *
      rw [UINT32_MAX_eq] at g1
      omega
    · show (add32c first UINT32_MAX 1).2 = 1
      generalize (add32c first UINT32_MAX 1).1 = u at *
      generalize (add32c first UINT32_MAX 1).2 = v at *
      rw [B_eq] at *
      rw [UINT32_MAX_eq] at g1
      omega
  obtain ⟨e1, e2, e3⟩ := add32c_spec h1 h2 h3
  generalize (add32c first second carry).1 = r at *
  generalize (add32c first second carry).2 = c at *
  rw [B_eq] at *
  exact ⟨by omega, by omega, by omega, by omega, hlast⟩

theorem C35_add32c_full_adder_witness :
    add32c 4294967295 4294967295 1 = (4294967295, 1) ∧
    (add32c 4294967295 4294967295 1).1 = (4294967295 + 4294967295 + 1) % B ∧
    (add32c 4294967295 4294967295 1).2 = (4294967295 + 4294967295 + 1) / B :=
  ⟨by decide, (C35_add32c_full_adder 4294967295 4294967295 1 (by decide) (by decide)
      (by decide)).1,
    (C35_add32c_full_adder 4294967295 4294967295 1 (by decide) (by decide) (by decide)).2.1⟩

end big_integer

namespace circular_buffer


/-! ## Slots of the storage -/

theorem cb_getD_set_self {α : Type} (l : List α) (i : Nat) (a d : α) (h : i < l.length) :
    (l.set i a).getD i d = a := by
  rw [List.getD_eq_getElem?_getD, List.getElem?_set_self h]
  rfl

theorem cb_getD_set_ne {α : Type} (l : List α) {i j : Nat} (a d : α) (h : i ≠ j) :
    (l.set i a).getD j d = l.getD j d := by
  rw [List.getD_eq_getElem?_getD, List.getElem?_set_ne h, ← List.getD_eq_getElem?_getD]

theorem cb_get_i_lt {T : Type} (b : circular_buffer T) (i : Nat) (h : b.capacity_ ≠ 0) :
    get_i b i < b.capacity_ := by
  unfold get_i
  rw [if_neg h]
  exact Nat.mod_lt _ (Nat.pos_of_ne_zero h)

/-- Two logical indices below `capacity_` do not share a slot. -/
theorem cb_get_i_inj {T : Type} (b : circular_buffer T) {i j : Nat} (hi : i < b.capacity_)
    (hj : j < b.capacity_) (h : get_i b i = get_i b j) : i = j := by
  have hc : b.capacity_ ≠ 0 := by omega
  unfold get_i at h
  rw [if_neg hc, if_neg hc] at h
  have h1 : i % b.capacity_ = j % b.capacity_ := Nat.ModEq.add_left_cancel' b.head h
  rwa [Nat.mod_eq_of_lt hi, Nat.mod_eq_of_lt hj] at h1

theorem cb_to_list_length {T : Type} (b : circular_buffer T) : (to_list b).length = b.size_ := by
  unfold to_list
  rw [List.length_map, List.length_range]

/-- Two buffers of one size whose slots agree at every logical index have the same logical
sequence. -/
theorem cb_to_list_congr {T : Type} {b c : circular_buffer T} (hs : c.size_ = b.size_)
    (h : ∀ i < b.size_, c.data_.getD (get_i c i) none = b.data_.getD (get_i b i) none) :
    to_list c = to_list b := by
  unfold to_list
  rw [hs]
  apply List.map_congr_left
  intro i hi
  exact h i (List.mem_range.mp hi)

theorem cb_to_list_succ {T : Type} {b c : circular_buffer T} (hs : c.size_ = b.size_ + 1)
    (h : ∀ i < b.size_, c.data_.getD (get_i c i) none = b.data_.getD (get_i b i) none) :
    to_list c = to_list b ++ [c.data_.getD (get_i c b.size_) none] := by
  unfold to_list
  rw [hs, List.range_succ, List.map_append, List.map_singleton]
  congr 1
  apply List.map_congr_left
  intro i hi
  exact h i (List.mem_range.mp hi)

/-! ## The reallocating constructor -/

theorem cb_copy_loop_length {T : Type} (data : List (Option T)) (capacity head_ : Nat) (n : Nat) :
    ∀ (s : Nat) (nd : List (Option T)),
      (copy_loop data capacity head_ n s nd).length = nd.length := by
  induction n with
  | zero => intro s nd; rfl
  | succ n ih =>
    intro s nd
    show (copy_loop data capacity head_ n (s + 1) _).length = _
    rw [ih, List.length_set]

theorem cb_copy_loop_getD {T : Type} (data : List (Option T)) (capacity head_ : Nat) (n : Nat) :
    ∀ (s : Nat) (nd : List (Option T)) (j : Nat), s + n ≤ nd.length →
      (copy_loop data capacity head_ n s nd).getD j none =
        if s ≤ j ∧ j < s + n then data.getD ((head_ + j) % capacity) none
        else nd.getD j none := by
  induction n with
  | zero =>
    intro s nd j _
    rw [if_neg (by omega)]
    rfl
  | succ n ih =>
    intro s nd j hlen
    show (copy_loop data capacity head_ n (s + 1) _).getD j none = _
    rw [ih (s + 1) _ j (by rw [List.length_set]; omega)]
    by_cases hj : s + 1 ≤ j ∧ j < s + 1 + n
    · rw [if_pos hj, if_pos (by omega)]
    · rw [if_neg hj]
      by_cases hs : j = s
      · subst hs
        rw [if_pos (by omega), cb_getD_set_self _ _ _ _ (by omega)]
      · rw [if_neg (by omega), cb_getD_set_ne _ _ _ (fun h => hs h.symm)]

/-- The member `realloc(new_capacity)` with room for the elements: the logical sequence is
kept, stored from slot `0` on. -/
theorem cb_realloc_spec {T : Type} (b : circular_buffer T) (nc : Nat) (hwf : wf b)
    (hnc : b.size_ ≤ nc) :
    wf (realloc b nc) ∧ (realloc b nc).size_ = b.size_ ∧ (realloc b nc).capacity_ = nc ∧
    (realloc b nc).head = 0 ∧
    (∀ i < b.size_, (realloc b nc).data_.getD i none = b.data_.getD (get_i b i) none) ∧
    to_list (realloc b nc) = to_list b := by
  obtain ⟨h1, h2, h3⟩ := hwf
  by_cases hc : b.capacity_ = 0
  · have hs : b.size_ = 0 := by omega
    have hr : realloc b nc = ⟨List.replicate nc none, 0, 0, nc⟩ := by
      unfold realloc copy_from
      rw [if_neg (by rw [not_not]; exact hc)]
    rw [hr]
    refine ⟨⟨by simp, by simp, fun h => Nat.pos_of_ne_zero h⟩, hs.symm, rfl, rfl, ?_, ?_⟩
    · intro i hi; omega
    · unfold to_list; rw [hs]; rfl
  · have hr : realloc b nc =
        ⟨copy_loop b.data_ b.capacity_ b.head b.size_ 0 (List.replicate nc none), 0, b.size_,
          nc⟩ := by
      unfold realloc copy_from
      rw [if_pos hc]
    have hget : ∀ i < b.size_, (realloc b nc).data_.getD i none =
        b.data_.getD (get_i b i) none := by
      intro i hi
      rw [hr]
      show (copy_loop _ _ _ _ _ _).getD i none = _
      rw [cb_copy_loop_getD _ _ _ _ _ _ _ (by rw [List.length_replicate]; omega),
        if_pos (by omega)]
      unfold get_i
      rw [if_neg hc]
    refine ⟨?_, by rw [hr], by rw [hr], by rw [hr], hget, ?_⟩
    · rw [hr]
      refine ⟨?_, hnc, fun h => Nat.pos_of_ne_zero h⟩
      show (copy_loop _ _ _ _ _ _).length = nc
      rw [cb_copy_loop_length, List.length_replicate]
    · apply cb_to_list_congr (by rw [hr])
      intro i hi
      have hgi : get_i (realloc b nc) i = i := by
        rw [hr]
        unfold get_i
        show (if nc = 0 then 0 else (0 + i) % nc) = i
        rw [if_neg (by omega), Nat.zero_add, Nat.mod_eq_of_lt (by omega)]
      rw [hgi]
      exact hget i hi


/-! ## The members `push_back`, `pop_back` and `pop_front` -/

/-- The member `push_back(val)` on a state that satisfies the class invariant. -/
theorem cb_push_back_spec {T : Type} (b : circular_buffer T) (x : T) (hwf : wf b) :
    wf (push_back b x) ∧ (push_back b x).size_ = b.size_ + 1 ∧
    (∀ i < b.size_, subscript (push_back b x) i = subscript b i) ∧
    to_list (push_back b x) = to_list b ++ [some x] := by
  by_cases hfull : b.size_ = b.capacity_
  · have hnc : b.size_ < get_new_capacity b := by
      unfold get_new_capacity
      split <;> omega
    obtain ⟨r1, r2, r3, r4, r5, _⟩ := cb_realloc_spec b (get_new_capacity b) hwf (by omega)
    have hp : push_back b x =
        { realloc b (get_new_capacity b) with
          data_ := (realloc b (get_new_capacity b)).data_.set
            (realloc b (get_new_capacity b)).size_ (some x),
          size_ := (realloc b (get_new_capacity b)).size_ + 1 } := by
      unfold push_back
      rw [if_pos hfull]
    generalize realloc b (get_new_capacity b) = r at *
    have hgi : ∀ i ≤ b.size_, get_i (push_back b x) i = i := by
      intro i hi
      rw [hp]
      unfold get_i
      show (if r.capacity_ = 0 then 0 else (r.head + i) % r.capacity_) = i
      rw [if_neg (by omega), r4, Nat.zero_add, Nat.mod_eq_of_lt (by omega)]
    have hold : ∀ i < b.size_, (push_back b x).data_.getD (get_i (push_back b x) i) none =
        b.data_.getD (get_i b i) none := by
      intro i hi
      rw [hgi i (by omega), hp]
      show (r.data_.set r.size_ (some x)).getD i none = _
      rw [cb_getD_set_ne _ _ _ (by omega)]
      exact r5 i hi
    have hsz : (push_back b x).size_ = b.size_ + 1 := by rw [hp]; show r.size_ + 1 = _; rw [r2]
    refine ⟨?_, hsz, hold, ?_⟩
    · rw [hp]
      refine ⟨?_, ?_, ?_⟩
      · show (r.data_.set r.size_ (some x)).length = r.capacity_
        rw [List.length_set]; exact r1.1
      · show r.size_ + 1 ≤ r.capacity_
        omega
      · exact r1.2.2
    · rw [cb_to_list_succ hsz hold, hgi _ (le_refl _), hp]
      show to_list b ++ [(r.data_.set r.size_ (some x)).getD b.size_ none] = _
      rw [← r2, cb_getD_set_self _ _ _ _ (by rw [r1.1]; omega)]
  · obtain ⟨h1, h2, h3⟩ := hwf
    have hp : push_back b x =
        { b with data_ := b.data_.set (get_i b b.size_) (some x), size_ := b.size_ + 1 } := by
      unfold push_back
      rw [if_neg hfull]
    have hc : b.capacity_ ≠ 0 := by omega
    have hgi : ∀ i, get_i (push_back b x) i = get_i b i := by
      intro i; rw [hp]; rfl
    have hold : ∀ i < b.size_, (push_back b x).data_.getD (get_i (push_back b x) i) none =
        b.data_.getD (get_i b i) none := by
      intro i hi
      rw [hgi, hp]
      show (b.data_.set (get_i b b.size_) (some x)).getD (get_i b i) none = _
      rw [cb_getD_set_ne]
      intro he
      have := cb_get_i_inj b (by omega) (by omega) he
      omega
    have hsz : (push_back b x).size_ = b.size_ + 1 := by rw [hp]
    refine ⟨?_, hsz, hold, ?_⟩
    · rw [hp]
      refine ⟨?_, ?_, h3⟩
      · show (b.data_.set _ _).length = b.capacity_
        rw [List.length_set]; exact h1
      · show b.size_ + 1 ≤ b.capacity_
        omega
    · rw [cb_to_list_succ hsz hold, hgi, hp]
      show to_list b ++ [(b.data_.set (get_i b b.size_) (some x)).getD (get_i b b.size_) none] = _
      rw [cb_getD_set_self _ _ _ _ (by rw [h1]; exact cb_get_i_lt b _ hc)]

theorem cb_range_dropLast (n : Nat) : (List.range n).dropLast = List.range (n - 1) := by
  cases n with
  | zero => rfl
  | succ n => rw [List.range_succ, List.dropLast_concat]; rfl

/-- The member `pop_back()` on a non-empty state that satisfies the class invariant. -/
theorem cb_pop_back_spec {T : Type} (b : circular_buffer T) (hwf : wf b) (hne : b.size_ ≠ 0) :
    ∃ c, pop_back b = some c ∧ wf c ∧ c.size_ = b.size_ - 1 ∧
      to_list c = (to_list b).dropLast := by
  obtain ⟨h1, h2, h3⟩ := hwf
  have hp : pop_back b = some { b with
      data_ := b.data_.set (get_i b (b.size_ - 1)) none, size_ := b.size_ - 1 } := by
    unfold pop_back
    rw [if_neg hne]
    rfl
  refine ⟨_, hp, ⟨?_, ?_, h3⟩, rfl, ?_⟩
  · show (b.data_.set _ _).length = b.capacity_
    rw [List.length_set]; exact h1
  · show b.size_ - 1 ≤ b.capacity_
    omega
  · unfold to_list
    rw [← List.map_dropLast, cb_range_dropLast]
    apply List.map_congr_left
    intro i hi
    have hi1 : i < b.size_ - 1 := List.mem_range.mp hi
    show (b.data_.set (get_i b (b.size_ - 1)) none).getD (get_i b i) none = _
    rw [cb_getD_set_ne]
    intro he
    have := cb_get_i_inj b (by omega) (by omega) he
    omega

/-- The member `pop_front()` on a non-empty state that satisfies the class invariant. -/
theorem cb_pop_front_spec {T : Type} (b : circular_buffer T) (hwf : wf b) (hne : b.size_ ≠ 0) :
    ∃ c, pop_front b = some c ∧ wf c ∧ c.size_ = b.size_ - 1 ∧
      to_list c = (to_list b).tail := by
  obtain ⟨h1, h2, h3⟩ := hwf
  have hc : b.capacity_ ≠ 0 := by omega
  have hh := h3 hc
  have hp : pop_front b = some { b with
      data_ := b.data_.set b.head none, head := (b.head + 1) % b.capacity_,
      size_ := b.size_ - 1 } := by
    unfold pop_front
    rw [if_neg hne]
  refine ⟨_, hp, ⟨?_, ?_, ?_⟩, rfl, ?_⟩
  · show (b.data_.set _ _).length = b.capacity_
    rw [List.length_set]; exact h1
  · show b.size_ - 1 ≤ b.capacity_
    omega
  · intro _
    exact Nat.mod_lt _ (Nat.pos_of_ne_zero hc)
  · obtain ⟨n, hn⟩ : ∃ n, b.size_ = n + 1 := ⟨b.size_ - 1, by omega⟩
    unfold to_list
    show List.map _ (List.range (b.size_ - 1)) = _
    rw [hn, List.range_succ_eq_map, List.map_cons, List.tail_cons, List.map_map,
      Nat.add_sub_cancel]
    apply List.map_congr_left
    intro i hi
    have hi1 := List.mem_range.mp hi
    have h0 : b.head = get_i b 0 := by
      unfold get_i
      rw [if_neg hc, Nat.add_zero, Nat.mod_eq_of_lt hh]
    have hgi : ∀ sz : Nat, get_i (T := T) ⟨b.data_.set b.head none,
        (b.head + 1) % b.capacity_, sz, b.capacity_⟩ i = get_i b (i + 1) := by
      intro sz
      unfold get_i
      show (if b.capacity_ = 0 then 0 else ((b.head + 1) % b.capacity_ + i) % b.capacity_) = _
      rw [if_neg hc, if_neg hc, Nat.mod_add_mod]
      congr 1
      omega
    show (b.data_.set b.head none).getD (get_i _ i) none = _
    rw [hgi, cb_getD_set_ne]
    · rfl
    · intro he
      rw [h0] at he
      have := cb_get_i_inj b (by omega) (by omega) he
      omega


/-- The branch `size_ == capacity_` of `push_front(val)`: after the reallocation the value
goes to the last slot, which becomes the head. -/
theorem cb_push_front_full_spec {T : Type} (b : circular_buffer T) (x : T) (hwf : wf b)
    (hne : b.size_ ≠ 0) (hfull : b.size_ = b.capacity_) :
    ∃ c, push_front b x = some c ∧ wf c ∧ c.size_ = b.size_ + 1 ∧
      to_list c = some x :: to_list b := by
  have hnc : get_new_capacity b = b.capacity_ * 2 := by
    unfold get_new_capacity
    rw [if_neg (by omega)]
  obtain ⟨r1, r2, r3, r4, r5, _⟩ := cb_realloc_spec b (get_new_capacity b) hwf (by omega)
  have hp : push_front b x = some
      { realloc b (get_new_capacity b) with
        data_ := (realloc b (get_new_capacity b)).data_.set
          ((realloc b (get_new_capacity b)).capacity_ - 1) (some x),
        head := (realloc b (get_new_capacity b)).capacity_ - 1,
        size_ := (realloc b (get_new_capacity b)).size_ + 1 } := by
    unfold push_front
    rw [if_neg hne, if_pos hfull]
  generalize realloc b (get_new_capacity b) = r at *
  rw [hnc] at r3
  refine ⟨_, hp, ⟨?_, ?_, ?_⟩, ?_, ?_⟩
  · show (r.data_.set _ _).length = r.capacity_
    rw [List.length_set]; exact r1.1
  · show r.size_ + 1 ≤ r.capacity_
    omega
  · intro _
    show r.capacity_ - 1 < r.capacity_
    omega
  · show r.size_ + 1 = _
    rw [r2]
  · have hgi : ∀ (sz i : Nat), i < r.capacity_ →
        get_i (T := T) ⟨r.data_.set (r.capacity_ - 1) (some x), r.capacity_ - 1, sz,
          r.capacity_⟩ i = if i = 0 then r.capacity_ - 1 else i - 1 := by
      intro sz i hi
      unfold get_i
      show (if r.capacity_ = 0 then 0 else (r.capacity_ - 1 + i) % r.capacity_) = _
      rw [if_neg (by omega)]
      by_cases h0 : i = 0
      · rw [if_pos h0, h0, Nat.add_zero, Nat.mod_eq_of_lt (by omega)]
      · rw [if_neg h0, show r.capacity_ - 1 + i = (i - 1) + r.capacity_ by omega,
          Nat.add_mod_right, Nat.mod_eq_of_lt (by omega)]
    unfold to_list
    show List.map _ (List.range (r.size_ + 1)) = _
    rw [List.range_succ_eq_map, List.map_cons, List.map_map]
    congr 1
    · show (r.data_.set (r.capacity_ - 1) (some x)).getD (get_i _ 0) none = some x
      rw [hgi _ 0 (by omega), if_pos rfl, cb_getD_set_self _ _ _ _ (by rw [r1.1]; omega)]
    · rw [r2]
      apply List.map_congr_left
      intro i hi
      have hi1 := List.mem_range.mp hi
      show (r.data_.set (r.capacity_ - 1) (some x)).getD (get_i _ (i + 1)) none = _
      rw [hgi _ (i + 1) (by omega), if_neg (by omega), Nat.add_sub_cancel,
        cb_getD_set_ne _ _ _ (by omega)]
      exact r5 i hi1

/-- The size of a buffer that holds the sequence `s`. -/
theorem cb_holds_size {T : Type} {b : circular_buffer T} {s : List T} (h : holds b s) :
    b.size_ = s.length := by
  have := cb_to_list_length b
  rw [h.2, List.length_map] at this
  exact this.symm

/-- Iterator arithmetic in a non-empty buffer: `begin() + k` and `end() - (n - k)` are the
same iterator, for `k <= n = size()`. -/
theorem cb_begin_add_eq_end_sub {T : Type} (b : circular_buffer T) (k : Nat)
    (hne : b.size_ ≠ 0) (hk : k ≤ b.size_) (hsz : b.size_ < SIZE_RANGE) :
    it_add b (begin_ b) k = it_sub (end_ b) ((b.size_ - k : Nat) : Int) ∧
    (k = b.size_ → it_add b (begin_ b) k = end_ b) := by
  have hS : SIZE_RANGE = 18446744073709551616 := rfl
  have hb : begin_ b = ⟨0, false⟩ := by
    unfold begin_ empty
    rw [decide_eq_false hne]
  have he : end_ b = ⟨b.size_ - 1, true⟩ := by
    unfold end_
    rw [if_neg hne]
  rw [hb, he]
  unfold it_add it_sub to_size_t
  simp only [Nat.zero_add]
  rw [hS] at hsz ⊢
  rw [Nat.mod_eq_of_lt (by omega)]
  by_cases hkn : k = b.size_
  · subst hkn
    rw [if_pos rfl, Nat.sub_self, if_neg (by simp)]
    have e1 : (((b.size_ : Int) - 1) % ((18446744073709551616 : Nat) : Int)).toNat =
        b.size_ - 1 := by omega
    have e2 : ((((b.size_ - 1 : Nat) : Int) - ((0 : Nat) : Int)) %
        ((18446744073709551616 : Nat) : Int)).toNat = b.size_ - 1 := by omega
    rw [e1, e2]
    exact ⟨rfl, fun _ => rfl⟩
  · rw [if_neg hkn, if_pos ⟨trivial, by omega⟩]
    have e1 : ((((b.size_ - 1 : Nat) : Int) - (((b.size_ - k : Nat) : Int) - 1)) %
        ((18446744073709551616 : Nat) : Int)).toNat = k := by omega
    rw [e1]
    exact ⟨rfl, fun h => absurd h hkn⟩


/-! ## Claims on the circular buffer -/

/-- C23: on the buffer `{1, 2, 3}` made by `push_back` (capacity 4, so not full),
`push_front(5)` moves `head` to the slot of the last element and writes there: the logical
sequence becomes `5`, an unconstructed slot, `1`, `2`, not `{5, 1, 2, 3}`.  The same happens
after a `pop_back` and after `reserve`; on the full buffer `{1, 2, 3, 4}` the result is
`{5, 1, 2, 3, 4}`. -/
theorem C23_push_front_not_full :
    holds (mass_push_back create [1, 2, 3]) [1, 2, 3] ∧
    (mass_push_back (create : circular_buffer Nat) [1, 2, 3]).capacity_ = 4 ∧
    (push_front (mass_push_back create [1, 2, 3]) 5).map to_list =
      some [some 5, none, some 1, some 2] ∧
    (push_front (mass_push_back create [1, 2, 3]) 5).map to_list ≠
      some ([5, 1, 2, 3].map some) ∧
    ((pop_back (mass_push_back create [1, 2, 3, 4])).bind fun c => push_front c 5).map to_list =
      some [some 5, none, some 1, some 2] ∧
    (push_front (reserve (push_back create 1) 4) 2).map to_list = some [some 2, none] ∧
    (push_front (mass_push_back create [1, 2, 3, 4]) 5).map to_list =
      some ([5, 1, 2, 3, 4].map some) := by
  refine ⟨by decide, by decide, by decide, by decide, by decide, by decide, by decide⟩

/-- C24: on the full buffer `{1, ..., 8}`, `insert(begin() + 2, 9)` takes the branch
that shifts from the front (`2 * 2 < 8`) and leaves `{2, 9, 1, 3, 4, 5, 6, 7, 8}`, not
`{1, 2, 9, 3, 4, 5, 6, 7, 8}`: its loop swaps every slot `i < save_pos` with the fixed slot
`save_pos`.  The returned iterator is `begin() + 2`, and it refers to `1`.  With `k = 1` on
`{1, 2, 3, 4}` (the test `insert_2`) the result is `{1, 5, 2, 3, 4}`. -/
theorem C24_insert_front_branch :
    holds (mass_push_back create [1, 2, 3, 4, 5, 6, 7, 8]) [1, 2, 3, 4, 5, 6, 7, 8] ∧
    (insert (mass_push_back create [1, 2, 3, 4, 5, 6, 7, 8])
        (it_add (mass_push_back (create : circular_buffer Nat) [1, 2, 3, 4, 5, 6, 7, 8])
          (begin_ (mass_push_back (create : circular_buffer Nat) [1, 2, 3, 4, 5, 6, 7, 8])) 2)
        9).map (fun r => (to_list r.1, r.2, subscript r.1 r.2.pos)) =
      some ([2, 9, 1, 3, 4, 5, 6, 7, 8].map some, ⟨2, false⟩, some 1) ∧
    (insert (mass_push_back create [1, 2, 3, 4, 5, 6, 7, 8])
        (it_add (mass_push_back (create : circular_buffer Nat) [1, 2, 3, 4, 5, 6, 7, 8])
          (begin_ (mass_push_back (create : circular_buffer Nat) [1, 2, 3, 4, 5, 6, 7, 8])) 2)
        9).map (fun r => to_list r.1) ≠
      some ([1, 2, 9, 3, 4, 5, 6, 7, 8].map some) ∧
    (insert (mass_push_back create [1, 2, 3, 4])
        (it_add (mass_push_back (create : circular_buffer Nat) [1, 2, 3, 4])
          (begin_ (mass_push_back (create : circular_buffer Nat) [1, 2, 3, 4])) 1)
        5).map (fun r => (to_list r.1, r.2)) =
      some ([1, 5, 2, 3, 4].map some, ⟨1, false⟩) := by
  refine ⟨by decide, by decide, by decide, by decide⟩

/-- C25: on the buffer `{1, 2, 3, 4, 5, 6}`, `erase(begin() + 2)` takes the branch that
shifts the prefix (`2 < 6 - 3`) and leaves `{3, 1, 4, 5, 6}`, not `{1, 2, 4, 5, 6}`: its
loop moves the prefix up by `cnt = 1` from the lowest index on, so the moved slots overlap
when the prefix is longer than `cnt`.  And `erase(begin() + 4, begin() + 4)` on `{1, 2, 3,
4}` returns the iterator `(3, not end)`, which is not `begin() + 4`.  With `begin() + 1`
on `{1, 2, 3, 4}` (the test `erase_2`) the result is `{1, 3, 4}`. -/
theorem C25_erase_front_branch :
    holds (mass_push_back create [1, 2, 3, 4, 5, 6]) [1, 2, 3, 4, 5, 6] ∧
    (erase_one (mass_push_back create [1, 2, 3, 4, 5, 6])
        (it_add (mass_push_back (create : circular_buffer Nat) [1, 2, 3, 4, 5, 6])
          (begin_ (mass_push_back (create : circular_buffer Nat) [1, 2, 3, 4, 5, 6])) 2)).map
        (fun r => (to_list r.1, r.2)) =
      some ([3, 1, 4, 5, 6].map some, ⟨2, false⟩) ∧
    (erase_one (mass_push_back create [1, 2, 3, 4, 5, 6])
        (it_add (mass_push_back (create : circular_buffer Nat) [1, 2, 3, 4, 5, 6])
          (begin_ (mass_push_back (create : circular_buffer Nat) [1, 2, 3, 4, 5, 6])) 2)).map
        (fun r => to_list r.1) ≠
      some ([1, 2, 4, 5, 6].map some) ∧
    (erase (mass_push_back create [1, 2, 3, 4])
        (it_add (mass_push_back (create : circular_buffer Nat) [1, 2, 3, 4])
          (begin_ (mass_push_back (create : circular_buffer Nat) [1, 2, 3, 4])) 4)
        (it_add (mass_push_back (create : circular_buffer Nat) [1, 2, 3, 4])
          (begin_ (mass_push_back (create : circular_buffer Nat) [1, 2, 3, 4])) 4)).map
        (fun r => (to_list r.1, r.2, it_add r.1 (begin_ r.1) 4)) =
      some ([1, 2, 3, 4].map some, ⟨3, false⟩, ⟨3, true⟩) ∧
    (erase_one (mass_push_back create [1, 2, 3, 4])
        (it_add (mass_push_back (create : circular_buffer Nat) [1, 2, 3, 4])
          (begin_ (mass_push_back (create : circular_buffer Nat) [1, 2, 3, 4])) 1)).map
        (fun r => (to_list r.1, r.2)) =
      some ([1, 3, 4].map some, ⟨1, false⟩) := by
  refine ⟨by decide, by decide, by decide, by decide, by decide⟩

/-- C26: for every buffer that satisfies the class invariant and holds the sequence `s`
(any head, wrapped contents, capacity `0`), `push_back(x)` gives a buffer that holds `s`
followed by `x`; `size()` grows by one, `operator[]` returns the same slot at every index
`i < size()` as before, and `empty()` is false. -/
theorem C26_push_back (T : Type) (b : circular_buffer T) (s : List T) (x : T)
    (h : holds b s) :
    holds (push_back b x) (s ++ [x]) ∧ size (push_back b x) = size b + 1 ∧
    (∀ i < size b, subscript (push_back b x) i = subscript b i) ∧
    empty (push_back b x) = false := by
  obtain ⟨p1, p2, p3, p4⟩ := cb_push_back_spec b x h.1
  refine ⟨⟨p1, ?_⟩, p2, p3, ?_⟩
  · rw [p4, h.2, List.map_append, List.map_singleton]
  · unfold empty
    rw [p2]
    exact decide_eq_false (by omega)

theorem C26_push_back_witness :
    holds (⟨[some 3, none, some 1, some 2], 2, 3, 4⟩ : circular_buffer Nat) [1, 2, 3] ∧
    holds (push_back (⟨[some 3, none, some 1, some 2], 2, 3, 4⟩ : circular_buffer Nat) 7)
      ([1, 2, 3] ++ [7]) ∧
    holds (create : circular_buffer Nat) [] ∧
    holds (push_back (create : circular_buffer Nat) 7) ([] ++ [7]) :=
  ⟨by decide,
    (C26_push_back Nat ⟨[some 3, none, some 1, some 2], 2, 3, 4⟩ [1, 2, 3] 7 (by decide)).1,
    by decide, (C26_push_back Nat create [] 7 (by decide)).1⟩

/-- C27: for every buffer that satisfies the class invariant and holds a non-empty sequence
`s` (any head, also `head = capacity - 1`), `pop_front()` gives a buffer that holds `s`
without its first element and `pop_back()` one that holds `s` without its last element;
`size()` drops by one in both. -/
theorem C27_pop_front_pop_back (T : Type) (b : circular_buffer T) (s : List T)
    (h : holds b s) (hne : s ≠ []) :
    (∃ c, pop_front b = some c ∧ holds c s.tail ∧ size c = size b - 1) ∧
    (∃ c, pop_back b = some c ∧ holds c s.dropLast ∧ size c = size b - 1) := by
  have hsz : b.size_ ≠ 0 := by
    rw [cb_holds_size h]
    exact fun h0 => hne (List.length_eq_zero.mp h0)
  obtain ⟨c, f1, f2, f3, f4⟩ := cb_pop_front_spec b h.1 hsz
  obtain ⟨d, g1, g2, g3, g4⟩ := cb_pop_back_spec b h.1 hsz
  refine ⟨⟨c, f1, ⟨f2, ?_⟩, f3⟩, ⟨d, g1, ⟨g2, ?_⟩, g3⟩⟩
  · rw [f4, h.2, List.map_tail]
  · rw [g4, h.2, List.map_dropLast]

theorem C27_pop_front_pop_back_witness :
    holds (⟨[some 2, some 3, none, some 1], 3, 3, 4⟩ : circular_buffer Nat) [1, 2, 3] ∧
    (∃ c, pop_front (⟨[some 2, some 3, none, some 1], 3, 3, 4⟩ : circular_buffer Nat) = some c ∧
      holds c [1, 2, 3].tail ∧
      size c = size (⟨[some 2, some 3, none, some 1], 3, 3, 4⟩ : circular_buffer Nat) - 1) ∧
    (∃ c, pop_back (⟨[some 2, some 3, none, some 1], 3, 3, 4⟩ : circular_buffer Nat) = some c ∧
      holds c [1, 2, 3].dropLast ∧
      size c = size (⟨[some 2, some 3, none, some 1], 3, 3, 4⟩ : circular_buffer Nat) - 1) :=
  ⟨by decide,
    C27_pop_front_pop_back Nat ⟨[some 2, some 3, none, some 1], 3, 3, 4⟩ [1, 2, 3] (by decide)
      (by decide)⟩

/-- C28: in the empty buffer `begin() + 0` is the iterator `(2^64 - 1, end)`: `operator+=`
finds `pos == size_` at `pos = 0` and decrements `pos`, which wraps.  It is `==` neither to
`end()` nor to `end() - 0`, which are `(0, end)`, while `begin() == end()` holds.  In the
buffer `{1, 2, 3, 4}`, `begin() + 2 == end() - 2` and `begin() + 4 == end()` hold. -/
theorem C28_begin_plus_zero_empty :
    it_add (create : circular_buffer Nat) (begin_ (create : circular_buffer Nat)) 0 =
      ⟨18446744073709551615, true⟩ ∧
    end_ (create : circular_buffer Nat) = ⟨0, true⟩ ∧
    it_sub (end_ (create : circular_buffer Nat)) 0 = ⟨0, true⟩ ∧
    it_eq (it_add (create : circular_buffer Nat) (begin_ (create : circular_buffer Nat)) 0)
      (it_sub (end_ (create : circular_buffer Nat)) 0) = false ∧
    it_eq (it_add (create : circular_buffer Nat) (begin_ (create : circular_buffer Nat)) 0)
      (end_ (create : circular_buffer Nat)) = false ∧
    it_eq (begin_ (create : circular_buffer Nat)) (end_ (create : circular_buffer Nat)) = true ∧
    it_eq (it_add (mass_push_back (create : circular_buffer Nat) [1, 2, 3, 4])
        (begin_ (mass_push_back (create : circular_buffer Nat) [1, 2, 3, 4])) 2)
      (it_sub (end_ (mass_push_back (create : circular_buffer Nat) [1, 2, 3, 4])) 2) = true ∧
    it_eq (it_add (mass_push_back (create : circular_buffer Nat) [1, 2, 3, 4])
        (begin_ (mass_push_back (create : circular_buffer Nat) [1, 2, 3, 4])) 4)
      (end_ (mass_push_back (create : circular_buffer Nat) [1, 2, 3, 4])) = true := by
  refine ⟨by decide, by decide, by decide, by decide, by decide, by decide, by decide,
    by decide⟩

end circular_buffer

namespace substr


/-! ## Prefixes of the pattern that end a text -/

theorem take_succ_getD (p : List Nat) {j : Nat} (h : j < p.length) :
    p.take (j + 1) = p.take j ++ [p.getD j 0] := by
  rw [List.take_succ, List.getD_eq_getElem?_getD, List.getElem?_eq_getElem h]
  rfl

theorem length_take_le (p : List Nat) {j : Nat} (h : j ≤ p.length) : (p.take j).length = j := by
  rw [List.length_take]
  exact Nat.min_eq_left h

theorem concat_suffix_concat (x w : List Nat) (a b : Nat) :
    x ++ [a] <:+ w ++ [b] ↔ x <:+ w ∧ a = b := by
  constructor
  · rintro ⟨t, ht⟩
    have h1 : (t ++ x) ++ [a] = w ++ [b] := by rw [← ht, List.append_assoc]
    have h2 := List.append_inj' h1 rfl
    exact ⟨⟨t, h2.1⟩, by simpa using h2.2⟩
  · rintro ⟨⟨t, ht⟩, rfl⟩
    exact ⟨t, by rw [← ht, List.append_assoc]⟩

/-- A longer prefix of the pattern ends the text with one more character exactly when the
prefix one shorter ends the text and the next character of the pattern is the new one. -/
theorem take_succ_suffix (p w : List Nat) (b : Nat) {j : Nat} (h : j < p.length) :
    p.take (j + 1) <:+ w ++ [b] ↔ p.take j <:+ w ∧ p.getD j 0 = b := by
  rw [take_succ_getD p h, concat_suffix_concat]

/-- Of two prefixes of the pattern that end one text, the shorter ends the longer. -/
theorem take_suffix_take (p w : List Nat) {j k : Nat} (hjk : j ≤ k) (hk : k ≤ p.length)
    (h1 : p.take j <:+ w) (h2 : p.take k <:+ w) : p.take j <:+ p.take k := by
  apply List.suffix_of_suffix_length_le h1 h2
  rw [length_take_le p (by omega), length_take_le p hk]
  exact hjk

theorem take_take_le (p : List Nat) {j m : Nat} (h : j ≤ m) : (p.take m).take j = p.take j := by
  rw [List.take_take, Nat.min_eq_left h]

/-- The longest border of `p[0..m-1]`, read on the prefixes of `p`. -/
theorem longest_border_take (p : List Nat) {m k : Nat} (hm : m ≤ p.length) :
    longest_border (p.take m) k ↔
      k < m ∧ p.take k <:+ p.take m ∧ ∀ j, j < m → p.take j <:+ p.take m → j ≤ k := by
  unfold longest_border
  rw [length_take_le p hm]
  constructor
  · rintro ⟨h1, h2, h3⟩
    refine ⟨h1, by rwa [take_take_le p (by omega)] at h2, ?_⟩
    intro j hj hs
    exact h3 j hj (by rwa [take_take_le p (by omega)])
  · rintro ⟨h1, h2, h3⟩
    refine ⟨h1, by rwa [take_take_le p (by omega)], ?_⟩
    intro j hj hs
    rw [take_take_le p (by omega)] at hs
    exact h3 j hj hs

/-- The longest border of `p[0..m-1]` is the state of the search after the text `p[1..m-1]`. -/
theorem longest_border_iff_max_state (p : List Nat) {m k : Nat} (hm : m ≤ p.length)
    (hm0 : 0 < m) : longest_border (p.take m) k ↔ max_state p (p.take m).tail k := by
  rw [longest_border_take p hm]
  have hlen : (p.take m).tail.length = m - 1 := by
    rw [List.length_tail, length_take_le p hm]
  have htail : (p.take m).tail <:+ p.take m := List.tail_suffix _
  unfold max_state
  constructor
  · rintro ⟨h1, h2, h3⟩
    refine ⟨by omega, ?_, ?_⟩
    · apply List.suffix_of_suffix_length_le h2 htail
      rw [hlen, length_take_le p (by omega)]
      omega
    · intro j hj hs
      have hl := hs.length_le
      rw [hlen, length_take_le p hj] at hl
      exact h3 j (by omega) (hs.trans htail)
  · rintro ⟨h1, h2, h3⟩
    have hl := h2.length_le
    rw [hlen, length_take_le p h1] at hl
    refine ⟨by omega, h2.trans htail, ?_⟩
    intro j hj hs
    apply h3 j (by omega)
    apply List.suffix_of_suffix_length_le hs htail
    rw [hlen, length_take_le p (by omega)]
    omega

/-- The text `p[1..i]` is the text `p[1..i-1]` with the character `p[i]` added. -/
theorem tail_take_succ (p : List Nat) {i : Nat} (hi : i < p.length) (hi0 : 0 < i) :
    (p.take (i + 1)).tail = (p.take i).tail ++ [p.getD i 0] := by
  rw [take_succ_getD p hi]
  cases hp : p.take i with
  | nil =>
    have := length_take_le p (Nat.le_of_lt hi)
    rw [hp] at this
    simp at this
    omega
  | cons x xs => rfl

theorem max_state_nil (p : List Nat) : max_state p [] 0 := by
  refine ⟨Nat.zero_le _, List.nil_suffix, ?_⟩
  intro j hj hs
  have := hs.length_le
  rw [length_take_le p hj] at this
  exact this


/-! ## The function `recalc_pref_func` -/

theorem char_at_lt (a : List Nat) {i : Nat} (h : i < a.length) :
    char_at a i = .ok (a.getD i 0) := by
  unfold char_at
  rw [if_pos h]

theorem tab_at_lt (tab : List Nat) {i : Nat} (h : i < tab.length) :
    tab_at tab i = .ok (tab.getD i 0) := by
  unfold tab_at
  rw [if_pos h]

/-- The loop of `recalc_pref_func` from a state `tmp` whose prefix ends the text `w`, when
no longer prefix can be extended by `b`: it ends within `tmp` iterations, in the longest
state that `b` extends, or in `0`; it reads `a` below `strlen` and the table below `tmp`. -/
theorem recalc_loop_spec (p tab w : List Nat) (b : Nat) (htab : table_ok p tab) (fuel : Nat) :
    ∀ tmp, tmp ≤ fuel → tmp ≤ tab.length → tmp < p.length → p.take tmp <:+ w →
      (∀ j, j < p.length → p.take j <:+ w → p.getD j 0 = b → j ≤ tmp) →
      ∃ r, recalc_loop p tab b fuel tmp = .ok r ∧ r ≤ tmp ∧ p.take r <:+ w ∧
        (∀ j, j < p.length → p.take j <:+ w → p.getD j 0 = b → j ≤ r) ∧
        (r ≠ 0 → p.getD r 0 = b) := by
  induction fuel with
  | zero =>
    intro tmp h1 _ _ h4 h5
    have h0 : tmp = 0 := by omega
    subst h0
    exact ⟨0, rfl, le_refl _, h4, h5, fun h => absurd rfl h⟩
  | succ fuel ih =>
    intro tmp h1 h2 h3 h4 h5
    by_cases h0 : tmp = 0
    · subst h0
      exact ⟨0, rfl, le_refl _, h4, h5, fun h => absurd rfl h⟩
    · have hstep : recalc_loop p tab b (fuel + 1) tmp =
          if p.getD tmp 0 ≠ b then
            (tab_at tab (tmp - 1)).bind fun t => recalc_loop p tab b fuel t
          else .ok tmp := by
        show (if tmp ≠ 0 then _ else _) = _
        rw [if_pos h0, char_at_lt p h3]
        rfl
      rw [hstep]
      by_cases hb : p.getD tmp 0 = b
      · rw [if_neg (not_not.mpr hb)]
        exact ⟨tmp, rfl, le_refl _, h4, h5, fun _ => hb⟩
      · rw [if_pos hb, tab_at_lt tab (by omega)]
        have hbord := htab (tmp - 1) (by omega)
        rw [show tmp - 1 + 1 = tmp by omega, longest_border_take p (by omega)] at hbord
        obtain ⟨b1, b2, b3⟩ := hbord
        generalize tab.getD (tmp - 1) 0 = t at *
        obtain ⟨r, r1, r2, r3, r4, r5⟩ := ih t (by omega) (by omega) (by omega) (b2.trans h4)
          (by
            intro j hj hs hjb
            have hle := h5 j hj hs hjb
            have hne : j ≠ tmp := fun e => hb (e ▸ hjb)
            exact b3 j (by omega) (take_suffix_take p w (by omega) (by omega) hs h4))
        exact ⟨r, r1, by omega, r3, r4, r5⟩

/-- One step of the search: from the state of the text `w`, `recalc_pref_func` returns the
state of the text `w` with `b` added. -/
theorem recalc_pref_func_spec (p tab w : List Nat) (b : Nat) (htab : table_ok p tab)
    (fuel tmp : Nat) (hfuel : tmp ≤ fuel) (hlen : tmp ≤ tab.length) (hlt : tmp < p.length)
    (hst : max_state p w tmp) :
    ∃ r, recalc_pref_func fuel p tab b tmp = .ok r ∧ r ≤ tmp + 1 ∧ max_state p (w ++ [b]) r := by
  obtain ⟨_, s2, s3⟩ := hst
  obtain ⟨r, r1, r2, r3, r4, r5⟩ := recalc_loop_spec p tab w b htab fuel tmp hfuel hlen hlt s2
    (fun j hj hs _ => s3 j (Nat.le_of_lt hj) hs)
  have hcall : recalc_pref_func fuel p tab b tmp =
      .ok (r + if p.getD r 0 = b then 1 else 0) := by
    unfold recalc_pref_func
    rw [r1]
    show (char_at p r).bind _ = _
    rw [char_at_lt p (by omega)]
    rfl
  rw [hcall]
  by_cases hb : p.getD r 0 = b
  · rw [if_pos hb]
    refine ⟨r + 1, rfl, by omega, by omega, ?_, ?_⟩
    · exact (take_succ_suffix p w b (by omega)).mpr ⟨r3, hb⟩
    · intro j hj hs
      cases j with
      | zero => omega
      | succ j =>
        obtain ⟨e1, e2⟩ := (take_succ_suffix p w b (by omega)).mp hs
        have := r4 j (by omega) e1 e2
        omega
  · rw [if_neg hb]
    have hr0 : r = 0 := by
      by_contra hne
      exact hb (r5 hne)
    subst hr0
    refine ⟨0, rfl, by omega, Nat.zero_le _, List.nil_suffix, ?_⟩
    intro j hj hs
    cases j with
    | zero => omega
    | succ j =>
      obtain ⟨e1, e2⟩ := (take_succ_suffix p w b (by omega)).mp hs
      have hj0 := r4 j (by omega) e1 e2
      have : j = 0 := by omega
      subst this
      exact absurd e2 hb

/-! ## The table -/

theorem table_ok_append (p tab : List Nat) (r : Nat) (htab : table_ok p tab)
    (hr : longest_border (p.take (tab.length + 1)) r) : table_ok p (tab ++ [r]) := by
  intro i hi
  rw [List.length_append, List.length_singleton] at hi
  by_cases h : i < tab.length
  · rw [List.getD_append _ _ _ _ h]
    exact htab i h
  · have hi' : i = tab.length := by omega
    subst hi'
    rw [List.getD_eq_getElem?_getD, List.getElem?_append_right (le_refl _), Nat.sub_self]
    exact hr

/-- The loop that fills the table: from the entries `0 .. i - 1` it returns the whole
table, every entry being the longest border of its prefix of the pattern. -/
theorem build_loop_spec (p : List Nat) (fuel : Nat) (hfuel : p.length ≤ fuel) (k : Nat) :
    ∀ (i : Nat) (tab : List Nat), tab.length = i → 0 < i → i + k = p.length →
      table_ok p tab →
      ∃ tab1, build_loop fuel p k i tab = .ok tab1 ∧ tab1.length = p.length ∧
        table_ok p tab1 := by
  induction k with
  | zero =>
    intro i tab h1 _ h3 h4
    exact ⟨tab, rfl, by omega, h4⟩
  | succ k ih =>
    intro i tab h1 h2 h3 h4
    have hbord := h4 (i - 1) (by omega)
    rw [show i - 1 + 1 = i by omega, longest_border_iff_max_state p (by omega) h2] at hbord
    have hprev : tab.getD (i - 1) 0 < i := by
      have := hbord.2.1.length_le
      have hl1 : (p.take (tab.getD (i - 1) 0)).length = tab.getD (i - 1) 0 :=
        length_take_le p hbord.1
      have hl2 : (p.take i).length = i := length_take_le p (by omega)
      rw [List.length_tail, hl1, hl2] at this
      omega
    obtain ⟨r, r1, _, r3⟩ := recalc_pref_func_spec p tab (p.take i).tail (p.getD i 0) h4
      fuel (tab.getD (i - 1) 0) (by omega) (by omega) (by omega) hbord
    rw [← tail_take_succ p (by omega) h2,
      ← longest_border_iff_max_state p (by omega) (by omega)] at r3
    have hstep : build_loop fuel p (k + 1) i tab = build_loop fuel p k (i + 1) (tab ++ [r]) := by
      show (char_at p i).bind _ = _
      rw [char_at_lt p (by omega)]
      show (tab_at tab (i - 1)).bind _ = _
      rw [tab_at_lt tab (by omega)]
      show (recalc_pref_func fuel p tab (p.getD i 0) (tab.getD (i - 1) 0)).bind _ = _
      rw [r1]
      rfl
    rw [hstep]
    exact ih (i + 1) (tab ++ [r]) (by simp [h1]) (by omega) (by omega)
      (table_ok_append p tab r h4 (by rw [h1]; exact r3))

/-- The table that `main` builds for a non-empty pattern. -/
theorem build_table_spec (p : List Nat) (fuel : Nat) (hfuel : p.length ≤ fuel) (hne : p ≠ []) :
    ∃ tab, build_table fuel p = .ok tab ∧ tab.length = p.length ∧ table_ok p tab := by
  have hlen : 0 < p.length := List.length_pos.mpr hne
  unfold build_table
  rw [if_neg (by omega)]
  apply build_loop_spec p fuel hfuel (p.length - 1) 1 [0] rfl (by omega) (by omega)
  intro i hi
  have hi0 : i = 0 := by simpa using hi
  subst hi0
  rw [longest_border_take p (by omega)]
  refine ⟨by decide, List.nil_suffix, ?_⟩
  intro j hj _
  omega

/-! ## The scan of the file -/

/-- The scan from the state of the text `w` read so far, in which the pattern does not occur:
it ends, with `"Yes"` exactly when the pattern occurs in `w` followed by the rest of the
file. -/
theorem scan_spec (p tab : List Nat) (fuel : Nat) (hfuel : p.length ≤ fuel)
    (htab : table_ok p tab) (hlen : tab.length = p.length) (cs : List Nat) :
    ∀ (w : List Nat) (tmp : Nat), max_state p w tmp → tmp < p.length → ¬ p <:+: w →
      ∃ r, scan fuel p tab cs tmp = .ok r ∧ (r = true ↔ p <:+: w ++ cs) := by
  induction cs with
  | nil =>
    intro w tmp _ _ h3
    refine ⟨false, rfl, ?_⟩
    rw [List.append_nil]
    simp [h3]
  | cons c cs ih =>
    intro w tmp h1 h2 h3
    obtain ⟨r, r1, _, r3⟩ := recalc_pref_func_spec p tab w c htab fuel tmp
      (by omega) (by omega) h2 h1
    have hstep : scan fuel p tab (c :: cs) tmp =
        if r = p.length then .ok true else scan fuel p tab cs r := by
      show (recalc_pref_func fuel p tab c tmp).bind _ = _
      rw [r1]
      rfl
    rw [hstep, show w ++ c :: cs = (w ++ [c]) ++ cs by simp]
    by_cases hr : r = p.length
    · rw [if_pos hr]
      refine ⟨true, rfl, ?_⟩
      have hs := r3.2.1
      rw [hr, List.take_length] at hs
      simp only [true_iff]
      exact hs.isInfix.trans (List.infix_append' [] (w ++ [c]) cs)
    · rw [if_neg hr]
      apply ih (w ++ [c]) r r3 (by have := r3.1; omega)
      intro hin
      rcases List.infix_concat_iff.mp hin with hs | hi
      · have := r3.2.2 p.length (le_refl _) (by rw [List.take_length]; exact hs)
        have := r3.1
        omega
      · exact h3 hi


/-! ## Claim on the substring search -/

/-- C34: for every non-empty pattern `p` and every file contents `t`, `main` builds a table
of `strlen(p)` entries whose entry `i` is the length of the longest proper prefix of
`p[0..i]` that is also a suffix of it, and returns: it prints `"Yes"` exactly when `p`
occurs as a contiguous part of `t`, and `"No"` otherwise.  No read of `a[tmp]` or `tab[tmp
- 1]` leaves the initialized memory (the result is not `out_of_bounds`), and every run of
the loop of `recalc_pref_func` ends within `strlen(p)` iterations. -/
theorem C34_substring_search (p t : List Nat) (fuel : Nat) (hne : p ≠ [])
    (hfuel : p.length ≤ fuel) :
    ∃ max_prefix r, build_table fuel p = .ok max_prefix ∧ max_prefix.length = p.length ∧
      (∀ i, i < p.length → longest_border (p.take (i + 1)) ( max_prefix.getD i 0)) ∧
      main fuel p t = .ok r ∧ (r = true ↔ p <:+: t) ∧ (r = false ↔ ¬ p <:+: t) := by
  obtain ⟨tab, b1, b2, b3⟩ := build_table_spec p fuel hfuel hne
  obtain ⟨r, r1, r2⟩ := scan_spec p tab fuel hfuel b3 b2 t [] 0 (max_state_nil p)
    ( List.length_pos.mpr hne) (by
      intro h
      exact hne ( List.eq_nil_of_infix_nil h))
  rw [List.nil_append] at r2
  refine ⟨tab, r, b1, b2, ?_, ?_, r2, ?_⟩
  · intro i hi
    exact b3 i (by rw [b2]; exact hi)
  · unfold main
    rw [b1]
    exact r1
  · rw [← r2]
    cases r <;> simp

theorem C34_substring_search_witness :
    build_table 3 [97, 98, 97] = .ok [0, 0, 1] ∧
    main 3 [97, 98, 97] [120, 97, 98, 120, 97, 98, 97, 121] = .ok true ∧
    main 3 [97, 98, 97] [120, 97, 98, 120, 97, 98, 98, 121] = .ok false ∧
    ∃ max_prefix r, build_table 3 [97, 98, 97] = .ok max_prefix ∧
      max_prefix.length = [97, 98, 97].length ∧
      (∀ i, i < [97, 98, 97].length →
        longest_border ([97, 98, 97].take (i + 1)) ( max_prefix.getD i 0)) ∧
      main 3 [97, 98, 97] [120, 97, 98, 120, 97, 98, 97, 121] = .ok r ∧
      (r = true ↔ [97, 98, 97] <:+: [120, 97, 98, 120, 97, 98, 97, 121]) ∧
      (r = false ↔ ¬ [97, 98, 97] <:+: [120, 97, 98, 120, 97, 98, 97, 121]) :=
  ⟨by decide, by decide, by decide,
    C34_substring_search [97, 98, 97] [120, 97, 98, 120, 97, 98, 97, 121] 3 (by decide)
      (by decide)⟩

end substr
